import Mathlib

/-!
# alignhash (ulib, `alignhash_tpl.h`): open addressing with in-place rehash

A shallow embedding of the macro-generated hash table of `alignhash_tpl.h`
(default 32-bit index width) and a verification of its contract.

Conventions of the embedding

* `ah_size_t` / `ah_iter_t` values are natural numbers.  The development covers
  tables whose counters do not wrap (fewer than `2^31` buckets); the one place
  where the source truncates a value that can be large, the hash `k`, keeps its
  `% 2^32`.
* The flag array is the list of its 32-bit words, two bits per bucket, exactly
  as the `AH_*` macros address it.  The null pointer is the empty list.
* `keys` and `vals` are maps from bucket index to content; what a `realloc`
  leaves uninitialised is whatever the map holds there, and no statement below
  depends on it.
* `_hasheq` is a lawful equality: it is the equality of the key type.
* `malloc`/`realloc` succeed.
* Loops without a static bound take a fuel argument; `none` means the fuel ran
  out.  Every statement that an operation returns is proved as `= some _`.
-/

namespace AlignHash

set_option linter.unusedSectionVars false

/-! ## Flag words -/

/-- Modelled from the spec: the macro `DIV_ROUND_UP` comes from `bit.h`, which is
not part of the source tree; it is the rounded-up quotient that gives the number of
machine words needed to pack the 2-bit slot states. -/
def DIV_ROUND_UP (n d : Nat) : Nat := (n + d - 1) / d

/-- Number of `ah_size_t` words of the flag array: `AH_NFLAGS(nb)` with
`BITS_PER_BYTE * sizeof(ah_size_t) = 32`. -/
def AH_NFLAGS (nb : Nat) : Nat := DIV_ROUND_UP (nb * 2) (8 * 4)

/-- Store into a 32-bit word. -/
def u32 (x : Nat) : Nat := x % 4294967296

/-- Bitwise complement of an `unsigned long` (`~x`). -/
def ulnot (x : Nat) : Nat := 18446744073709551615 ^^^ x

/-- The macro `AH_ISDEL(flag, i)`. -/
def AH_ISDEL (flag : List Nat) (i : Nat) : Nat :=
  (flag.getD (i >>> 4) 0 >>> ((i &&& 0xf) <<< 1)) &&& 1

/-- The macro `AH_ISEMPTY(flag, i)`. -/
def AH_ISEMPTY (flag : List Nat) (i : Nat) : Nat :=
  (flag.getD (i >>> 4) 0 >>> ((i &&& 0xf) <<< 1)) &&& 2

/-- The macro `AH_ISEITHER(flag, i)`. -/
def AH_ISEITHER (flag : List Nat) (i : Nat) : Nat :=
  (flag.getD (i >>> 4) 0 >>> ((i &&& 0xf) <<< 1)) &&& 3

/-- The macro `AH_CLEAR_EMPTY(flag, i)`. -/
def AH_CLEAR_EMPTY (flag : List Nat) (i : Nat) : List Nat :=
  flag.set (i >>> 4) (u32 (flag.getD (i >>> 4) 0 &&& ulnot (2 <<< ((i &&& 0xf) <<< 1))))

/-- The macro `AH_CLEAR_BOTH(flag, i)`. -/
def AH_CLEAR_BOTH (flag : List Nat) (i : Nat) : List Nat :=
  flag.set (i >>> 4) (u32 (flag.getD (i >>> 4) 0 &&& ulnot (3 <<< ((i &&& 0xf) <<< 1))))

/-- The macro `AH_SET_DEL(flag, i)`. -/
def AH_SET_DEL (flag : List Nat) (i : Nat) : List Nat :=
  flag.set (i >>> 4) (u32 (flag.getD (i >>> 4) 0 ||| (1 <<< ((i &&& 0xf) <<< 1))))

/-- The word that `memset(.., 0xaa, ..)` writes: every slot Empty. -/
def AA_WORD : Nat := 0xaaaaaaaa

/-- Effect of `memset(flag, 0xaa, n * sizeof(ah_size_t))` on the first `n` words. -/
def memset_aa (flag : List Nat) (n : Nat) : List Nat :=
  List.replicate n AA_WORD ++ flag.drop n

/-- Return codes of `alignhash_set`. -/
def AH_INS_ERR : Nat := 0
/-- Inserted at a new bucket. -/
def AH_INS_NEW : Nat := 1
/-- Inserted at a deleted bucket. -/
def AH_INS_DEL : Nat := 2

/-- The macro `AH_PROBE_STEP(h, r, m)`; `tier` says whether `AH_TIER_PROBING` is
defined. -/
def AH_PROBE_STEP (tier : Bool) (h r m : Nat) : Nat :=
  if tier then ((h >>> r) ||| 1) &&& m else 1

/-- The value `(ah_size_t)(nb * AH_LOAD_FACTOR + 0.5)`, that is `floor(0.77 * nb + 0.5)`.
For every `nb` below `2^32` the double computation of the source agrees with this
integer formula: the rounding error of `nb * 0.77` is far below the distance of
`0.77 * nb + 0.5` to the next integer, and where that sum is an integer
(`nb = 50 mod 100`) the product rounds to the exact half-integer. -/
def AH_SUP (nb : Nat) : Nat := (77 * nb + 50) / 100

/-! ## The table -/

/-- The struct `alignhash_##_name##_t`. -/
structure alignhash_t (K V : Type) where
  nbucket : Nat
  mask : Nat
  order : Nat
  size : Nat
  nused : Nat
  sup : Nat
  flags : List Nat
  keys : Nat → K
  vals : Nat → V

/-- The instantiation parameters of `DECLARE_ALIGNHASH` together with the probing
policy: `tier` (is `AH_TIER_PROBING` defined), `ismap` (`_ismap`), `hashfn`
(`_hashfn`). -/
structure Decl (K : Type) where
  tier : Bool
  ismap : Bool
  hashfn : K → Nat

variable {K V : Type} [DecidableEq K]

/-- The function `alignhash_init`: a zeroed struct.  `keys0` and `vals0` stand for
the unspecified memory the buffers will later be allocated from. -/
def alignhash_init (keys0 : Nat → K) (vals0 : Nat → V) : alignhash_t K V :=
  { nbucket := 0, mask := 0, order := 0, size := 0, nused := 0, sup := 0,
    flags := [], keys := keys0, vals := vals0 }

/-- The function `alignhash_clear`. -/
def alignhash_clear (h : alignhash_t K V) : alignhash_t K V :=
  if h.flags ≠ [] then
    { h with flags := memset_aa h.flags (AH_NFLAGS h.nbucket), size := 0, nused := 0 }
  else h

/-- One advance of the probe index: `if (i + step >= nb) i = i + step - nb; else i += step`. -/
def probe_next (nb step i : Nat) : Nat :=
  if i + step ≥ nb then i + step - nb else i + step

/-- The probe loop of `alignhash_get`, including both `return`s it leads to. -/
def get_loop (h : alignhash_t K V) (key : K) (step last : Nat) : Nat → Nat → Option Nat
  | 0, _ => none
  | fuel + 1, i =>
    if AH_ISEMPTY h.flags i = 0 ∧ (AH_ISDEL h.flags i ≠ 0 ∨ h.keys i ≠ key) then
      if probe_next h.nbucket step i = last then some h.nbucket
      else get_loop h key step last fuel (probe_next h.nbucket step i)
    else some (if AH_ISEMPTY h.flags i ≠ 0 then h.nbucket else i)

/-- The function `alignhash_get`. -/
def alignhash_get (d : Decl K) (h : alignhash_t K V) (key : K) : Option Nat :=
  if h.nbucket ≠ 0 then
    let k := d.hashfn key % 4294967296
    let i := k &&& h.mask
    let step := AH_PROBE_STEP d.tier k h.order h.mask
    get_loop h key step i h.nbucket i
  else some 0

/-- The inner `while (!AH_ISEMPTY(new_flags, i))` loop of `alignhash_resize`. -/
def resize_probe (new_flags : List Nat) (new_nbucket step : Nat) : Nat → Nat → Option Nat
  | 0, _ => none
  | fuel + 1, i =>
    if AH_ISEMPTY new_flags i = 0 then
      resize_probe new_flags new_nbucket step fuel (probe_next new_nbucket step i)
    else some i

/-- The `for (;;)` displacement chain of `alignhash_resize`, started with `key`/`val`
in hand.  The state is the table (its old flags, keys and values are updated in
place) and the new flag array. -/
def resize_chain (d : Decl K) (new_nbucket new_order new_mask : Nat) :
    Nat → alignhash_t K V → List Nat → K → V → Option (alignhash_t K V × List Nat)
  | 0, _, _, _, _ => none
  | fuel + 1, h, new_flags, key, val =>
    let k := d.hashfn key % 4294967296
    let step := AH_PROBE_STEP d.tier k new_order new_mask
    match resize_probe new_flags new_nbucket step new_nbucket (k &&& new_mask) with
    | none => none
    | some i =>
      if i < h.nbucket ∧ AH_ISEITHER h.flags i = 0 then
        resize_chain d new_nbucket new_order new_mask fuel
          { h with
            keys := Function.update h.keys i key,
            vals := if d.ismap then Function.update h.vals i val else h.vals,
            flags := AH_SET_DEL h.flags i }
          (AH_CLEAR_EMPTY new_flags i) (h.keys i) (if d.ismap then h.vals i else val)
      else
        some ({ h with
                keys := Function.update h.keys i key,
                vals := if d.ismap then Function.update h.vals i val else h.vals },
              AH_CLEAR_EMPTY new_flags i)

/-- The `for (j = 0; j != h->nbucket; ++j)` walk of `alignhash_resize`; the first
argument counts the iterations that remain. -/
def resize_walk (d : Decl K) (new_nbucket new_order new_mask : Nat) :
    Nat → Nat → alignhash_t K V → List Nat → Option (alignhash_t K V × List Nat)
  | 0, _, h, new_flags => some (h, new_flags)
  | n + 1, j, h, new_flags =>
    if AH_ISEITHER h.flags j = 0 then
      match resize_chain d new_nbucket new_order new_mask (h.nbucket + 1)
          { h with flags := AH_SET_DEL h.flags j } new_flags (h.keys j) (h.vals j) with
      | none => none
      | some (h', new_flags') => resize_walk d new_nbucket new_order new_mask n (j + 1) h' new_flags'
    else resize_walk d new_nbucket new_order new_mask n (j + 1) h new_flags

/-- The function `alignhash_resize`; the first component is the returned `int`. -/
def alignhash_resize (d : Decl K) (h : alignhash_t K V) (new_nbucket new_order : Nat) :
    Option (Int × alignhash_t K V) :=
  if h.size ≥ AH_SUP new_nbucket then some (-1, h)
  else
    match resize_walk d new_nbucket new_order (new_nbucket - 1) h.nbucket 0 h
        (memset_aa [] (AH_NFLAGS new_nbucket)) with
    | none => none
    | some (h', new_flags) =>
      some (0, { h' with
                 flags := new_flags, nbucket := new_nbucket, order := new_order,
                 mask := new_nbucket - 1, nused := h'.size, sup := AH_SUP new_nbucket })

/-- The probe loop of `alignhash_set`; the state is `(i, site, x)`. -/
def set_loop (h : alignhash_t K V) (key : K) (step last : Nat) :
    Nat → Nat → Nat → Nat → Option (Nat × Nat × Nat)
  | 0, _, _, _ => none
  | fuel + 1, i, site, x =>
    if AH_ISEMPTY h.flags i = 0 ∧ (AH_ISDEL h.flags i ≠ 0 ∨ h.keys i ≠ key) then
      if probe_next h.nbucket step i = last then
        some (probe_next h.nbucket step i, (if AH_ISDEL h.flags i ≠ 0 then i else site),
              (if AH_ISDEL h.flags i ≠ 0 then i else site))
      else
        set_loop h key step last fuel (probe_next h.nbucket step i)
          (if AH_ISDEL h.flags i ≠ 0 then i else site) x
    else some (i, site, x)

/-- The search part of `alignhash_set` (from `site = h->nbucket` to the end of the
`else` block): the bucket `x` the key belongs to. -/
def set_find (d : Decl K) (h : alignhash_t K V) (key : K) : Option Nat :=
  let k := d.hashfn key % 4294967296
  let i := k &&& h.mask
  if AH_ISEMPTY h.flags i ≠ 0 then some i
  else
    match set_loop h key (AH_PROBE_STEP d.tier k h.order h.mask) i h.nbucket i h.nbucket
        h.nbucket with
    | none => none
    | some (i, site, x) =>
      if x = h.nbucket then
        if AH_ISEMPTY h.flags i ≠ 0 ∧ site ≠ h.nbucket then some site else some i
      else some x

/-- The tail of `alignhash_set`: store the key at `x` and report through `*ret`. -/
def set_store (h : alignhash_t K V) (key : K) (x : Nat) : alignhash_t K V × Nat × Nat :=
  if AH_ISEMPTY h.flags x ≠ 0 then
    ({ h with keys := Function.update h.keys x key, flags := AH_CLEAR_BOTH h.flags x,
              size := h.size + 1, nused := h.nused + 1 }, x, AH_INS_NEW)
  else if AH_ISDEL h.flags x ≠ 0 then
    ({ h with keys := Function.update h.keys x key, flags := AH_CLEAR_BOTH h.flags x,
              size := h.size + 1 }, x, AH_INS_DEL)
  else (h, x, AH_INS_ERR)

/-- The growth check at the head of `alignhash_set` (`if (h->nused >= h->sup) ...`):
the return code of the `alignhash_resize` call, 0 when none is made, and the table. -/
def set_grow (d : Decl K) (h : alignhash_t K V) : Option (Int × alignhash_t K V) :=
  if h.nused ≥ h.sup then
    if h.nbucket ≠ 0 then alignhash_resize d h (h.nbucket * 2) (h.order + 1)
    else alignhash_resize d h 2 0
  else some (0, h)

/-- The function `alignhash_set`.  The result is the table, the returned iterator
and the content of `*ret`, which is `ret` on entry. -/
def alignhash_set (d : Decl K) (h : alignhash_t K V) (key : K) (ret : Nat) :
    Option (alignhash_t K V × Nat × Nat) :=
  match set_grow d h with
  | none => none
  | some (rc, h1) =>
    if rc ≠ 0 then some (h1, h1.nbucket, ret)
    else
      match set_find d h1 key with
      | none => none
      | some x => some (set_store h1 key x)

/-- The function `alignhash_del`. -/
def alignhash_del (h : alignhash_t K V) (x : Nat) : alignhash_t K V :=
  if x ≠ h.nbucket ∧ AH_ISEITHER h.flags x = 0 then
    { h with flags := AH_SET_DEL h.flags x, size := h.size - 1 }
  else h

/-- The macro `alignhash_key`. -/
def alignhash_key (h : alignhash_t K V) (x : Nat) : K := h.keys x

/-- The macro `alignhash_value` read as an rvalue. -/
def alignhash_value (h : alignhash_t K V) (x : Nat) : V := h.vals x

/-- The macro `alignhash_value` used as an lvalue: `alignhash_value(h, x) = v`. -/
def alignhash_value_assign (h : alignhash_t K V) (x : Nat) (v : V) : alignhash_t K V :=
  { h with vals := Function.update h.vals x v }

/-- The macro `alignhash_exist`. -/
def alignhash_exist (h : alignhash_t K V) (x : Nat) : Bool := AH_ISEITHER h.flags x = 0

/-- The macro `alignhash_end`. -/
def alignhash_end (h : alignhash_t K V) : Nat := h.nbucket

/-- The macro `alignhash_size`. -/
def alignhash_size (h : alignhash_t K V) : Nat := h.size

/-- The macro `alignhash_nbucket`. -/
def alignhash_nbucket (h : alignhash_t K V) : Nat := h.nbucket

/-! ## Auxiliary definitions of the verification -/

/-- The flag word that holds the two state bits of bucket `i`. -/
def fword (flag : List Nat) (i : Nat) : Nat := flag.getD (i / 16) 0

/-- The bucket visited after `t` advances of the probe index from `i0`. -/
def probe_at (nb step i0 : Nat) (t : Nat) : Nat := (probe_next nb step)^[t] i0

/-- The truncated hash `k = _hashfn(key)` as an `ah_size_t`. -/
def hkey (d : Decl K) (key : K) : Nat := d.hashfn key % 4294967296

/-- The bucket that the probe sequence of `key` visits after `t` advances, in a table
of `nb` buckets with the given `order` and `mask`. -/
def path (d : Decl K) (nb order mask : Nat) (key : K) (t : Nat) : Nat :=
  probe_at nb (AH_PROBE_STEP d.tier (hkey d key) order mask) (hkey d key &&& mask) t

/-- Bucket `i` is reached by the probe sequence of its key before any Empty bucket. -/
def PathOK (d : Decl K) (nb order mask : Nat) (fl : List Nat) (keys : Nat → K) (i : Nat) : Prop :=
  ∃ t, t < nb ∧ path d nb order mask (keys i) t = i ∧
    ∀ u, u < t → AH_ISEMPTY fl (path d nb order mask (keys i) u) = 0

/-- Number of Occupied buckets among the first `n`. -/
def occ_count (fl : List Nat) (n : Nat) : Nat :=
  ((Finset.range n).filter (fun i => AH_ISEITHER fl i = 0)).card

/-- Number of buckets among the first `n` that are not Empty. -/
def used_count (fl : List Nat) (n : Nat) : Nat :=
  ((Finset.range n).filter (fun i => AH_ISEMPTY fl i = 0)).card

/-- Number of Deleted buckets among the first `n`. -/
def del_count (fl : List Nat) (n : Nat) : Nat :=
  ((Finset.range n).filter (fun i => AH_ISDEL fl i ≠ 0)).card

/-- The value of `site` after the probe loop of `alignhash_set` has passed the `n`
buckets `p s, .., p (s + n - 1)`. -/
def site_after (fl : List Nat) (p : Nat → Nat) : Nat → Nat → Nat → Nat
  | site, _, 0 => site
  | site, s, n + 1 => site_after fl p (if AH_ISDEL fl (p s) ≠ 0 then p s else site) (s + 1) n

/-- The representation invariant of the table. -/
structure WF (d : Decl K) (h : alignhash_t K V) : Prop where
  pow2 : h.nbucket = 0 ∨ ∃ m, h.nbucket = 2 ^ m
  mask_eq : h.mask = h.nbucket - 1
  sup_eq : h.sup = AH_SUP h.nbucket
  flags_len : h.flags.length = AH_NFLAGS h.nbucket
  no3 : ∀ i, i < h.nbucket → AH_ISEMPTY h.flags i ≠ 0 → AH_ISDEL h.flags i = 0
  size_eq : h.size = occ_count h.flags h.nbucket
  nused_eq : h.nused = used_count h.flags h.nbucket
  nodup : ∀ i j, i < h.nbucket → j < h.nbucket → AH_ISEITHER h.flags i = 0 →
    AH_ISEITHER h.flags j = 0 → h.keys i = h.keys j → i = j
  path_ok : ∀ i, i < h.nbucket → AH_ISEITHER h.flags i = 0 →
    PathOK d h.nbucket h.order h.mask h.flags h.keys i

/-- Key `k` is stored at bucket `i`: the bucket is Occupied and holds `k`. -/
def At (h : alignhash_t K V) (i : Nat) (k : K) : Prop :=
  i < h.nbucket ∧ AH_ISEITHER h.flags i = 0 ∧ h.keys i = k

/-- The value attached to bucket `i`: present in the map variant only. -/
def ventry (d : Decl K) (vals : Nat → V) (i : Nat) : Option V :=
  if d.ismap then some (vals i) else none

/-- The shape of an allocated table: a power-of-two bucket count with its bit mask. -/
def Geo (nb mask : Nat) : Prop := ∃ m, nb = 2 ^ m ∧ mask = 2 ^ m - 1

/-- The content of bucket `j`: its key and, in the map variant, its value. -/
def sentry (d : Decl K) (keys : Nat → K) (vals : Nat → V) (j : Nat) : K × Option V :=
  (keys j, ventry d vals j)

/-- The content held in the local variables `key`, `val` of `alignhash_resize`. -/
def hentry (d : Decl K) (key : K) (val : V) : K × Option V :=
  (key, if d.ismap then some val else none)

/-- During the rehash, bucket `i` holds a live entry: it was already placed (non-Empty in
the new flags) or it is an original entry not yet processed (Occupied in the old flags). -/
def Live (nn nb0 : Nat) (nf fl : List Nat) (i : Nat) : Prop :=
  (i < nn ∧ AH_ISEMPTY nf i = 0) ∨ (i < nb0 ∧ AH_ISEITHER fl i = 0)

/-- The invariant of the in-place rehash of `alignhash_resize`.  `h0` is the table on
entry, `h` the table being rewritten (old flags, keys, values), `nf` the new flag array
and `hand` the entry held in `key`/`val`, if any. -/
structure RInv (d : Decl K) (nn no nm : Nat) (h0 h : alignhash_t K V) (nf : List Nat)
    (hand : Option (K × Option V)) : Prop where
  nb_eq : h.nbucket = h0.nbucket
  size_eq : h.size = h0.size
  fl_len : h.flags.length = AH_NFLAGS h0.nbucket
  nf_len : nf.length = AH_NFLAGS nn
  nf_nodel : ∀ i, AH_ISDEL nf i = 0
  disj : ∀ i, i < nn → AH_ISEMPTY nf i = 0 → i < h0.nbucket → AH_ISEITHER h.flags i ≠ 0
  inj : ∀ i j, Live nn h0.nbucket nf h.flags i → Live nn h0.nbucket nf h.flags j →
    h.keys i = h.keys j → i = j
  fresh : ∀ e, hand = some e → ∀ i, Live nn h0.nbucket nf h.flags i → h.keys i ≠ e.1
  content : ∀ e, ((∃ i, Live nn h0.nbucket nf h.flags i ∧ sentry d h.keys h.vals i = e) ∨
      hand = some e) ↔
    (∃ i, i < h0.nbucket ∧ AH_ISEITHER h0.flags i = 0 ∧ sentry d h0.keys h0.vals i = e)
  path_ok : ∀ i, i < nn → AH_ISEMPTY nf i = 0 → PathOK d nn no nm nf h.keys i
  count : used_count nf nn + occ_count h.flags h0.nbucket + (if hand.isSome then 1 else 0)
    = h0.size

/-- Key `k` is stored in the table and `ov` is the value attached to its bucket (`none`
in the set variant). -/
def Holds (d : Decl K) (h : alignhash_t K V) (k : K) (ov : Option V) : Prop :=
  ∃ i, At h i k ∧ ventry d h.vals i = ov

/-- The table states that arise from `alignhash_init` by calls of `alignhash_set`,
`alignhash_del` (on an iterator of the table, `alignhash_end` included),
`alignhash_clear`, assignments through `alignhash_value` and successful calls of
`alignhash_resize` with a power-of-two bucket count. -/
inductive Reachable (d : Decl K) : alignhash_t K V → Prop
  | init (keys0 : Nat → K) (vals0 : Nat → V) : Reachable d (alignhash_init keys0 vals0)
  | set (h : alignhash_t K V) (key : K) (ret : Nat) (r : alignhash_t K V × Nat × Nat) :
      Reachable d h → alignhash_set d h key ret = some r → Reachable d r.1
  | del (h : alignhash_t K V) (x : Nat) :
      Reachable d h → x ≤ h.nbucket → Reachable d (alignhash_del h x)
  | clear (h : alignhash_t K V) : Reachable d h → Reachable d (alignhash_clear h)
  | assign (h : alignhash_t K V) (x : Nat) (v : V) :
      Reachable d h → x < h.nbucket → Reachable d (alignhash_value_assign h x v)
  | resize (h : alignhash_t K V) (m r : Nat) (h' : alignhash_t K V) :
      Reachable d h → alignhash_resize d h (2 ^ m) r = some (0, h') → Reachable d h'

/-! ## Concrete instances used in the scenarios -/

/-- A map from naturals to naturals with linear probing and the naive hash
`alignhash_hashfn`. -/
def declNat : Decl Nat := { tier := false, ismap := true, hashfn := fun k => k }

/-- A freshly created table of that instance. -/
def fresh : alignhash_t Nat Nat := alignhash_init (fun _ => 0) (fun _ => 0)

/-- The table after `alignhash_set` of key 1 on `fresh`. -/
def tbl1 : alignhash_t Nat Nat :=
  { nbucket := 2, mask := 1, order := 0, size := 1, nused := 1, sup := 2,
    flags := [2863311522], keys := Function.update (fun _ => 0) 1 1, vals := fun _ => 0 }

/-- The table after `alignhash_set` of key 1 and then of key 2 on `fresh`. -/
def tbl12 : alignhash_t Nat Nat :=
  { nbucket := 2, mask := 1, order := 0, size := 2, nused := 2, sup := 2,
    flags := [2863311520],
    keys := Function.update (Function.update (fun _ => 0) 1 1) 0 2, vals := fun _ => 0 }

/-! ## Operation sequences and their reference models -/

/-- The operations of the refinement claim: `insert k` is `alignhash_set` of `k`,
`delete k` is `alignhash_del` of the iterator returned by `alignhash_get` of `k`. -/
inductive Op (K : Type) where
  | insert (k : K)
  | delete (k : K)

/-- One operation on the table; `none` only if a loop ran out of fuel. -/
def apply_op (d : Decl K) (h : alignhash_t K V) : Op K → Option (alignhash_t K V)
  | Op.insert k => (alignhash_set d h k 0).map (fun r => r.1)
  | Op.delete k => (alignhash_get d h k).map (fun x => alignhash_del h x)

/-- A sequence of operations on the table, left to right. -/
def run_ops (d : Decl K) : alignhash_t K V → List (Op K) → Option (alignhash_t K V)
  | h, [] => some h
  | h, op :: ops => (apply_op d h op).bind (fun h' => run_ops d h' ops)

/-- One operation on the reference set. -/
def ref_step (s : Finset K) : Op K → Finset K
  | Op.insert k => insert k s
  | Op.delete k => s.erase k

/-- The reference set after a sequence of operations from the empty set. -/
def ref_set (ops : List (Op K)) : Finset K := ops.foldl ref_step ∅

/-- Insert a key and write its value through the returned iterator:
`x = alignhash_set(h, k, &ret); alignhash_value(h, x) = v;`.  The result is the table
and the iterator `x`. -/
def put (d : Decl K) (h : alignhash_t K V) (k : K) (v : V) : Option (alignhash_t K V × Nat) :=
  (alignhash_set d h k 0).map (fun r => (alignhash_value_assign r.1 r.2.1 v, r.2.1))

/-- A sequence of `put`s, left to right. -/
def put_all (d : Decl K) : alignhash_t K V → List (K × V) → Option (alignhash_t K V)
  | h, [] => some h
  | h, kv :: l => (put d h kv.1 kv.2).bind (fun r => put_all d r.1 l)

/-- The value last written for key `k` by a sequence of `put`s. -/
def last_written : List (K × V) → K → Option V
  | [], _ => none
  | kv :: l, k =>
    match last_written l k with
    | some v => some v
    | none => if kv.1 = k then some kv.2 else none

/-- The table of the concrete scenario after inserting keys 1, 2, 3 into `fresh`. -/
def scen123 : Option (alignhash_t Nat Nat) :=
  run_ops declNat fresh [Op.insert 1, Op.insert 2, Op.insert 3]

/-- The table of the concrete scenario after inserting keys 1, 2, 3 and then deleting
key 2 through the iterator `alignhash_get` returns for it. -/
def scen123del : Option (alignhash_t Nat Nat) :=
  run_ops declNat fresh [Op.insert 1, Op.insert 2, Op.insert 3, Op.delete 2]

/-- A table with two tombstones in front of live entries: keys 8, 16, 24, 32 inserted
into `fresh` (they fill buckets 0..3 of the 8-bucket table), then keys 8 and 16 deleted
through their iterators. -/
def scenTomb : Option (alignhash_t Nat Nat) :=
  run_ops declNat fresh
    [Op.insert 8, Op.insert 16, Op.insert 24, Op.insert 32, Op.delete 8, Op.delete 16]

/-- The table of `scenTomb`. -/
def tblTomb : alignhash_t Nat Nat := scenTomb.getD fresh

/-- The probe loop of `alignhash_get` read once more, returning which `return` statement
ends it: `true` for the full-cycle guard `if (i == last) return h->nbucket;`, `false`
for the `return` that follows the loop. -/
def get_loop_guard (h : alignhash_t K V) (key : K) (step last : Nat) : Nat → Nat → Option Bool
  | 0, _ => none
  | fuel + 1, i =>
    if AH_ISEMPTY h.flags i = 0 ∧ (AH_ISDEL h.flags i ≠ 0 ∨ h.keys i ≠ key) then
      if probe_next h.nbucket step i = last then some true
      else get_loop_guard h key step last fuel (probe_next h.nbucket step i)
    else some false

/-- Whether `alignhash_get` returns through its full-cycle guard. -/
def get_guard (d : Decl K) (h : alignhash_t K V) (key : K) : Option Bool :=
  if h.nbucket ≠ 0 then
    let k := d.hashfn key % 4294967296
    let i := k &&& h.mask
    let step := AH_PROBE_STEP d.tier k h.order h.mask
    get_loop_guard h key step i h.nbucket i
  else some false

/-- The table states that arise from `alignhash_init` by `alignhash_set`, `alignhash_del`
(on an iterator of the table), `alignhash_clear` and assignments through
`alignhash_value` only: no direct call of `alignhash_resize`. -/
inductive ReachableNoResize (d : Decl K) : alignhash_t K V → Prop
  | init (keys0 : Nat → K) (vals0 : Nat → V) :
      ReachableNoResize d (alignhash_init keys0 vals0)
  | set (h : alignhash_t K V) (key : K) (ret : Nat) (r : alignhash_t K V × Nat × Nat) :
      ReachableNoResize d h → alignhash_set d h key ret = some r → ReachableNoResize d r.1
  | del (h : alignhash_t K V) (x : Nat) :
      ReachableNoResize d h → x ≤ h.nbucket → ReachableNoResize d (alignhash_del h x)
  | clear (h : alignhash_t K V) :
      ReachableNoResize d h → ReachableNoResize d (alignhash_clear h)
  | assign (h : alignhash_t K V) (x : Nat) (v : V) :
      ReachableNoResize d h → x < h.nbucket →
      ReachableNoResize d (alignhash_value_assign h x v)

/-- The counting part of the rehash invariant, which holds for every target bucket
count `nn`, power of two or not: the new flag array has no Deleted bucket, and the
buckets already placed, the original entries not yet processed and the entry in hand
(`hand = true`) add up to `size`. -/
structure RLite (nn : Nat) (h0 h : alignhash_t K V) (nf : List Nat) (hand : Bool) : Prop where
  nb_eq : h.nbucket = h0.nbucket
  size_eq : h.size = h0.size
  fl_len : h.flags.length = AH_NFLAGS h0.nbucket
  nf_len : nf.length = AH_NFLAGS nn
  nf_nodel : ∀ i, AH_ISDEL nf i = 0
  count : used_count nf nn + occ_count h.flags h0.nbucket + (if hand then 1 else 0) = h0.size

/-! ## The flag words: bucket-level reading of the bit operations -/


theorem shr4 (i : Nat) : i >>> 4 = i / 16 := by
  rw [Nat.shiftRight_eq_div_pow]

theorem and15 (i : Nat) : i &&& 0xf = i % 16 := by
  have := Nat.and_pow_two_sub_one_eq_mod i 4
  simpa using this

theorem shl1 (i : Nat) : i <<< 1 = 2 * i := by
  rw [Nat.shiftLeft_eq]; omega


theorem isdel_bit (flag : List Nat) (i : Nat) :
    AH_ISDEL flag i = ((fword flag i).testBit (2 * (i % 16))).toNat := by
  unfold AH_ISDEL fword
  rw [shr4, and15, shl1, Nat.toNat_testBit, Nat.and_one_is_mod, Nat.shiftRight_eq_div_pow]

theorem and_two (x : Nat) : x &&& 2 = 2 * (x.testBit 1).toNat := by
  apply Nat.eq_of_testBit_eq
  intro i
  rw [Nat.testBit_and]
  rcases i with _ | _ | i
  · cases h : x.testBit 1 <;> simp [h]
  · cases h : x.testBit 1 <;> simp [h]
  · cases h : x.testBit 1 <;> simp [h, Nat.testBit_succ]

theorem isempty_bit (flag : List Nat) (i : Nat) :
    AH_ISEMPTY flag i = 2 * ((fword flag i).testBit (2 * (i % 16) + 1)).toNat := by
  unfold AH_ISEMPTY fword
  rw [shr4, and15, shl1, and_two, Nat.testBit_shiftRight]

theorem and_three (x : Nat) : x &&& 3 = (x &&& 1) + (x &&& 2) := by
  have h3 := Nat.and_pow_two_sub_one_eq_mod x 2
  have h3' : x &&& 3 = x % 4 := by simpa using h3
  have h4 := Nat.toNat_testBit x 1
  rw [h3', and_two, Nat.and_one_is_mod, h4]
  omega

theorem iseither_eq (flag : List Nat) (i : Nat) :
    AH_ISEITHER flag i = AH_ISDEL flag i + AH_ISEMPTY flag i := by
  unfold AH_ISEITHER AH_ISDEL AH_ISEMPTY
  exact and_three _

theorem tb_set (w s b : Nat) :
    (u32 (w ||| 1 <<< s)).testBit b = (decide (b < 32) && (w.testBit b || decide (s = b))) := by
  unfold u32
  have : (4294967296 : Nat) = 2 ^ 32 := by norm_num
  rw [this, Nat.testBit_mod_two_pow, Nat.testBit_or, Nat.one_shiftLeft, Nat.testBit_two_pow]

theorem tb_ulnot (x b : Nat) (hb : b < 64) : (ulnot x).testBit b = !x.testBit b := by
  unfold ulnot
  have : (18446744073709551615 : Nat) = 2 ^ 64 - 1 := by norm_num
  rw [this, Nat.testBit_xor, Nat.testBit_two_pow_sub_one]
  simp [hb]

theorem tb_clear (w c s b : Nat) :
    (u32 (w &&& ulnot (c <<< s))).testBit b
      = (decide (b < 32) && (w.testBit b && !(decide (s ≤ b) && c.testBit (b - s)))) := by
  unfold u32
  have : (4294967296 : Nat) = 2 ^ 32 := by norm_num
  rw [this, Nat.testBit_mod_two_pow, Nat.testBit_and]
  by_cases hb : b < 32
  · rw [tb_ulnot _ _ (by omega), Nat.testBit_shiftLeft]
  · simp [hb]

theorem fword_set (flag : List Nat) (q w j : Nat) :
    fword (flag.set q w) j = if j / 16 = q ∧ q < flag.length then w else fword flag j := by
  unfold fword
  rw [List.getD_eq_getElem?_getD, List.getD_eq_getElem?_getD, List.getElem?_set]
  by_cases h1 : q = j / 16
  · subst h1
    by_cases h2 : j / 16 < flag.length
    · simp [h2]
    · have h3 : flag[j / 16]? = none := List.getElem?_eq_none (by omega)
      simp [h2, h3]
  · have : ¬ (j / 16 = q ∧ q < flag.length) := fun h => h1 h.1.symm
    simp [h1, this]

theorem tb2 (k : Nat) : Nat.testBit 2 k = decide (k = 1) := by
  have : (2 : Nat) = 2 ^ 1 := by norm_num
  rw [this, Nat.testBit_two_pow]
  by_cases h : k = 1 <;> simp [h, eq_comm]

theorem tb3 (k : Nat) : Nat.testBit 3 k = decide (k < 2) := by
  have : (3 : Nat) = 2 ^ 2 - 1 := by norm_num
  rw [this, Nat.testBit_two_pow_sub_one]

theorem isempty_set_del (flag : List Nat) (i j : Nat) :
    AH_ISEMPTY (AH_SET_DEL flag i) j = AH_ISEMPTY flag j := by
  rw [isempty_bit, isempty_bit]
  unfold AH_SET_DEL
  rw [shr4, and15, shl1, fword_set]
  split
  · rename_i h
    rw [tb_set]
    have h1 : fword flag j = flag.getD (i / 16) 0 := by unfold fword; rw [h.1]
    have h2 : 2 * (j % 16) + 1 < 32 := by omega
    have h3 : ¬ (2 * (i % 16) = 2 * (j % 16) + 1) := by omega
    simp [h1, h2, h3]
  · rfl

theorem isdel_set_del (flag : List Nat) (i j : Nat) (hi : i / 16 < flag.length) :
    AH_ISDEL (AH_SET_DEL flag i) j = if j = i then 1 else AH_ISDEL flag j := by
  rw [isdel_bit, isdel_bit]
  unfold AH_SET_DEL
  rw [shr4, and15, shl1, fword_set]
  by_cases hq : j / 16 = i / 16
  · rw [if_pos ⟨hq, hi⟩, tb_set]
    have h1 : fword flag j = flag.getD (i / 16) 0 := by unfold fword; rw [hq]
    have h2 : 2 * (j % 16) < 32 := by omega
    by_cases hji : j = i
    · subst hji; simp [h2]
    · have h3 : ¬ (2 * (i % 16) = 2 * (j % 16)) := by omega
      simp [h1, h2, h3, hji]
  · have : j ≠ i := fun h => hq (by rw [h])
    rw [if_neg (fun h => hq h.1), if_neg this]

theorem isdel_clear_empty (flag : List Nat) (i j : Nat) :
    AH_ISDEL (AH_CLEAR_EMPTY flag i) j = AH_ISDEL flag j := by
  rw [isdel_bit, isdel_bit]
  unfold AH_CLEAR_EMPTY
  rw [shr4, and15, shl1, fword_set]
  split
  · rename_i h
    rw [tb_clear, tb2]
    have h1 : fword flag j = flag.getD (i / 16) 0 := by unfold fword; rw [h.1]
    have h2 : 2 * (j % 16) < 32 := by omega
    have h3 : ¬ (2 * (j % 16) - 2 * (i % 16) = 1) := by omega
    simp [h1, h2, h3]
  · rfl

theorem isempty_clear_empty (flag : List Nat) (i j : Nat) (hi : i / 16 < flag.length) :
    AH_ISEMPTY (AH_CLEAR_EMPTY flag i) j = if j = i then 0 else AH_ISEMPTY flag j := by
  rw [isempty_bit, isempty_bit]
  unfold AH_CLEAR_EMPTY
  rw [shr4, and15, shl1, fword_set]
  by_cases hq : j / 16 = i / 16
  · rw [if_pos ⟨hq, hi⟩, tb_clear, tb2]
    have h1 : fword flag j = flag.getD (i / 16) 0 := by unfold fword; rw [hq]
    have h2 : 2 * (j % 16) + 1 < 32 := by omega
    by_cases hji : j = i
    · subst hji
      have h3 : 2 * (j % 16) + 1 - 2 * (j % 16) = 1 := by omega
      simp [h2, h3]
    · have h3 : ¬ (2 * (j % 16) + 1 - 2 * (i % 16) = 1) := by omega
      simp [h1, h2, h3, hji]
  · have : j ≠ i := fun h => hq (by rw [h])
    rw [if_neg (fun h => hq h.1), if_neg this]

theorem isdel_clear_both (flag : List Nat) (i j : Nat) (hi : i / 16 < flag.length) :
    AH_ISDEL (AH_CLEAR_BOTH flag i) j = if j = i then 0 else AH_ISDEL flag j := by
  rw [isdel_bit, isdel_bit]
  unfold AH_CLEAR_BOTH
  rw [shr4, and15, shl1, fword_set]
  by_cases hq : j / 16 = i / 16
  · rw [if_pos ⟨hq, hi⟩, tb_clear, tb3]
    have h1 : fword flag j = flag.getD (i / 16) 0 := by unfold fword; rw [hq]
    have h2 : 2 * (j % 16) < 32 := by omega
    by_cases hji : j = i
    · subst hji
      simp [h2]
    · by_cases h4 : i % 16 ≤ j % 16
      · have h3 : ¬ (2 * (j % 16) - 2 * (i % 16) < 2) := by omega
        simp [h1, h2, hji, h3]
      · simp [h1, h2, hji, h4]
  · have : j ≠ i := fun h => hq (by rw [h])
    rw [if_neg (fun h => hq h.1), if_neg this]

theorem isempty_clear_both (flag : List Nat) (i j : Nat) (hi : i / 16 < flag.length) :
    AH_ISEMPTY (AH_CLEAR_BOTH flag i) j = if j = i then 0 else AH_ISEMPTY flag j := by
  rw [isempty_bit, isempty_bit]
  unfold AH_CLEAR_BOTH
  rw [shr4, and15, shl1, fword_set]
  by_cases hq : j / 16 = i / 16
  · rw [if_pos ⟨hq, hi⟩, tb_clear, tb3]
    have h1 : fword flag j = flag.getD (i / 16) 0 := by unfold fword; rw [hq]
    have h2 : 2 * (j % 16) + 1 < 32 := by omega
    by_cases hji : j = i
    · subst hji
      have h3 : 2 * (j % 16) + 1 - 2 * (j % 16) < 2 := by omega
      simp [h2, h3]
    · by_cases h4 : 2 * (i % 16) ≤ 2 * (j % 16) + 1
      · have h3 : ¬ (2 * (j % 16) + 1 - 2 * (i % 16) < 2) := by omega
        simp [h1, h2, hji, h3]
      · simp [h1, h2, hji, h4]
  · have : j ≠ i := fun h => hq (by rw [h])
    rw [if_neg (fun h => hq h.1), if_neg this]

theorem length_set_del (flag : List Nat) (i : Nat) : (AH_SET_DEL flag i).length = flag.length := by
  unfold AH_SET_DEL; simp
theorem length_clear_empty (flag : List Nat) (i : Nat) : (AH_CLEAR_EMPTY flag i).length = flag.length := by
  unfold AH_CLEAR_EMPTY; simp
theorem length_clear_both (flag : List Nat) (i : Nat) : (AH_CLEAR_BOTH flag i).length = flag.length := by
  unfold AH_CLEAR_BOTH; simp

theorem memset_nil (n : Nat) : memset_aa [] n = List.replicate n AA_WORD := by
  unfold memset_aa; simp

theorem memset_full (flag : List Nat) (n : Nat) (h : flag.length ≤ n) :
    memset_aa flag n = List.replicate n AA_WORD := by
  unfold memset_aa
  rw [List.drop_eq_nil_of_le h]; simp

theorem fword_replicate (n j : Nat) (h : j / 16 < n) : fword (List.replicate n AA_WORD) j = AA_WORD := by
  unfold fword
  rw [List.getD_eq_getElem?_getD, List.getElem?_replicate]
  simp [h]

theorem aa_bits (p : Nat) (hp : p < 16) :
    AA_WORD.testBit (2 * p) = false ∧ AA_WORD.testBit (2 * p + 1) = true := by
  unfold AA_WORD
  interval_cases p <;> constructor <;> rfl

theorem isdel_replicate (n j : Nat) (h : j / 16 < n) : AH_ISDEL (List.replicate n AA_WORD) j = 0 := by
  rw [isdel_bit, fword_replicate n j h, (aa_bits (j % 16) (by omega)).1]; rfl

theorem isempty_replicate (n j : Nat) (h : j / 16 < n) : AH_ISEMPTY (List.replicate n AA_WORD) j = 2 := by
  rw [isempty_bit, fword_replicate n j h, (aa_bits (j % 16) (by omega)).2]; rfl

theorem nflags_bound (nb j : Nat) (h : j < nb) : j / 16 < AH_NFLAGS nb := by
  unfold AH_NFLAGS DIV_ROUND_UP
  omega

theorem isdel_le (flag : List Nat) (i : Nat) : AH_ISDEL flag i = 0 ∨ AH_ISDEL flag i = 1 := by
  rw [isdel_bit]; cases (fword flag i).testBit (2 * (i % 16)) <;> simp

theorem isempty_le (flag : List Nat) (i : Nat) : AH_ISEMPTY flag i = 0 ∨ AH_ISEMPTY flag i = 2 := by
  rw [isempty_bit]; cases (fword flag i).testBit (2 * (i % 16) + 1) <;> simp

/-! ## The probe sequence -/

theorem probe_next_eq (nb step i : Nat) (hi : i < nb) (hs : step ≤ nb) :
    probe_next nb step i = (i + step) % nb := by
  unfold probe_next
  split
  · rename_i h
    have h1 : i + step = (i + step - nb) + nb := by omega
    rw [h1, Nat.add_mod_right, Nat.mod_eq_of_lt (by omega)]
    omega
  · rename_i h
    rw [Nat.mod_eq_of_lt (by omega)]

theorem probe_at_zero (nb step i0 : Nat) : probe_at nb step i0 0 = i0 := rfl

theorem probe_at_succ (nb step i0 t : Nat) :
    probe_at nb step i0 (t + 1) = probe_next nb step (probe_at nb step i0 t) := by
  unfold probe_at
  rw [Function.iterate_succ_apply']

theorem probe_at_eq (nb step i0 : Nat) (hi : i0 < nb) (hs : step ≤ nb) (t : Nat) :
    probe_at nb step i0 t = (i0 + t * step) % nb := by
  induction t with
  | zero => simp [probe_at_zero, Nat.mod_eq_of_lt hi]
  | succ t ih =>
    rw [probe_at_succ, ih, probe_next_eq _ _ _ (Nat.mod_lt _ (by omega)) hs, Nat.mod_add_mod]
    congr 1
    ring

theorem probe_at_lt (nb step i0 : Nat) (hi : i0 < nb) (hs : step ≤ nb) (t : Nat) :
    probe_at nb step i0 t < nb := by
  rw [probe_at_eq nb step i0 hi hs]
  exact Nat.mod_lt _ (by omega)

theorem probe_at_inj (nb step i0 : Nat) (hi : i0 < nb) (hs : step ≤ nb)
    (hc : Nat.Coprime step nb) (t u : Nat) (ht : t < nb) (hu : u < nb)
    (h : probe_at nb step i0 t = probe_at nb step i0 u) : t = u := by
  rw [probe_at_eq nb step i0 hi hs, probe_at_eq nb step i0 hi hs] at h
  have h1 : t * step ≡ u * step [MOD nb] := Nat.ModEq.add_left_cancel' i0 h
  have h2 : t ≡ u [MOD nb] := Nat.ModEq.cancel_right_of_coprime (by rwa [Nat.coprime_comm] at hc) h1
  exact Nat.ModEq.eq_of_lt_of_lt h2 ht hu

theorem probe_at_period (nb step i0 : Nat) (hi : i0 < nb) (hs : step ≤ nb) :
    probe_at nb step i0 nb = i0 := by
  rw [probe_at_eq nb step i0 hi hs, Nat.add_mul_mod_self_left, Nat.mod_eq_of_lt hi]

theorem probe_at_surj (nb step i0 : Nat) (hi : i0 < nb) (hs : step ≤ nb)
    (hc : Nat.Coprime step nb) (x : Nat) (hx : x < nb) :
    ∃ t, t < nb ∧ probe_at nb step i0 t = x := by
  let f : Fin nb → Fin nb := fun t => ⟨probe_at nb step i0 t.1, probe_at_lt nb step i0 hi hs t.1⟩
  have hf : Function.Injective f := by
    intro a b hab
    have : probe_at nb step i0 a.1 = probe_at nb step i0 b.1 := congrArg Fin.val hab
    exact Fin.ext (probe_at_inj nb step i0 hi hs hc a.1 b.1 a.2 b.2 this)
  obtain ⟨t, ht⟩ := Finite.surjective_of_injective hf ⟨x, hx⟩
  exact ⟨t.1, t.2, congrArg Fin.val ht⟩

/-- Index and step computed from a hash on a table of `2^m` buckets. -/
theorem and_mask_lt (k m : Nat) : k &&& (2 ^ m - 1) < 2 ^ m := by
  rw [Nat.and_pow_two_sub_one_eq_mod]
  exact Nat.mod_lt _ (by positivity)

theorem or_one_odd (x : Nat) : (x ||| 1) % 2 = 1 := by
  have h := Nat.testBit_or x 1 0
  rw [Nat.testBit_zero, Nat.testBit_zero, Nat.testBit_zero] at h
  by_contra hc
  have h0 : (x ||| 1) % 2 = 0 := by omega
  rw [h0] at h
  simp at h

theorem step_le (tier : Bool) (k r m : Nat) :
    AH_PROBE_STEP tier k r (2 ^ m - 1) ≤ 2 ^ m := by
  unfold AH_PROBE_STEP
  split
  · exact Nat.le_of_lt (and_mask_lt _ _)
  · exact Nat.one_le_two_pow

theorem step_coprime (tier : Bool) (k r m : Nat) :
    Nat.Coprime (AH_PROBE_STEP tier k r (2 ^ m - 1)) (2 ^ m) := by
  unfold AH_PROBE_STEP
  split
  · rw [Nat.and_pow_two_sub_one_eq_mod]
    rcases m with _ | m
    · simp
    · apply Nat.Coprime.pow_right
      have h1 : ((k >>> r ||| 1) % 2 ^ (m + 1)) % 2 = 1 := by
        rw [Nat.mod_mod_of_dvd _ (dvd_pow_self 2 (Nat.succ_ne_zero m))]
        exact or_one_odd _
      rw [Nat.coprime_two_right]
      exact Nat.odd_iff.mpr h1
  · simp

/-! ## The probe loops -/

theorem iseither_zero_iff (fl : List Nat) (i : Nat) :
    AH_ISEITHER fl i = 0 ↔ AH_ISEMPTY fl i = 0 ∧ AH_ISDEL fl i = 0 := by
  rw [iseither_eq]; omega

theorem get_loop_stop (h : alignhash_t K V) (key : K) (step last : Nat) (p : Nat → Nat)
    (hp : ∀ t, p (t + 1) = probe_next h.nbucket step (p t)) :
    ∀ (n s fuel : Nat), n < fuel →
      (∀ u, s ≤ u → u < s + n →
        AH_ISEMPTY h.flags (p u) = 0 ∧
        (AH_ISDEL h.flags (p u) ≠ 0 ∨
          h.keys (p u) ≠ key)) →
      ¬ (AH_ISEMPTY h.flags (p (s + n)) = 0 ∧
        (AH_ISDEL h.flags (p (s + n)) ≠ 0 ∨
          h.keys (p (s + n)) ≠ key)) →
      (∀ u, s < u → u ≤ s + n → p u ≠ last) →
      get_loop h key step last fuel (p s)
        = some (if AH_ISEMPTY h.flags (p (s + n)) ≠ 0
                then h.nbucket else p (s + n)) := by
  intro n
  induction n with
  | zero =>
    intro s fuel hf _ hstop _
    obtain ⟨f, rfl⟩ : ∃ f, fuel = f + 1 := ⟨fuel - 1, by omega⟩
    rw [Nat.add_zero] at hstop
    rw [get_loop, if_neg hstop, Nat.add_zero]
  | succ n ih =>
    intro s fuel hf hcont hstop hlast
    obtain ⟨f, rfl⟩ : ∃ f, fuel = f + 1 := ⟨fuel - 1, by omega⟩
    rw [get_loop, if_pos (hcont s (le_refl _) (by omega)), ← hp s,
      if_neg (hlast (s + 1) (by omega) (by omega))]
    have e : s + (n + 1) = (s + 1) + n := by omega
    rw [e] at hstop ⊢
    exact ih (s + 1) f (by omega) (fun u h1 h2 => hcont u (by omega) (by omega)) hstop
      (fun u h1 h2 => hlast u (by omega) (by omega))

theorem get_loop_cycle (h : alignhash_t K V) (key : K) (step last : Nat) (p : Nat → Nat)
    (hp : ∀ t, p (t + 1) = probe_next h.nbucket step (p t)) :
    ∀ (n s fuel : Nat), n < fuel →
      (∀ u, s ≤ u → u ≤ s + n →
        AH_ISEMPTY h.flags (p u) = 0 ∧
        (AH_ISDEL h.flags (p u) ≠ 0 ∨
          h.keys (p u) ≠ key)) →
      (∀ u, s < u → u ≤ s + n → p u ≠ last) →
      p (s + n + 1) = last →
      get_loop h key step last fuel (p s) = some h.nbucket := by
  intro n
  induction n with
  | zero =>
    intro s fuel hf hcont _ hcyc
    obtain ⟨f, rfl⟩ : ∃ f, fuel = f + 1 := ⟨fuel - 1, by omega⟩
    rw [get_loop, if_pos (hcont s (le_refl _) (by omega)), ← hp s]
    rw [Nat.add_zero] at hcyc
    rw [if_pos hcyc]
  | succ n ih =>
    intro s fuel hf hcont hlast hcyc
    obtain ⟨f, rfl⟩ : ∃ f, fuel = f + 1 := ⟨fuel - 1, by omega⟩
    rw [get_loop, if_pos (hcont s (le_refl _) (by omega)), ← hp s,
      if_neg (hlast (s + 1) (by omega) (by omega))]
    have e : s + (n + 1) + 1 = (s + 1) + n + 1 := by omega
    rw [e] at hcyc
    exact ih (s + 1) f (by omega) (fun u h1 h2 => hcont u (by omega) (by omega))
      (fun u h1 h2 => hlast u (by omega) (by omega)) hcyc

theorem set_loop_stop (h : alignhash_t K V) (key : K) (step last : Nat) (p : Nat → Nat)
    (hp : ∀ t, p (t + 1) = probe_next h.nbucket step (p t)) :
    ∀ (n s fuel site x : Nat), n < fuel →
      (∀ u, s ≤ u → u < s + n →
        AH_ISEMPTY h.flags (p u) = 0 ∧
        (AH_ISDEL h.flags (p u) ≠ 0 ∨
          h.keys (p u) ≠ key)) →
      ¬ (AH_ISEMPTY h.flags (p (s + n)) = 0 ∧
        (AH_ISDEL h.flags (p (s + n)) ≠ 0 ∨
          h.keys (p (s + n)) ≠ key)) →
      (∀ u, s < u → u ≤ s + n → p u ≠ last) →
      set_loop h key step last fuel (p s) site x
        = some (p (s + n),
                site_after h.flags p site s n, x) := by
  intro n
  induction n with
  | zero =>
    intro s fuel site x hf _ hstop _
    obtain ⟨f, rfl⟩ : ∃ f, fuel = f + 1 := ⟨fuel - 1, by omega⟩
    rw [Nat.add_zero] at hstop
    rw [set_loop, if_neg hstop, Nat.add_zero, site_after]
  | succ n ih =>
    intro s fuel site x hf hcont hstop hlast
    obtain ⟨f, rfl⟩ : ∃ f, fuel = f + 1 := ⟨fuel - 1, by omega⟩
    rw [set_loop, if_pos (hcont s (le_refl _) (by omega)), ← hp s,
      if_neg (hlast (s + 1) (by omega) (by omega)), site_after]
    have e : s + (n + 1) = (s + 1) + n := by omega
    rw [e] at hstop ⊢
    exact ih (s + 1) f _ x (by omega) (fun u h1 h2 => hcont u (by omega) (by omega)) hstop
      (fun u h1 h2 => hlast u (by omega) (by omega))

/-- What `site` is after the loop: unchanged when no visited bucket is Deleted, else the
last visited Deleted bucket. -/
theorem site_after_spec (fl : List Nat) (p : Nat → Nat) :
    ∀ (n site s : Nat),
      (site_after fl p site s n = site ∧ ∀ u, s ≤ u → u < s + n → AH_ISDEL fl (p u) = 0) ∨
      (∃ u, s ≤ u ∧ u < s + n ∧ AH_ISDEL fl (p u) ≠ 0 ∧ site_after fl p site s n = p u ∧
        ∀ w, u < w → w < s + n → AH_ISDEL fl (p w) = 0) := by
  intro n
  induction n with
  | zero =>
    intro site s
    left
    exact ⟨rfl, fun u h1 h2 => by omega⟩
  | succ n ih =>
    intro site s
    rw [site_after]
    by_cases hd : AH_ISDEL fl (p s) ≠ 0
    · rw [if_pos hd]
      right
      rcases ih (p s) (s + 1) with ⟨h1, h2⟩ | ⟨u, h1, h2, h3, h4, h5⟩
      · exact ⟨s, le_refl _, by omega, hd, h1, fun w hw1 hw2 => h2 w (by omega) (by omega)⟩
      · exact ⟨u, by omega, by omega, h3, h4, fun w hw1 hw2 => h5 w hw1 (by omega)⟩
    · rw [if_neg hd]
      rcases ih site (s + 1) with ⟨h1, h2⟩ | ⟨u, h1, h2, h3, h4, h5⟩
      · left
        refine ⟨h1, fun u hu1 hu2 => ?_⟩
        rcases Nat.eq_or_lt_of_le hu1 with h | h
        · subst h; exact not_not.mp hd
        · exact h2 u (by omega) (by omega)
      · right
        exact ⟨u, by omega, by omega, h3, h4, fun w hw1 hw2 => h5 w hw1 (by omega)⟩

/-! ## The probe path of a key -/

theorem geo_pos {nb mask : Nat} (g : Geo nb mask) : 0 < nb := by
  obtain ⟨m, rfl, _⟩ := g
  positivity

theorem WF.geo {d : Decl K} {h : alignhash_t K V} (w : WF d h) (hp : 0 < h.nbucket) :
    Geo h.nbucket h.mask := by
  rcases w.pow2 with h0 | ⟨m, hm⟩
  · omega
  · exact ⟨m, hm, by rw [w.mask_eq, hm]⟩

theorem path_zero (d : Decl K) (nb order mask : Nat) (k : K) :
    path d nb order mask k 0 = hkey d k &&& mask := rfl

theorem path_lt (d : Decl K) {nb mask : Nat} (g : Geo nb mask) (order : Nat) (k : K) (t : Nat) :
    path d nb order mask k t < nb := by
  obtain ⟨m, rfl, rfl⟩ := g
  exact probe_at_lt _ _ _ (and_mask_lt _ _) (step_le _ _ _ _) t

theorem path_inj (d : Decl K) {nb mask : Nat} (g : Geo nb mask) (order : Nat) (k : K)
    (t u : Nat) (ht : t < nb) (hu : u < nb)
    (e : path d nb order mask k t = path d nb order mask k u) : t = u := by
  obtain ⟨m, rfl, rfl⟩ := g
  exact probe_at_inj _ _ _ (and_mask_lt _ _) (step_le _ _ _ _) (step_coprime _ _ _ _) t u ht hu e

theorem path_surj (d : Decl K) {nb mask : Nat} (g : Geo nb mask) (order : Nat) (k : K)
    (x : Nat) (hx : x < nb) : ∃ t, t < nb ∧ path d nb order mask k t = x := by
  obtain ⟨m, rfl, rfl⟩ := g
  exact probe_at_surj _ _ _ (and_mask_lt _ _) (step_le _ _ _ _) (step_coprime _ _ _ _) x hx

theorem path_period (d : Decl K) {nb mask : Nat} (g : Geo nb mask) (order : Nat) (k : K) :
    path d nb order mask k nb = hkey d k &&& mask := by
  obtain ⟨m, rfl, rfl⟩ := g
  exact probe_at_period _ _ _ (and_mask_lt _ _) (step_le _ _ _ _)

theorem path_ne_start (d : Decl K) {nb mask : Nat} (g : Geo nb mask) (order : Nat) (k : K)
    (u : Nat) (h0 : 0 < u) (hu : u < nb) :
    path d nb order mask k u ≠ hkey d k &&& mask := by
  intro e
  have := path_inj d g order k u 0 hu (geo_pos g) (by rw [e, path_zero])
  omega

/-- The first Empty bucket on a probe path, when the path meets one. -/
theorem first_empty (fl : List Nat) (p : Nat → Nat) (n : Nat)
    (hex : ∃ t, t < n ∧ AH_ISEMPTY fl (p t) ≠ 0) :
    ∃ t, t < n ∧ AH_ISEMPTY fl (p t) ≠ 0 ∧ ∀ u, u < t → AH_ISEMPTY fl (p u) = 0 := by
  classical
  refine ⟨Nat.find hex, (Nat.find_spec hex).1, (Nat.find_spec hex).2, fun u hu => ?_⟩
  by_contra hne
  exact Nat.find_min hex hu ⟨lt_trans hu (Nat.find_spec hex).1, hne⟩

/-! ## Lookup -/

/-- Along the probe path of `key`, the loop of `alignhash_get` continues over every
bucket that precedes the bucket holding `key`. -/
theorem cont_before (d : Decl K) (h : alignhash_t K V) (w : WF d h) (key : K) (x t : Nat)
    (hx : At h x key) (ht : t < h.nbucket)
    (hpt : path d h.nbucket h.order h.mask key t = x)
    (hne : ∀ u, u < t → AH_ISEMPTY h.flags (path d h.nbucket h.order h.mask key u) = 0)
    (u : Nat) (hu : u < t) :
    AH_ISEMPTY h.flags (path d h.nbucket h.order h.mask key u) = 0 ∧
    (AH_ISDEL h.flags (path d h.nbucket h.order h.mask key u) ≠ 0 ∨
      h.keys (path d h.nbucket h.order h.mask key u) ≠ key) := by
  have g := w.geo (by omega)
  refine ⟨hne u hu, ?_⟩
  by_cases hd : AH_ISDEL h.flags (path d h.nbucket h.order h.mask key u) = 0
  · right
    intro hk
    have hocc : AH_ISEITHER h.flags (path d h.nbucket h.order h.mask key u) = 0 :=
      (iseither_zero_iff _ _).mpr ⟨hne u hu, hd⟩
    have := w.nodup _ x (path_lt d g _ _ _) hx.1 hocc hx.2.1 (by rw [hk, hx.2.2])
    rw [← hpt] at this
    have := path_inj d g _ _ _ _ (by omega) ht this
    omega
  · left; exact hd

theorem stop_at (h : alignhash_t K V) (key : K) (x : Nat) (hx : At h x key) :
    ¬ (AH_ISEMPTY h.flags x = 0 ∧ (AH_ISDEL h.flags x ≠ 0 ∨ h.keys x ≠ key)) := by
  have := (iseither_zero_iff _ _).mp hx.2.1
  rintro ⟨_, h1 | h1⟩
  · exact h1 this.2
  · exact h1 hx.2.2

theorem cont_absent (h : alignhash_t K V) (key : K) (i : Nat) (hi : i < h.nbucket)
    (habs : ∀ i, ¬ At h i key) (he : AH_ISEMPTY h.flags i = 0) :
    AH_ISEMPTY h.flags i = 0 ∧ (AH_ISDEL h.flags i ≠ 0 ∨ h.keys i ≠ key) := by
  refine ⟨he, ?_⟩
  by_cases hd : AH_ISDEL h.flags i = 0
  · right
    intro hk
    exact habs i ⟨hi, (iseither_zero_iff _ _).mpr ⟨he, hd⟩, hk⟩
  · left; exact hd

theorem path_succ (d : Decl K) (nb order mask : Nat) (k : K) (t : Nat) :
    path d nb order mask k (t + 1)
      = probe_next nb (AH_PROBE_STEP d.tier (hkey d k) order mask) (path d nb order mask k t) :=
  probe_at_succ _ _ _ _

theorem get_unfold (d : Decl K) (h : alignhash_t K V) (key : K) (hp : 0 < h.nbucket) :
    alignhash_get d h key
      = get_loop h key (AH_PROBE_STEP d.tier (hkey d key) h.order h.mask) (hkey d key &&& h.mask)
          h.nbucket (path d h.nbucket h.order h.mask key 0) := by
  unfold alignhash_get
  rw [if_pos (by omega)]
  rfl

/-- A key stored at bucket `x` is found there. -/
theorem get_present (d : Decl K) (h : alignhash_t K V) (w : WF d h) (key : K) (x : Nat)
    (hx : At h x key) : alignhash_get d h key = some x := by
  have hp : 0 < h.nbucket := by have := hx.1; omega
  have g := w.geo hp
  obtain ⟨t, ht, hpt, hne⟩ := w.path_ok x hx.1 hx.2.1
  rw [hx.2.2] at hpt hne
  rw [get_unfold d h key hp]
  have := get_loop_stop h key (AH_PROBE_STEP d.tier (hkey d key) h.order h.mask)
    (hkey d key &&& h.mask) (path d h.nbucket h.order h.mask key)
    (path_succ d _ _ _ key) t 0 h.nbucket ht
    (fun u _ hu => cont_before d h w key x t hx ht hpt hne u (by omega))
    (by rw [Nat.zero_add, hpt]; exact stop_at h key x hx)
    (fun u h1 h2 => path_ne_start d g _ key u h1 (by omega))
  rw [Nat.zero_add, hpt] at this
  rw [this]
  have := (iseither_zero_iff _ _).mp hx.2.1
  rw [if_neg (by rw [this.1]; simp)]

/-- A key stored nowhere is reported by the sentinel `h->nbucket`. -/
theorem get_absent (d : Decl K) (h : alignhash_t K V) (w : WF d h) (key : K)
    (habs : ∀ i, ¬ At h i key) : alignhash_get d h key = some h.nbucket := by
  by_cases hp : 0 < h.nbucket
  · have g := w.geo hp
    rw [get_unfold d h key hp]
    by_cases hex : ∃ t, t < h.nbucket ∧
        AH_ISEMPTY h.flags (path d h.nbucket h.order h.mask key t) ≠ 0
    · obtain ⟨t, ht, hte, hmin⟩ := first_empty h.flags _ _ hex
      have := get_loop_stop h key (AH_PROBE_STEP d.tier (hkey d key) h.order h.mask)
        (hkey d key &&& h.mask) (path d h.nbucket h.order h.mask key)
        (path_succ d _ _ _ key) t 0 h.nbucket ht
        (fun u _ hu => cont_absent h key _ (path_lt d g _ _ _) habs (hmin u (by omega)))
        (by rw [Nat.zero_add]; exact fun hc => hte hc.1)
        (fun u h1 h2 => path_ne_start d g _ key u h1 (by omega))
      rw [Nat.zero_add] at this
      rw [this, if_pos hte]
    · have hall : ∀ t, t < h.nbucket →
          AH_ISEMPTY h.flags (path d h.nbucket h.order h.mask key t) = 0 := by
        intro t ht
        by_contra hc
        exact hex ⟨t, ht, hc⟩
      exact get_loop_cycle h key (AH_PROBE_STEP d.tier (hkey d key) h.order h.mask)
        (hkey d key &&& h.mask) (path d h.nbucket h.order h.mask key)
        (path_succ d _ _ _ key) (h.nbucket - 1) 0 h.nbucket (by omega)
        (fun u _ hu => cont_absent h key _ (path_lt d g _ _ _) habs (hall u (by omega)))
        (fun u h1 h2 => path_ne_start d g _ key u h1 (by omega))
        (by
          have e : 0 + (h.nbucket - 1) + 1 = h.nbucket := by omega
          rw [e]
          exact path_period d g _ key)
  · have h0 : h.nbucket = 0 := by omega
    unfold alignhash_get
    rw [if_neg (by omega), h0]

/-- A key is stored at no more than one bucket. -/
theorem At.unique {d : Decl K} {h : alignhash_t K V} (w : WF d h) {i j : Nat} {k : K}
    (hi : At h i k) (hj : At h j k) : i = j :=
  w.nodup i j hi.1 hj.1 hi.2.1 hj.2.1 (by rw [hi.2.2, hj.2.2])

/-- The function `alignhash_get` always returns on a well-formed table: the bucket of
the key, or the sentinel. -/
theorem get_total (d : Decl K) (h : alignhash_t K V) (w : WF d h) (key : K) :
    (∃ x, At h x key ∧ alignhash_get d h key = some x) ∨
    ((∀ i, ¬ At h i key) ∧ alignhash_get d h key = some h.nbucket) := by
  by_cases hex : ∃ x, At h x key
  · obtain ⟨x, hx⟩ := hex
    exact Or.inl ⟨x, hx, get_present d h w key x hx⟩
  · have habs : ∀ i, ¬ At h i key := fun i hi => hex ⟨i, hi⟩
    exact Or.inr ⟨habs, get_absent d h w key habs⟩

/-! ## Counting buckets -/

theorem card_filter_gain (n i : Nat) (hi : i < n) (P Q : Nat → Prop) [DecidablePred P]
    [DecidablePred Q] (hoth : ∀ j, j ≠ i → (Q j ↔ P j)) (hP : ¬ P i) (hQ : Q i) :
    ((Finset.range n).filter Q).card = ((Finset.range n).filter P).card + 1 := by
  have e : (Finset.range n).filter Q = insert i ((Finset.range n).filter P) := by
    ext j
    simp only [Finset.mem_filter, Finset.mem_range, Finset.mem_insert]
    by_cases hj : j = i
    · subst hj; simp [hi, hQ]
    · simp [hj, hoth j hj]
  rw [e, Finset.card_insert_of_not_mem]
  simp [hP]

theorem card_filter_same (n : Nat) (P Q : Nat → Prop) [DecidablePred P] [DecidablePred Q]
    (hsame : ∀ j, j < n → (Q j ↔ P j)) :
    ((Finset.range n).filter Q).card = ((Finset.range n).filter P).card := by
  congr 1
  apply Finset.filter_congr
  intro j hj
  exact hsame j (Finset.mem_range.mp hj)

theorem card_filter_le_of_imp (n : Nat) (P Q : Nat → Prop) [DecidablePred P] [DecidablePred Q]
    (himp : ∀ j, j < n → Q j → P j) :
    ((Finset.range n).filter Q).card ≤ ((Finset.range n).filter P).card := by
  apply Finset.card_le_card
  intro j hj
  rw [Finset.mem_filter] at hj ⊢
  exact ⟨hj.1, himp j (Finset.mem_range.mp hj.1) hj.2⟩

theorem card_filter_le_range (n : Nat) (P : Nat → Prop) [DecidablePred P] :
    ((Finset.range n).filter P).card ≤ n := by
  have := Finset.card_filter_le (Finset.range n) P
  rwa [Finset.card_range] at this

theorem exists_of_card_filter_lt (n : Nat) (P : Nat → Prop) [DecidablePred P]
    (hlt : ((Finset.range n).filter P).card < n) : ∃ i, i < n ∧ ¬ P i := by
  by_contra hc
  have hall : ∀ i, i < n → P i := fun i hi => by
    by_contra hp
    exact hc ⟨i, hi, hp⟩
  have : (Finset.range n).filter P = Finset.range n := by
    apply Finset.filter_true_of_mem
    intro i hi
    exact hall i (Finset.mem_range.mp hi)
  rw [this, Finset.card_range] at hlt
  omega

theorem card_filter_zero (n : Nat) (P : Nat → Prop) [DecidablePred P]
    (hnone : ∀ i, i < n → ¬ P i) : ((Finset.range n).filter P).card = 0 := by
  rw [Finset.card_eq_zero, Finset.filter_eq_empty_iff]
  intro i hi
  exact hnone i (Finset.mem_range.mp hi)

theorem occ_le_used (fl : List Nat) (n : Nat) : occ_count fl n ≤ used_count fl n :=
  card_filter_le_of_imp n _ _ (fun j _ hj => ((iseither_zero_iff fl j).mp hj).1)

theorem used_le (fl : List Nat) (n : Nat) : used_count fl n ≤ n :=
  card_filter_le_range n _

theorem sup_le (nb : Nat) : AH_SUP nb ≤ nb := by
  unfold AH_SUP; omega

/-! ## Monotonicity of the path invariant -/

theorem PathOK.mono {d : Decl K} {nb order mask : Nat} {fl fl' : List Nat} {keys keys' : Nat → K}
    {i : Nat} (hp : PathOK d nb order mask fl keys i) (hk : keys' i = keys i)
    (hfl : ∀ j, AH_ISEMPTY fl j = 0 → AH_ISEMPTY fl' j = 0) :
    PathOK d nb order mask fl' keys' i := by
  obtain ⟨t, ht, hpt, hne⟩ := hp
  refine ⟨t, ht, by rw [hk]; exact hpt, fun u hu => ?_⟩
  rw [hk]
  exact hfl _ (hne u hu)

/-! ## Initial table, clear, value assignment, delete -/

theorem wf_init (d : Decl K) (keys0 : Nat → K) (vals0 : Nat → V) :
    WF d (alignhash_init keys0 vals0) where
  pow2 := Or.inl rfl
  mask_eq := rfl
  sup_eq := by simp [alignhash_init, AH_SUP]
  flags_len := by simp [alignhash_init, AH_NFLAGS, DIV_ROUND_UP]
  no3 := fun i hi => absurd hi (Nat.not_lt_zero _)
  size_eq := by simp [alignhash_init, occ_count]
  nused_eq := by simp [alignhash_init, used_count]
  nodup := fun i j hi => absurd hi (Nat.not_lt_zero _)
  path_ok := fun i hi => absurd hi (Nat.not_lt_zero _)

theorem wf_assign (d : Decl K) (h : alignhash_t K V) (w : WF d h) (x : Nat) (v : V) :
    WF d (alignhash_value_assign h x v) where
  pow2 := w.pow2
  mask_eq := w.mask_eq
  sup_eq := w.sup_eq
  flags_len := w.flags_len
  no3 := w.no3
  size_eq := w.size_eq
  nused_eq := w.nused_eq
  nodup := w.nodup
  path_ok := w.path_ok

theorem clear_eq (d : Decl K) (h : alignhash_t K V) (w : WF d h) (hp : 0 < h.nbucket) :
    alignhash_clear h
      = { h with flags := List.replicate (AH_NFLAGS h.nbucket) AA_WORD, size := 0, nused := 0 } := by
  unfold alignhash_clear
  have hl := w.flags_len
  have hn : 0 < AH_NFLAGS h.nbucket := by
    have := nflags_bound h.nbucket 0 hp
    omega
  rw [if_pos (by intro e; rw [e] at hl; simp at hl; omega), memset_full _ _ (by omega)]

theorem clear_fresh (d : Decl K) (h : alignhash_t K V) (w : WF d h) (hp : h.nbucket = 0) :
    alignhash_clear h = h := by
  unfold alignhash_clear
  have hl := w.flags_len
  rw [hp] at hl
  have : h.flags = [] := List.length_eq_zero.mp (by rw [hl]; rfl)
  rw [if_neg (by simp [this])]

theorem wf_clear (d : Decl K) (h : alignhash_t K V) (w : WF d h) : WF d (alignhash_clear h) := by
  by_cases hp : 0 < h.nbucket
  · rw [clear_eq d h w hp]
    have he : ∀ i, i < h.nbucket →
        AH_ISEMPTY (List.replicate (AH_NFLAGS h.nbucket) AA_WORD) i = 2 :=
      fun i hi => isempty_replicate _ _ (nflags_bound _ _ hi)
    have hocc : ∀ i, i < h.nbucket →
        ¬ AH_ISEITHER (List.replicate (AH_NFLAGS h.nbucket) AA_WORD) i = 0 := by
      intro i hi hc
      have := ((iseither_zero_iff _ _).mp hc).1
      rw [he i hi] at this
      omega
    exact {
      pow2 := w.pow2
      mask_eq := w.mask_eq
      sup_eq := w.sup_eq
      flags_len := by simp
      no3 := fun i hi _ => isdel_replicate _ _ (nflags_bound _ _ hi)
      size_eq := (card_filter_zero _ _ hocc).symm
      nused_eq := (card_filter_zero _ _ (fun i hi hc => by rw [he i hi] at hc; omega)).symm
      nodup := fun i j hi _ hoi => absurd hoi (hocc i hi)
      path_ok := fun i hi hoi => absurd hoi (hocc i hi) }
  · rw [clear_fresh d h w (by omega)]
    exact w

theorem del_noop (h : alignhash_t K V) (x : Nat)
    (hx : x = h.nbucket ∨ AH_ISEITHER h.flags x ≠ 0) : alignhash_del h x = h := by
  unfold alignhash_del
  rw [if_neg]
  rintro ⟨h1, h2⟩
  rcases hx with hx | hx
  · exact h1 hx
  · exact hx h2

theorem del_eq (h : alignhash_t K V) (x : Nat) (hx : x ≠ h.nbucket)
    (ho : AH_ISEITHER h.flags x = 0) :
    alignhash_del h x = { h with flags := AH_SET_DEL h.flags x, size := h.size - 1 } := by
  unfold alignhash_del
  rw [if_pos ⟨hx, ho⟩]

theorem occ_set_del (fl : List Nat) (x j : Nat) (hx : x / 16 < fl.length) :
    AH_ISEITHER (AH_SET_DEL fl x) j = 0 ↔ j ≠ x ∧ AH_ISEITHER fl j = 0 := by
  rw [iseither_zero_iff, iseither_zero_iff, isempty_set_del, isdel_set_del _ _ _ hx]
  by_cases hj : j = x
  · simp [hj]
  · simp [hj]

theorem occ_count_set_del (fl : List Nat) (n x : Nat) (hx : x < n) (hl : x / 16 < fl.length)
    (ho : AH_ISEITHER fl x = 0) :
    occ_count fl n = occ_count (AH_SET_DEL fl x) n + 1 := by
  unfold occ_count
  apply card_filter_gain n x hx
  · intro j hj
    rw [occ_set_del _ _ _ hl]
    simp [hj]
  · rw [occ_set_del _ _ _ hl]; simp
  · exact ho

theorem used_count_set_del (fl : List Nat) (n x : Nat) :
    used_count (AH_SET_DEL fl x) n = used_count fl n := by
  unfold used_count
  apply card_filter_same
  intro j _
  rw [isempty_set_del]

theorem wf_del (d : Decl K) (h : alignhash_t K V) (w : WF d h) (x : Nat) (hx : x ≤ h.nbucket) :
    WF d (alignhash_del h x) := by
  by_cases hc : x ≠ h.nbucket ∧ AH_ISEITHER h.flags x = 0
  · have hlt : x < h.nbucket := by have := hc.1; omega
    have hl : x / 16 < h.flags.length := by rw [w.flags_len]; exact nflags_bound _ _ hlt
    rw [del_eq h x hc.1 hc.2]
    exact {
      pow2 := w.pow2
      mask_eq := w.mask_eq
      sup_eq := w.sup_eq
      flags_len := by rw [← w.flags_len]; exact length_set_del _ _
      no3 := by
        intro i hi he
        show AH_ISDEL (AH_SET_DEL h.flags x) i = 0
        have he' : AH_ISEMPTY h.flags i ≠ 0 := by
          have : AH_ISEMPTY (AH_SET_DEL h.flags x) i ≠ 0 := he
          rwa [isempty_set_del] at this
        rw [isdel_set_del _ _ _ hl]
        have hix : i ≠ x := by
          intro e; subst e
          exact he' ((iseither_zero_iff _ _).mp hc.2).1
        rw [if_neg hix]
        exact w.no3 i hi he'
      size_eq := by
        show h.size - 1 = occ_count (AH_SET_DEL h.flags x) h.nbucket
        have := occ_count_set_del h.flags h.nbucket x hlt hl hc.2
        have := w.size_eq
        omega
      nused_eq := by
        show h.nused = used_count (AH_SET_DEL h.flags x) h.nbucket
        rw [used_count_set_del]; exact w.nused_eq
      nodup := by
        intro i j hi hj hoi hoj
        exact w.nodup i j hi hj ((occ_set_del _ _ _ hl).mp hoi).2 ((occ_set_del _ _ _ hl).mp hoj).2
      path_ok := by
        intro i hi hoi
        exact (w.path_ok i hi ((occ_set_del _ _ _ hl).mp hoi).2).mono rfl
          (fun j hj => by rw [isempty_set_del]; exact hj) }
  · rw [del_noop h x (by
      by_cases h1 : x = h.nbucket
      · exact Or.inl h1
      · exact Or.inr (fun h2 => hc ⟨h1, h2⟩))]
    exact w

/-! ## Resize: the in-place rehash -/

theorem resize_probe_stop (nf : List Nat) (nn step : Nat) (p : Nat → Nat)
    (hp : ∀ t, p (t + 1) = probe_next nn step (p t)) :
    ∀ (n s fuel : Nat), n < fuel →
      (∀ u, s ≤ u → u < s + n → AH_ISEMPTY nf (p u) = 0) →
      AH_ISEMPTY nf (p (s + n)) ≠ 0 →
      resize_probe nf nn step fuel (p s) = some (p (s + n)) := by
  intro n
  induction n with
  | zero =>
    intro s fuel hf _ hstop
    obtain ⟨f, rfl⟩ : ∃ f, fuel = f + 1 := ⟨fuel - 1, by omega⟩
    rw [Nat.add_zero] at hstop
    rw [resize_probe, if_neg hstop, Nat.add_zero]
  | succ n ih =>
    intro s fuel hf hcont hstop
    obtain ⟨f, rfl⟩ : ∃ f, fuel = f + 1 := ⟨fuel - 1, by omega⟩
    rw [resize_probe, if_pos (hcont s (le_refl _) (by omega)), ← hp s]
    have e : s + (n + 1) = (s + 1) + n := by omega
    rw [e] at hstop ⊢
    exact ih (s + 1) f (by omega) (fun u h1 h2 => hcont u (by omega) (by omega)) hstop

/-- The inner loop of the rehash returns the first Empty bucket of the probe path. -/
theorem resize_probe_spec (d : Decl K) (nn no nm : Nat) (g : Geo nn nm) (nf : List Nat)
    (key : K) (hlt : used_count nf nn < nn) :
    ∃ t, t < nn ∧ AH_ISEMPTY nf (path d nn no nm key t) ≠ 0 ∧
      (∀ u, u < t → AH_ISEMPTY nf (path d nn no nm key u) = 0) ∧
      resize_probe nf nn (AH_PROBE_STEP d.tier (hkey d key) no nm) nn (hkey d key &&& nm)
        = some (path d nn no nm key t) := by
  obtain ⟨i, hi, hie⟩ := exists_of_card_filter_lt nn _ hlt
  obtain ⟨t0, ht0, hpt0⟩ := path_surj d g no key i hi
  obtain ⟨t, ht, hte, hmin⟩ := first_empty nf (path d nn no nm key) nn ⟨t0, ht0, by rw [hpt0]; exact hie⟩
  refine ⟨t, ht, hte, hmin, ?_⟩
  have := resize_probe_stop nf nn (AH_PROBE_STEP d.tier (hkey d key) no nm)
    (path d nn no nm key) (path_succ d _ _ _ key) t 0 nn ht
    (fun u _ hu => hmin u (by omega)) (by rw [Nat.zero_add]; exact hte)
  rw [Nat.zero_add] at this
  exact this

theorem sentry_hand (d : Decl K) (keys : Nat → K) (vals : Nat → V) (i : Nat) (val : V) :
    hentry d (keys i) (if d.ismap then vals i else val) = sentry d keys vals i := by
  unfold hentry sentry ventry
  cases d.ismap <;> simp

theorem sentry_write (d : Decl K) (keys : Nat → K) (vals : Nat → V) (i j : Nat) (key : K)
    (val : V) :
    sentry d (Function.update keys i key)
        (if d.ismap then Function.update vals i val else vals) j
      = if j = i then hentry d key val else sentry d keys vals j := by
  unfold hentry sentry ventry
  by_cases hj : j = i
  · subst hj
    cases d.ismap <;> simp
  · cases d.ismap <;> simp [hj, Function.update_noteq hj]

theorem used_count_clear_empty (nf : List Nat) (nn i : Nat) (hi : i < nn)
    (hl : i / 16 < nf.length) (he : AH_ISEMPTY nf i ≠ 0) :
    used_count (AH_CLEAR_EMPTY nf i) nn = used_count nf nn + 1 := by
  unfold used_count
  apply card_filter_gain nn i hi
  · intro j hj
    rw [isempty_clear_empty _ _ _ hl, if_neg hj]
  · exact he
  · rw [isempty_clear_empty _ _ _ hl, if_pos rfl]

theorem live_swap (nn nb0 : Nat) (nf fl : List Nat) (i j : Nat) (hi : i < nn)
    (hl : i / 16 < nf.length) (hl2 : i / 16 < fl.length) (hi0 : i < nb0)
    (ho : AH_ISEITHER fl i = 0) :
    Live nn nb0 (AH_CLEAR_EMPTY nf i) (AH_SET_DEL fl i) j ↔ Live nn nb0 nf fl j := by
  unfold Live
  rw [isempty_clear_empty _ _ _ hl, occ_set_del _ _ _ hl2]
  by_cases hj : j = i
  · subst hj
    simp [hi, hi0, ho]
  · simp [hj]

theorem live_place (nn nb0 : Nat) (nf fl : List Nat) (i j : Nat) (hi : i < nn)
    (hl : i / 16 < nf.length) (hns : ¬ (i < nb0 ∧ AH_ISEITHER fl i = 0)) :
    Live nn nb0 (AH_CLEAR_EMPTY nf i) fl j ↔ j = i ∨ Live nn nb0 nf fl j := by
  unfold Live
  rw [isempty_clear_empty _ _ _ hl]
  by_cases hj : j = i
  · subst hj
    simp [hi]
  · simp [hj]

theorem live_pick (nn nb0 : Nat) (nf fl : List Nat) (j0 j : Nat)
    (hl2 : j0 / 16 < fl.length) (hnp : ¬ (j0 < nn ∧ AH_ISEMPTY nf j0 = 0)) :
    Live nn nb0 nf (AH_SET_DEL fl j0) j ↔ j ≠ j0 ∧ Live nn nb0 nf fl j := by
  unfold Live
  rw [occ_set_del _ _ _ hl2]
  by_cases hj : j = j0
  · subst hj
    simp [hnp]
  · simp [hj]

/-- Rehash invariant across a displacement: the entry in hand is swapped with the
unprocessed original entry at bucket `i`. -/
theorem rinv_swap (d : Decl K) (nn no nm : Nat) (h0 h : alignhash_t K V) (nf : List Nat)
    (key : K) (val : V) (R : RInv d nn no nm h0 h nf (some (hentry d key val)))
    (i : Nat) (hi : i < nn) (hie : AH_ISEMPTY nf i ≠ 0)
    (hpk : ∃ t, t < nn ∧ path d nn no nm key t = i ∧
      ∀ u, u < t → AH_ISEMPTY nf (path d nn no nm key u) = 0)
    (hsw : i < h.nbucket ∧ AH_ISEITHER h.flags i = 0) :
    RInv d nn no nm h0
      { h with
        keys := Function.update h.keys i key,
        vals := if d.ismap then Function.update h.vals i val else h.vals,
        flags := AH_SET_DEL h.flags i }
      (AH_CLEAR_EMPTY nf i)
      (some (hentry d (h.keys i) (if d.ismap then h.vals i else val))) := by
  have hi0 : i < h0.nbucket := by rw [← R.nb_eq]; exact hsw.1
  have hl : i / 16 < nf.length := by rw [R.nf_len]; exact nflags_bound _ _ hi
  have hl2 : i / 16 < h.flags.length := by rw [R.fl_len]; exact nflags_bound _ _ hi0
  have hlive : ∀ j, Live nn h0.nbucket (AH_CLEAR_EMPTY nf i) (AH_SET_DEL h.flags i) j ↔
      Live nn h0.nbucket nf h.flags j :=
    fun j => live_swap nn h0.nbucket nf h.flags i j hi hl hl2 hi0 hsw.2
  have hli : Live nn h0.nbucket nf h.flags i := Or.inr ⟨hi0, hsw.2⟩
  have hfr : ∀ j, Live nn h0.nbucket nf h.flags j → h.keys j ≠ key :=
    fun j hj => R.fresh _ rfl j hj
  rw [sentry_hand]
  exact {
    nb_eq := R.nb_eq
    size_eq := R.size_eq
    fl_len := by rw [← R.fl_len]; exact length_set_del _ _
    nf_len := by rw [← R.nf_len]; exact length_clear_empty _ _
    nf_nodel := fun j => by rw [isdel_clear_empty]; exact R.nf_nodel j
    disj := by
      intro j hj hje hj0
      show AH_ISEITHER (AH_SET_DEL h.flags i) j ≠ 0
      rw [Ne, occ_set_del _ _ _ hl2]
      rintro ⟨hji, hoj⟩
      rw [isempty_clear_empty _ _ _ hl, if_neg hji] at hje
      exact R.disj j hj hje hj0 hoj
    inj := by
      intro a b ha hb hab
      have ha' := (hlive a).mp ha
      have hb' := (hlive b).mp hb
      change Function.update h.keys i key a = Function.update h.keys i key b at hab
      by_cases hai : a = i
      · by_cases hbi : b = i
        · rw [hai, hbi]
        · rw [hai, Function.update_same, Function.update_noteq hbi] at hab
          exact absurd hab.symm (hfr b hb')
      · by_cases hbi : b = i
        · rw [hbi, Function.update_same, Function.update_noteq hai] at hab
          exact absurd hab (hfr a ha')
        · rw [Function.update_noteq hai, Function.update_noteq hbi] at hab
          exact R.inj a b ha' hb' hab
    fresh := by
      intro e he j hj
      have hj' := (hlive j).mp hj
      have he' : e = sentry d h.keys h.vals i := (Option.some.inj he).symm
      rw [he']
      show Function.update h.keys i key j ≠ h.keys i
      by_cases hji : j = i
      · rw [hji, Function.update_same]
        exact fun hc => hfr i hli hc.symm
      · rw [Function.update_noteq hji]
        exact fun hc => hji (R.inj j i hj' hli hc)
    content := by
      intro e
      rw [← R.content e]
      constructor
      · rintro (⟨j, hj, hje⟩ | he)
        · have hj' := (hlive j).mp hj
          change sentry d (Function.update h.keys i key)
            (if d.ismap then Function.update h.vals i val else h.vals) j = e at hje
          rw [sentry_write] at hje
          by_cases hji : j = i
          · rw [if_pos hji] at hje
            exact Or.inr (by rw [hje])
          · rw [if_neg hji] at hje
            exact Or.inl ⟨j, hj', hje⟩
        · exact Or.inl ⟨i, hli, Option.some.inj he⟩
      · rintro (⟨j, hj, hje⟩ | he)
        · by_cases hji : j = i
          · right
            rw [← hje, hji]
          · left
            refine ⟨j, (hlive j).mpr hj, ?_⟩
            show sentry d (Function.update h.keys i key)
              (if d.ismap then Function.update h.vals i val else h.vals) j = e
            rw [sentry_write, if_neg hji]
            exact hje
        · left
          refine ⟨i, (hlive i).mpr hli, ?_⟩
          show sentry d (Function.update h.keys i key)
            (if d.ismap then Function.update h.vals i val else h.vals) i = e
          rw [sentry_write, if_pos rfl]
          exact Option.some.inj he
    path_ok := by
      intro j hj hje
      by_cases hji : j = i
      · obtain ⟨t, ht, hpt, hmin⟩ := hpk
        subst hji
        refine ⟨t, ht, ?_, fun u hu => ?_⟩
        · show path d nn no nm (Function.update h.keys j key j) t = j
          rw [Function.update_same]; exact hpt
        · show AH_ISEMPTY (AH_CLEAR_EMPTY nf j) (path d nn no nm (Function.update h.keys j key j) u) = 0
          rw [Function.update_same, isempty_clear_empty _ _ _ hl]
          split
          · rfl
          · exact hmin u hu
      · rw [isempty_clear_empty _ _ _ hl, if_neg hji] at hje
        refine (R.path_ok j hj hje).mono (Function.update_noteq hji _ _) (fun a ha => ?_)
        rw [isempty_clear_empty _ _ _ hl]
        split
        · rfl
        · exact ha
    count := by
      show used_count (AH_CLEAR_EMPTY nf i) nn + occ_count (AH_SET_DEL h.flags i) h0.nbucket
        + (if (some (sentry d h.keys h.vals i)).isSome then 1 else 0) = h0.size
      have h1 := used_count_clear_empty nf nn i hi hl hie
      have h2 := occ_count_set_del h.flags h0.nbucket i hi0 hl2 hsw.2
      have h3 := R.count
      simp only [Option.isSome_some, if_true] at h3 ⊢
      omega }

/-- Rehash invariant across the final placement of a chain: the entry in hand is written
to a bucket that holds no live entry. -/
theorem rinv_place (d : Decl K) (nn no nm : Nat) (h0 h : alignhash_t K V) (nf : List Nat)
    (key : K) (val : V) (R : RInv d nn no nm h0 h nf (some (hentry d key val)))
    (i : Nat) (hi : i < nn) (hie : AH_ISEMPTY nf i ≠ 0)
    (hpk : ∃ t, t < nn ∧ path d nn no nm key t = i ∧
      ∀ u, u < t → AH_ISEMPTY nf (path d nn no nm key u) = 0)
    (hns : ¬ (i < h.nbucket ∧ AH_ISEITHER h.flags i = 0)) :
    RInv d nn no nm h0
      { h with
        keys := Function.update h.keys i key,
        vals := if d.ismap then Function.update h.vals i val else h.vals }
      (AH_CLEAR_EMPTY nf i) none := by
  rw [R.nb_eq] at hns
  have hl : i / 16 < nf.length := by rw [R.nf_len]; exact nflags_bound _ _ hi
  have hlive : ∀ j, Live nn h0.nbucket (AH_CLEAR_EMPTY nf i) h.flags j ↔
      j = i ∨ Live nn h0.nbucket nf h.flags j :=
    fun j => live_place nn h0.nbucket nf h.flags i j hi hl hns
  have hnl : ¬ Live nn h0.nbucket nf h.flags i := by
    rintro (⟨_, h1⟩ | h1)
    · exact hie h1
    · exact hns h1
  have hfr : ∀ j, Live nn h0.nbucket nf h.flags j → h.keys j ≠ key :=
    fun j hj => R.fresh _ rfl j hj
  exact {
    nb_eq := R.nb_eq
    size_eq := R.size_eq
    fl_len := R.fl_len
    nf_len := by rw [← R.nf_len]; exact length_clear_empty _ _
    nf_nodel := fun j => by rw [isdel_clear_empty]; exact R.nf_nodel j
    disj := by
      intro j hj hje hj0
      show AH_ISEITHER h.flags j ≠ 0
      rw [isempty_clear_empty _ _ _ hl] at hje
      by_cases hji : j = i
      · rw [hji]
        exact fun hc => hns ⟨by rw [← hji]; exact hj0, hc⟩
      · rw [if_neg hji] at hje
        exact R.disj j hj hje hj0
    inj := by
      intro a b ha hb hab
      have ha' := (hlive a).mp ha
      have hb' := (hlive b).mp hb
      change Function.update h.keys i key a = Function.update h.keys i key b at hab
      by_cases hai : a = i
      · by_cases hbi : b = i
        · rw [hai, hbi]
        · rw [hai, Function.update_same, Function.update_noteq hbi] at hab
          exact absurd hab.symm (hfr b (hb'.resolve_left hbi))
      · by_cases hbi : b = i
        · rw [hbi, Function.update_same, Function.update_noteq hai] at hab
          exact absurd hab (hfr a (ha'.resolve_left hai))
        · rw [Function.update_noteq hai, Function.update_noteq hbi] at hab
          exact R.inj a b (ha'.resolve_left hai) (hb'.resolve_left hbi) hab
    fresh := fun e he => by cases he
    content := by
      intro e
      rw [← R.content e]
      constructor
      · rintro (⟨j, hj, hje⟩ | he)
        · have hj' := (hlive j).mp hj
          change sentry d (Function.update h.keys i key)
            (if d.ismap then Function.update h.vals i val else h.vals) j = e at hje
          rw [sentry_write] at hje
          by_cases hji : j = i
          · rw [if_pos hji] at hje
            exact Or.inr (by rw [hje])
          · rw [if_neg hji] at hje
            exact Or.inl ⟨j, hj'.resolve_left hji, hje⟩
        · cases he
      · rintro (⟨j, hj, hje⟩ | he)
        · have hji : j ≠ i := fun hc => hnl (by rw [← hc]; exact hj)
          left
          refine ⟨j, (hlive j).mpr (Or.inr hj), ?_⟩
          show sentry d (Function.update h.keys i key)
            (if d.ismap then Function.update h.vals i val else h.vals) j = e
          rw [sentry_write, if_neg hji]
          exact hje
        · left
          refine ⟨i, (hlive i).mpr (Or.inl rfl), ?_⟩
          show sentry d (Function.update h.keys i key)
            (if d.ismap then Function.update h.vals i val else h.vals) i = e
          rw [sentry_write, if_pos rfl]
          exact Option.some.inj he
    path_ok := by
      intro j hj hje
      by_cases hji : j = i
      · obtain ⟨t, ht, hpt, hmin⟩ := hpk
        subst hji
        refine ⟨t, ht, ?_, fun u hu => ?_⟩
        · show path d nn no nm (Function.update h.keys j key j) t = j
          rw [Function.update_same]; exact hpt
        · show AH_ISEMPTY (AH_CLEAR_EMPTY nf j) (path d nn no nm (Function.update h.keys j key j) u) = 0
          rw [Function.update_same, isempty_clear_empty _ _ _ hl]
          split
          · rfl
          · exact hmin u hu
      · rw [isempty_clear_empty _ _ _ hl, if_neg hji] at hje
        refine (R.path_ok j hj hje).mono (Function.update_noteq hji _ _) (fun a ha => ?_)
        rw [isempty_clear_empty _ _ _ hl]
        split
        · rfl
        · exact ha
    count := by
      show used_count (AH_CLEAR_EMPTY nf i) nn + occ_count h.flags h0.nbucket
        + (if (none : Option (K × Option V)).isSome then 1 else 0) = h0.size
      have h1 := used_count_clear_empty nf nn i hi hl hie
      have h3 := R.count
      simp only [Option.isSome_some, Option.isSome_none, if_true] at h3 ⊢
      simp only [Bool.false_eq_true, if_false]
      omega }

/-- Rehash invariant when the walk takes the original entry of bucket `j0` in hand. -/
theorem rinv_pick (d : Decl K) (nn no nm : Nat) (h0 h : alignhash_t K V) (nf : List Nat)
    (R : RInv d nn no nm h0 h nf none) (j0 : Nat) (hj0 : j0 < h0.nbucket)
    (ho : AH_ISEITHER h.flags j0 = 0) :
    RInv d nn no nm h0 { h with flags := AH_SET_DEL h.flags j0 } nf
      (some (hentry d (h.keys j0) (h.vals j0))) := by
  have hl2 : j0 / 16 < h.flags.length := by rw [R.fl_len]; exact nflags_bound _ _ hj0
  have hnp : ¬ (j0 < nn ∧ AH_ISEMPTY nf j0 = 0) := fun hc => R.disj j0 hc.1 hc.2 hj0 ho
  have hlive : ∀ j, Live nn h0.nbucket nf (AH_SET_DEL h.flags j0) j ↔
      j ≠ j0 ∧ Live nn h0.nbucket nf h.flags j :=
    fun j => live_pick nn h0.nbucket nf h.flags j0 j hl2 hnp
  have hlj : Live nn h0.nbucket nf h.flags j0 := Or.inr ⟨hj0, ho⟩
  have hse : hentry d (h.keys j0) (h.vals j0) = sentry d h.keys h.vals j0 := by
    have := sentry_hand d h.keys h.vals j0 (h.vals j0)
    rwa [ite_self] at this
  rw [hse]
  exact {
    nb_eq := R.nb_eq
    size_eq := R.size_eq
    fl_len := by rw [← R.fl_len]; exact length_set_del _ _
    nf_len := R.nf_len
    nf_nodel := R.nf_nodel
    disj := by
      intro j hj hje hjb
      show AH_ISEITHER (AH_SET_DEL h.flags j0) j ≠ 0
      rw [Ne, occ_set_del _ _ _ hl2]
      exact fun hc => R.disj j hj hje hjb hc.2
    inj := fun a b ha hb hab => R.inj a b ((hlive a).mp ha).2 ((hlive b).mp hb).2 hab
    fresh := by
      intro e he j hj
      have he' : e = sentry d h.keys h.vals j0 := (Option.some.inj he).symm
      rw [he']
      have hj' := (hlive j).mp hj
      exact fun hc => hj'.1 (R.inj j j0 hj'.2 hlj hc)
    content := by
      intro e
      rw [← R.content e]
      constructor
      · rintro (⟨j, hj, hje⟩ | he)
        · exact Or.inl ⟨j, ((hlive j).mp hj).2, hje⟩
        · exact Or.inl ⟨j0, hlj, Option.some.inj he⟩
      · rintro (⟨j, hj, hje⟩ | he)
        · by_cases hjj : j = j0
          · right; rw [← hje, hjj]
          · exact Or.inl ⟨j, (hlive j).mpr ⟨hjj, hj⟩, hje⟩
        · cases he
    path_ok := R.path_ok
    count := by
      show used_count nf nn + occ_count (AH_SET_DEL h.flags j0) h0.nbucket
        + (if (some (sentry d h.keys h.vals j0)).isSome then 1 else 0) = h0.size
      have h2 := occ_count_set_del h.flags h0.nbucket j0 hj0 hl2 ho
      have h3 := R.count
      simp only [Option.isSome_some, Option.isSome_none, if_true] at h3 ⊢
      simp only [Bool.false_eq_true, if_false] at h3
      omega }

theorem resize_chain_succ (d : Decl K) (nn no nm fuel : Nat) (h : alignhash_t K V)
    (nf : List Nat) (key : K) (val : V) :
    resize_chain d nn no nm (fuel + 1) h nf key val
      = match resize_probe nf nn (AH_PROBE_STEP d.tier (hkey d key) no nm) nn
            (hkey d key &&& nm) with
        | none => none
        | some i =>
          if i < h.nbucket ∧ AH_ISEITHER h.flags i = 0 then
            resize_chain d nn no nm fuel
              { h with
                keys := Function.update h.keys i key,
                vals := if d.ismap then Function.update h.vals i val else h.vals,
                flags := AH_SET_DEL h.flags i }
              (AH_CLEAR_EMPTY nf i) (h.keys i) (if d.ismap then h.vals i else val)
          else
            some ({ h with
                    keys := Function.update h.keys i key,
                    vals := if d.ismap then Function.update h.vals i val else h.vals },
                  AH_CLEAR_EMPTY nf i) := rfl

/-- The displacement chain terminates within `fuel` rounds when `fuel` exceeds the number
of unprocessed original entries, and re-establishes the rehash invariant with nothing
in hand. -/
theorem chain_spec (d : Decl K) (nn no nm : Nat) (g : Geo nn nm) (h0 : alignhash_t K V)
    (hsz : h0.size ≤ nn) :
    ∀ (fuel : Nat) (h : alignhash_t K V) (nf : List Nat) (key : K) (val : V),
      RInv d nn no nm h0 h nf (some (hentry d key val)) →
      occ_count h.flags h0.nbucket < fuel →
      ∃ h' nf', resize_chain d nn no nm fuel h nf key val = some (h', nf') ∧
        RInv d nn no nm h0 h' nf' none ∧
        (∀ i, AH_ISEITHER h'.flags i = 0 → AH_ISEITHER h.flags i = 0) := by
  intro fuel
  induction fuel with
  | zero => intro h nf key val _ hf; omega
  | succ f ih =>
    intro h nf key val R hf
    have hlt : used_count nf nn < nn := by
      have := R.count
      simp only [Option.isSome_some, if_true] at this
      omega
    obtain ⟨t, ht, hte, hmin, hprobe⟩ := resize_probe_spec d nn no nm g nf key hlt
    have hi : path d nn no nm key t < nn := path_lt d g no key t
    rw [resize_chain_succ, hprobe]
    by_cases hsw : path d nn no nm key t < h.nbucket ∧
        AH_ISEITHER h.flags (path d nn no nm key t) = 0
    · simp only [if_pos hsw]
      have R' := rinv_swap d nn no nm h0 h nf key val R _ hi hte ⟨t, ht, rfl, hmin⟩ hsw
      have hi0 : path d nn no nm key t < h0.nbucket := by rw [← R.nb_eq]; exact hsw.1
      have hl2 : path d nn no nm key t / 16 < h.flags.length := by
        rw [R.fl_len]; exact nflags_bound _ _ hi0
      have hdec := occ_count_set_del h.flags h0.nbucket _ hi0 hl2 hsw.2
      obtain ⟨h', nf', he, R'', hmono⟩ := ih _ _ _ _ R' (by
        show occ_count (AH_SET_DEL h.flags (path d nn no nm key t)) h0.nbucket < f
        omega)
      refine ⟨h', nf', he, R'', fun i hoi => ?_⟩
      exact ((occ_set_del _ _ _ hl2).mp (hmono i hoi)).2
    · simp only [if_neg hsw]
      exact ⟨_, _, rfl, rinv_place d nn no nm h0 h nf key val R _ hi hte ⟨t, ht, rfl, hmin⟩ hsw,
        fun i hoi => hoi⟩

theorem resize_walk_succ (d : Decl K) (nn no nm n j : Nat) (h : alignhash_t K V)
    (nf : List Nat) :
    resize_walk d nn no nm (n + 1) j h nf
      = if AH_ISEITHER h.flags j = 0 then
          match resize_chain d nn no nm (h.nbucket + 1)
              { h with flags := AH_SET_DEL h.flags j } nf (h.keys j) (h.vals j) with
          | none => none
          | some (h', nf') => resize_walk d nn no nm n (j + 1) h' nf'
        else resize_walk d nn no nm n (j + 1) h nf := rfl

/-- The walk over the original buckets returns, with every original entry processed. -/
theorem walk_spec (d : Decl K) (nn no nm : Nat) (g : Geo nn nm) (h0 : alignhash_t K V)
    (hsz : h0.size ≤ nn) :
    ∀ (n j : Nat) (h : alignhash_t K V) (nf : List Nat),
      j + n = h0.nbucket → RInv d nn no nm h0 h nf none →
      (∀ i, i < j → AH_ISEITHER h.flags i ≠ 0) →
      ∃ h' nf', resize_walk d nn no nm n j h nf = some (h', nf') ∧
        RInv d nn no nm h0 h' nf' none ∧
        (∀ i, i < h0.nbucket → AH_ISEITHER h'.flags i ≠ 0) := by
  intro n
  induction n with
  | zero =>
    intro j h nf hj R hdone
    exact ⟨h, nf, rfl, R, fun i hi => hdone i (by omega)⟩
  | succ n ih =>
    intro j h nf hj R hdone
    rw [resize_walk_succ]
    by_cases ho : AH_ISEITHER h.flags j = 0
    · rw [if_pos ho]
      have hj0 : j < h0.nbucket := by omega
      have hl2 : j / 16 < h.flags.length := by rw [R.fl_len]; exact nflags_bound _ _ hj0
      have R1 := rinv_pick d nn no nm h0 h nf R j hj0 ho
      obtain ⟨h', nf', he, R', hmono⟩ := chain_spec d nn no nm g h0 hsz (h.nbucket + 1)
        _ nf (h.keys j) (h.vals j) R1 (by
          have := card_filter_le_range h0.nbucket
            (fun i => AH_ISEITHER (AH_SET_DEL h.flags j) i = 0)
          rw [R.nb_eq]
          show occ_count (AH_SET_DEL h.flags j) h0.nbucket < h0.nbucket + 1
          unfold occ_count
          omega)
      rw [he]
      refine ih (j + 1) h' nf' (by omega) R' (fun i hi hoi => ?_)
      have h1 := (occ_set_del _ _ _ hl2).mp (hmono i hoi)
      rcases Nat.lt_succ_iff_lt_or_eq.mp hi with h2 | h2
      · exact hdone i h2 h1.2
      · exact h1.1 h2
    · rw [if_neg ho]
      refine ih (j + 1) h nf (by omega) R (fun i hi => ?_)
      rcases Nat.lt_succ_iff_lt_or_eq.mp hi with h2 | h2
      · exact hdone i h2
      · rw [h2]; exact ho

theorem isdel_replicate_all (n j : Nat) : AH_ISDEL (List.replicate n AA_WORD) j = 0 := by
  by_cases h : j / 16 < n
  · exact isdel_replicate n j h
  · rw [isdel_bit]
    have : fword (List.replicate n AA_WORD) j = 0 := by
      unfold fword
      rw [List.getD_eq_getElem?_getD, List.getElem?_replicate]
      simp [h]
    rw [this]
    simp

/-- The rehash invariant holds on entry to the walk. -/
theorem rinv_init (d : Decl K) (nn no nm : Nat) (h0 : alignhash_t K V) (w : WF d h0) :
    RInv d nn no nm h0 h0 (memset_aa [] (AH_NFLAGS nn)) none := by
  rw [memset_nil]
  have he : ∀ i, i < nn → AH_ISEMPTY (List.replicate (AH_NFLAGS nn) AA_WORD) i ≠ 0 := by
    intro i hi
    rw [isempty_replicate _ _ (nflags_bound _ _ hi)]
    omega
  have hlive : ∀ i, Live nn h0.nbucket (List.replicate (AH_NFLAGS nn) AA_WORD) h0.flags i ↔
      (i < h0.nbucket ∧ AH_ISEITHER h0.flags i = 0) := by
    intro i
    unfold Live
    constructor
    · rintro (⟨h1, h2⟩ | h1)
      · exact absurd h2 (he i h1)
      · exact h1
    · exact Or.inr
  exact {
    nb_eq := rfl
    size_eq := rfl
    fl_len := w.flags_len
    nf_len := by simp
    nf_nodel := isdel_replicate_all _
    disj := fun i hi hie => absurd hie (he i hi)
    inj := fun a b ha hb hab =>
      w.nodup a b ((hlive a).mp ha).1 ((hlive b).mp hb).1 ((hlive a).mp ha).2
        ((hlive b).mp hb).2 hab
    fresh := fun e he => by cases he
    content := by
      intro e
      constructor
      · rintro (⟨i, hi, hie⟩ | he)
        · exact ⟨i, ((hlive i).mp hi).1, ((hlive i).mp hi).2, hie⟩
        · cases he
      · rintro ⟨i, h1, h2, h3⟩
        exact Or.inl ⟨i, (hlive i).mpr ⟨h1, h2⟩, h3⟩
    path_ok := fun i hi hie => absurd hie (he i hi)
    count := by
      have h1 : used_count (List.replicate (AH_NFLAGS nn) AA_WORD) nn = 0 :=
        card_filter_zero _ _ (fun i hi => he i hi)
      rw [h1, ← w.size_eq]
      simp }

theorem geo_pow (m : Nat) : Geo (2 ^ m) (2 ^ m - 1) := ⟨m, rfl, rfl⟩

/-- A resize to a power-of-two bucket count that can hold the live entries succeeds;
the result is well formed, holds exactly the entries held before, and has no Deleted
bucket. -/
theorem resize_spec (d : Decl K) (h : alignhash_t K V) (w : WF d h) (m r : Nat)
    (hsz : h.size < AH_SUP (2 ^ m)) :
    ∃ h', alignhash_resize d h (2 ^ m) r = some (0, h') ∧ WF d h' ∧
      h'.nbucket = 2 ^ m ∧ h'.order = r ∧ h'.mask = 2 ^ m - 1 ∧ h'.sup = AH_SUP (2 ^ m) ∧
      h'.size = h.size ∧ h'.nused = h.size ∧
      (∀ i, AH_ISDEL h'.flags i = 0) ∧
      (∀ e, (∃ i, i < h'.nbucket ∧ AH_ISEITHER h'.flags i = 0 ∧
              sentry d h'.keys h'.vals i = e) ↔
            (∃ i, i < h.nbucket ∧ AH_ISEITHER h.flags i = 0 ∧
              sentry d h.keys h.vals i = e)) := by
  have hle : h.size ≤ 2 ^ m := by have := sup_le (2 ^ m); omega
  obtain ⟨h1, nf, hw, R, hdone⟩ := walk_spec d (2 ^ m) r (2 ^ m - 1) (geo_pow m) h hle
    h.nbucket 0 h (memset_aa [] (AH_NFLAGS (2 ^ m))) (by omega)
    (rinv_init d _ _ _ h w) (fun i hi => by omega)
  have hocc0 : occ_count h1.flags h.nbucket = 0 :=
    card_filter_zero _ _ (fun i hi => hdone i hi)
  have hoe : ∀ i, AH_ISEITHER nf i = 0 ↔ AH_ISEMPTY nf i = 0 := by
    intro i
    rw [iseither_zero_iff]
    exact ⟨fun hh => hh.1, fun hh => ⟨hh, R.nf_nodel i⟩⟩
  have hcnt : used_count nf (2 ^ m) = h.size := by
    have := R.count
    rw [hocc0] at this
    simpa using this
  have hlive : ∀ i, Live (2 ^ m) h.nbucket nf h1.flags i ↔
      (i < 2 ^ m ∧ AH_ISEMPTY nf i = 0) := by
    intro i
    unfold Live
    constructor
    · rintro (h2 | h2)
      · exact h2
      · exact absurd h2.2 (hdone i h2.1)
    · exact Or.inl
  unfold alignhash_resize
  rw [if_neg (by omega), hw]
  refine ⟨_, rfl, ?_, rfl, rfl, rfl, rfl, R.size_eq, R.size_eq, R.nf_nodel, ?_⟩
  · exact {
      pow2 := Or.inr ⟨m, rfl⟩
      mask_eq := rfl
      sup_eq := rfl
      flags_len := R.nf_len
      no3 := fun i _ _ => R.nf_nodel i
      size_eq := by
        show h1.size = occ_count nf (2 ^ m)
        rw [R.size_eq, ← hcnt]
        unfold occ_count used_count
        exact (card_filter_same _ _ _ (fun j _ => hoe j)).symm
      nused_eq := by
        show h1.size = used_count nf (2 ^ m)
        rw [R.size_eq, hcnt]
      nodup := fun i j hi hj hoi hoj hk =>
        R.inj i j ((hlive i).mpr ⟨hi, (hoe i).mp hoi⟩) ((hlive j).mpr ⟨hj, (hoe j).mp hoj⟩) hk
      path_ok := fun i hi hoi => R.path_ok i hi ((hoe i).mp hoi) }
  · intro e
    rw [← R.content e]
    constructor
    · rintro ⟨i, hi, hoi, hie⟩
      exact Or.inl ⟨i, (hlive i).mpr ⟨hi, (hoe i).mp hoi⟩, hie⟩
    · rintro (⟨i, hi, hie⟩ | he)
      · exact ⟨i, ((hlive i).mp hi).1, (hoe i).mpr ((hlive i).mp hi).2, hie⟩
      · cases he

/-- A resize whose target cannot hold the live entries fails and returns the table as
it was. -/
theorem resize_reject (d : Decl K) (h : alignhash_t K V) (nn r : Nat)
    (hsz : h.size ≥ AH_SUP nn) : alignhash_resize d h nn r = some (-1, h) := by
  unfold alignhash_resize
  rw [if_pos hsz]

theorem size_le_nbucket (d : Decl K) (h : alignhash_t K V) (w : WF d h) :
    h.size ≤ h.nused ∧ h.nused ≤ h.nbucket := by
  rw [w.size_eq, w.nused_eq]
  exact ⟨occ_le_used _ _, used_le _ _⟩

/-- The growth check of `alignhash_set`: it returns 0 with a well-formed table that holds
the same entries and has a free bucket below the threshold. -/
theorem grow_spec (d : Decl K) (h : alignhash_t K V) (w : WF d h) :
    ∃ h1, set_grow d h = some (0, h1) ∧ WF d h1 ∧ h1.nused < h1.sup ∧ h1.size = h.size ∧
      (∀ e, (∃ i, i < h1.nbucket ∧ AH_ISEITHER h1.flags i = 0 ∧
              sentry d h1.keys h1.vals i = e) ↔
            (∃ i, i < h.nbucket ∧ AH_ISEITHER h.flags i = 0 ∧
              sentry d h.keys h.vals i = e)) ∧
      ((h.nused < h.sup ∧ h1 = h) ∨
       (h.sup ≤ h.nused ∧ h1.nbucket = (if h.nbucket ≠ 0 then h.nbucket * 2 else 2) ∧
        h1.order = (if h.nbucket ≠ 0 then h.order + 1 else 0) ∧ h1.nused = h.size ∧
        ∀ i, AH_ISDEL h1.flags i = 0)) := by
  have hb := size_le_nbucket d h w
  unfold set_grow
  by_cases hg : h.nused ≥ h.sup
  · rw [if_pos hg]
    by_cases hn : h.nbucket ≠ 0
    · rw [if_pos hn]
      obtain ⟨m, hm⟩ : ∃ m, h.nbucket = 2 ^ m := by
        rcases w.pow2 with h0 | h0
        · exact absurd h0 hn
        · exact h0
      have e2 : h.nbucket * 2 = 2 ^ (m + 1) := by rw [hm, pow_succ]
      rw [e2]
      have hsz : h.size < AH_SUP (2 ^ (m + 1)) := by
        rw [← e2]; unfold AH_SUP; omega
      obtain ⟨h', hr, w', hnb, hord, hmask, hsup, hsize, hnused, hnd, hcont⟩ :=
        resize_spec d h w (m + 1) (h.order + 1) hsz
      refine ⟨h', hr, w', by rw [hnused, hsup]; exact hsz, hsize, hcont, Or.inr ⟨hg, ?_, ?_, hnused, hnd⟩⟩
      · rw [if_pos hn, hnb]
      · rw [if_pos hn, hord]
    · rw [if_neg hn]
      have hn0 : h.nbucket = 0 := not_not.mp hn
      have hsz : h.size < AH_SUP (2 ^ 1) := by
        unfold AH_SUP; norm_num; omega
      obtain ⟨h', hr, w', hnb, hord, hmask, hsup, hsize, hnused, hnd, hcont⟩ :=
        resize_spec d h w 1 0 hsz
      refine ⟨h', hr, w', by rw [hnused, hsup]; exact hsz, hsize, hcont, Or.inr ⟨hg, ?_, ?_, hnused, hnd⟩⟩
      · rw [if_neg hn, hnb]; rfl
      · rw [if_neg hn, hord]
  · rw [if_neg hg]
    exact ⟨h, rfl, w, by omega, rfl, fun e => Iff.rfl, Or.inl ⟨by omega, rfl⟩⟩

/-! ## Insertion -/

theorem set_find_unfold (d : Decl K) (h : alignhash_t K V) (key : K) :
    set_find d h key
      = if AH_ISEMPTY h.flags (path d h.nbucket h.order h.mask key 0) ≠ 0 then
          some (path d h.nbucket h.order h.mask key 0)
        else
          match set_loop h key (AH_PROBE_STEP d.tier (hkey d key) h.order h.mask)
              (hkey d key &&& h.mask) h.nbucket (path d h.nbucket h.order h.mask key 0)
              h.nbucket h.nbucket with
          | none => none
          | some (i, site, x) =>
            if x = h.nbucket then
              if AH_ISEMPTY h.flags i ≠ 0 ∧ site ≠ h.nbucket then some site else some i
            else some x := rfl

/-- The search of `alignhash_set` stops at the bucket that already holds the key. -/
theorem set_find_present (d : Decl K) (h : alignhash_t K V) (w : WF d h) (key : K) (x : Nat)
    (hx : At h x key) : set_find d h key = some x := by
  have hp : 0 < h.nbucket := by have := hx.1; omega
  have g := w.geo hp
  obtain ⟨t, ht, hpt, hne⟩ := w.path_ok x hx.1 hx.2.1
  rw [hx.2.2] at hpt hne
  have hxe := ((iseither_zero_iff _ _).mp hx.2.1).1
  have h0e : AH_ISEMPTY h.flags (path d h.nbucket h.order h.mask key 0) = 0 := by
    rcases Nat.eq_zero_or_pos t with h0 | h0
    · rw [h0] at hpt; rw [hpt]; exact hxe
    · exact hne 0 h0
  have hl := set_loop_stop h key (AH_PROBE_STEP d.tier (hkey d key) h.order h.mask)
    (hkey d key &&& h.mask) (path d h.nbucket h.order h.mask key)
    (path_succ d _ _ _ key) t 0 h.nbucket h.nbucket h.nbucket ht
    (fun u _ hu => cont_before d h w key x t hx ht hpt hne u (by omega))
    (by rw [Nat.zero_add, hpt]; exact stop_at h key x hx)
    (fun u h1 h2 => path_ne_start d g _ key u h1 (by omega))
  rw [Nat.zero_add, hpt] at hl
  rw [set_find_unfold, if_neg (by rw [h0e]; simp), hl]
  simp only [if_true]
  rw [if_neg (by rw [hxe]; simp)]

/-- The search of `alignhash_set` for a key that is not stored: with `te` the first Empty
bucket of the probe path, the result is that bucket when no bucket before it is Deleted,
and otherwise the last Deleted bucket before it. -/
theorem set_find_absent (d : Decl K) (h : alignhash_t K V) (w : WF d h) (key : K)
    (habs : ∀ i, ¬ At h i key) (hfree : h.nused < h.nbucket) :
    ∃ y te, set_find d h key = some y ∧ te < h.nbucket ∧
      AH_ISEMPTY h.flags (path d h.nbucket h.order h.mask key te) ≠ 0 ∧
      (∀ u, u < te → AH_ISEMPTY h.flags (path d h.nbucket h.order h.mask key u) = 0) ∧
      ((y = path d h.nbucket h.order h.mask key te ∧
          ∀ u, u < te → AH_ISDEL h.flags (path d h.nbucket h.order h.mask key u) = 0) ∨
       (∃ u, u < te ∧ AH_ISDEL h.flags (path d h.nbucket h.order h.mask key u) ≠ 0 ∧
          y = path d h.nbucket h.order h.mask key u ∧
          ∀ v, u < v → v < te →
            AH_ISDEL h.flags (path d h.nbucket h.order h.mask key v) = 0)) := by
  have hp : 0 < h.nbucket := by omega
  have g := w.geo hp
  obtain ⟨i, hi, hie⟩ := exists_of_card_filter_lt h.nbucket
    (fun i => AH_ISEMPTY h.flags i = 0) (by
      have := w.nused_eq; unfold used_count at this; omega)
  obtain ⟨t0, ht0, hpt0⟩ := path_surj d g h.order key i hi
  obtain ⟨te, hte, htee, hmin⟩ := first_empty h.flags (path d h.nbucket h.order h.mask key)
    h.nbucket ⟨t0, ht0, by rw [hpt0]; exact hie⟩
  rcases Nat.eq_zero_or_pos te with h0 | h0
  · subst h0
    refine ⟨_, 0, ?_, hte, htee, hmin, Or.inl ⟨rfl, fun u hu => by omega⟩⟩
    rw [set_find_unfold, if_pos htee]
  · have hl := set_loop_stop h key (AH_PROBE_STEP d.tier (hkey d key) h.order h.mask)
      (hkey d key &&& h.mask) (path d h.nbucket h.order h.mask key)
      (path_succ d _ _ _ key) te 0 h.nbucket h.nbucket h.nbucket hte
      (fun u _ hu => cont_absent h key _ (path_lt d g _ _ _) habs (hmin u (by omega)))
      (by rw [Nat.zero_add]; exact fun hc => htee hc.1)
      (fun u h1 h2 => path_ne_start d g _ key u h1 (by omega))
    rw [Nat.zero_add] at hl
    have hfind : set_find d h key
        = if AH_ISEMPTY h.flags (path d h.nbucket h.order h.mask key te) ≠ 0 ∧
              site_after h.flags (path d h.nbucket h.order h.mask key) h.nbucket 0 te
                ≠ h.nbucket
          then some (site_after h.flags (path d h.nbucket h.order h.mask key) h.nbucket 0 te)
          else some (path d h.nbucket h.order h.mask key te) := by
      rw [set_find_unfold, if_neg (by rw [hmin 0 h0]; simp), hl]
      simp only [if_true]
    rcases site_after_spec h.flags (path d h.nbucket h.order h.mask key) te h.nbucket 0 with
      ⟨hs, hnd⟩ | ⟨u, _, hu, hud, hs, hlast⟩
    · refine ⟨_, te, ?_, hte, htee, hmin, Or.inl ⟨rfl, fun u hu => hnd u (by omega) (by omega)⟩⟩
      rw [hfind, hs, if_neg (by simp)]
    · refine ⟨_, te, ?_, hte, htee, hmin, Or.inr ⟨u, by omega, hud, rfl,
        fun v hv1 hv2 => hlast v hv1 (by omega)⟩⟩
      have hne : path d h.nbucket h.order h.mask key u ≠ h.nbucket := by
        have := path_lt d g h.order key u
        omega
      rw [hfind, hs, if_pos ⟨htee, hne⟩]

/-- Consequences of `set_find_absent` that the invariant needs: the chosen bucket is in
range, is not Occupied, and is reached by the probe path before any Empty bucket. -/
theorem set_find_absent_slot (d : Decl K) (h : alignhash_t K V) (w : WF d h) (key : K)
    (habs : ∀ i, ¬ At h i key) (hfree : h.nused < h.nbucket) :
    ∃ y, set_find d h key = some y ∧ y < h.nbucket ∧ AH_ISEITHER h.flags y ≠ 0 ∧
      ∃ t, t < h.nbucket ∧ path d h.nbucket h.order h.mask key t = y ∧
        ∀ u, u < t → AH_ISEMPTY h.flags (path d h.nbucket h.order h.mask key u) = 0 := by
  have g := w.geo (by omega)
  obtain ⟨y, te, hf, hte, htee, hmin, hy | ⟨u, hu, hud, hy, _⟩⟩ :=
    set_find_absent d h w key habs hfree
  · refine ⟨y, hf, by rw [hy.1]; exact path_lt d g _ _ _, ?_, te, hte, hy.1.symm, hmin⟩
    rw [hy.1, Ne, iseither_zero_iff]
    exact fun hc => htee hc.1
  · refine ⟨y, hf, by rw [hy]; exact path_lt d g _ _ _, ?_, u, by omega, hy.symm,
      fun v hv => hmin v (by omega)⟩
    rw [hy, Ne, iseither_zero_iff]
    exact fun hc => hud hc.2

theorem set_store_present (h : alignhash_t K V) (key : K) (x : Nat)
    (ho : AH_ISEITHER h.flags x = 0) : set_store h key x = (h, x, AH_INS_ERR) := by
  have := (iseither_zero_iff _ _).mp ho
  unfold set_store
  rw [if_neg (by rw [this.1]; simp), if_neg (by rw [this.2]; simp)]

theorem set_store_new (h : alignhash_t K V) (key : K) (x : Nat)
    (he : AH_ISEMPTY h.flags x ≠ 0) :
    set_store h key x
      = ({ h with keys := Function.update h.keys x key, flags := AH_CLEAR_BOTH h.flags x,
                  size := h.size + 1, nused := h.nused + 1 }, x, AH_INS_NEW) := by
  unfold set_store
  rw [if_pos he]

theorem set_store_del (h : alignhash_t K V) (key : K) (x : Nat)
    (he : AH_ISEMPTY h.flags x = 0) (hd : AH_ISDEL h.flags x ≠ 0) :
    set_store h key x
      = ({ h with keys := Function.update h.keys x key, flags := AH_CLEAR_BOTH h.flags x,
                  size := h.size + 1 }, x, AH_INS_DEL) := by
  unfold set_store
  rw [if_neg (by rw [he]; simp), if_pos hd]

theorem occ_clear_both (fl : List Nat) (x j : Nat) (hx : x / 16 < fl.length) :
    AH_ISEITHER (AH_CLEAR_BOTH fl x) j = 0 ↔ j = x ∨ AH_ISEITHER fl j = 0 := by
  rw [iseither_zero_iff, iseither_zero_iff, isempty_clear_both _ _ _ hx,
    isdel_clear_both _ _ _ hx]
  by_cases hj : j = x
  · simp [hj]
  · simp [hj]

/-- Writing a key that is not stored into a bucket that is not Occupied and lies on the
key's probe path before any Empty bucket keeps the table well formed. -/
theorem wf_write (d : Decl K) (h h' : alignhash_t K V) (w : WF d h) (key : K) (y : Nat)
    (habs : ∀ i, ¬ At h i key) (hy : y < h.nbucket) (hno : AH_ISEITHER h.flags y ≠ 0)
    (hpk : ∃ t, t < h.nbucket ∧ path d h.nbucket h.order h.mask key t = y ∧
      ∀ u, u < t → AH_ISEMPTY h.flags (path d h.nbucket h.order h.mask key u) = 0)
    (hk : h'.keys = Function.update h.keys y key)
    (hf : h'.flags = AH_CLEAR_BOTH h.flags y)
    (hnb : h'.nbucket = h.nbucket) (hm : h'.mask = h.mask) (hor : h'.order = h.order)
    (hsup : h'.sup = h.sup) (hsz : h'.size = h.size + 1)
    (hnu : h'.nused = h.nused + (if AH_ISEMPTY h.flags y ≠ 0 then 1 else 0)) :
    WF d h' := by
  have hl : y / 16 < h.flags.length := by rw [w.flags_len]; exact nflags_bound _ _ hy
  have hmono : ∀ a, AH_ISEMPTY h.flags a = 0 → AH_ISEMPTY h'.flags a = 0 := by
    intro a ha
    rw [hf, isempty_clear_both _ _ _ hl]
    split
    · rfl
    · exact ha
  exact {
    pow2 := by rw [hnb]; exact w.pow2
    mask_eq := by rw [hm, hnb]; exact w.mask_eq
    sup_eq := by rw [hsup, hnb]; exact w.sup_eq
    flags_len := by rw [hf, hnb, length_clear_both]; exact w.flags_len
    no3 := by
      intro i hi hie
      rw [hnb] at hi
      rw [hf, isempty_clear_both _ _ _ hl] at hie
      rw [hf, isdel_clear_both _ _ _ hl]
      by_cases hiy : i = y
      · rw [if_pos hiy]
      · rw [if_neg hiy] at hie ⊢
        exact w.no3 i hi hie
    size_eq := by
      rw [hsz, hnb, hf, w.size_eq]
      unfold occ_count
      refine (card_filter_gain h.nbucket y hy _ _ (fun j hj => ?_) hno ?_).symm
      · rw [occ_clear_both _ _ _ hl]; simp [hj]
      · rw [occ_clear_both _ _ _ hl]; simp
    nused_eq := by
      rw [hnu, hnb, hf, w.nused_eq]
      unfold used_count
      by_cases hye : AH_ISEMPTY h.flags y ≠ 0
      · rw [if_pos hye]
        refine (card_filter_gain h.nbucket y hy _ _ (fun j hj => ?_) hye ?_).symm
        · rw [isempty_clear_both _ _ _ hl, if_neg hj]
        · rw [isempty_clear_both _ _ _ hl, if_pos rfl]
      · rw [if_neg hye, Nat.add_zero]
        refine (card_filter_same h.nbucket _ _ (fun j _ => ?_)).symm
        rw [isempty_clear_both _ _ _ hl]
        by_cases hj : j = y
        · rw [if_pos hj, hj]; simp [not_not.mp hye]
        · rw [if_neg hj]
    nodup := by
      intro a b ha hb hoa hob hab
      rw [hnb] at ha hb
      rw [hf, occ_clear_both _ _ _ hl] at hoa hob
      rw [hk] at hab
      by_cases hay : a = y
      · by_cases hby : b = y
        · rw [hay, hby]
        · rw [hay, Function.update_same, Function.update_noteq hby] at hab
          exact absurd ⟨hb, hob.resolve_left hby, hab.symm⟩ (habs b)
      · by_cases hby : b = y
        · rw [hby, Function.update_same, Function.update_noteq hay] at hab
          exact absurd ⟨ha, hoa.resolve_left hay, hab⟩ (habs a)
        · rw [Function.update_noteq hay, Function.update_noteq hby] at hab
          exact w.nodup a b ha hb (hoa.resolve_left hay) (hob.resolve_left hby) hab
    path_ok := by
      intro a ha hoa
      rw [hnb] at ha
      rw [hnb, hm, hor]
      rw [hf, occ_clear_both _ _ _ hl] at hoa
      by_cases hay : a = y
      · obtain ⟨t, ht, hpt, hmin⟩ := hpk
        have hka : h'.keys a = key := by rw [hk, hay, Function.update_same]
        refine ⟨t, ht, by rw [hka, hay]; exact hpt, fun u hu => ?_⟩
        rw [hka]
        exact hmono _ (hmin u hu)
      · exact (w.path_ok a ha (hoa.resolve_left hay)).mono
          (by rw [hk, Function.update_noteq hay]) hmono }

/-- The structure of a call of `alignhash_set` on a well-formed table: the growth check
returns 0 with a table `h1`, the search returns a bucket `x` of `h1`, and the result is
`set_store h1 key x`.  Either `x` already holds the key, or the key is stored nowhere
and `x` is a non-Occupied bucket on its probe path. -/
theorem set_decomp (d : Decl K) (h : alignhash_t K V) (w : WF d h) (key : K) (ret : Nat) :
    ∃ h1 x, set_grow d h = some (0, h1) ∧ WF d h1 ∧ h1.nused < h1.sup ∧
      h1.size = h.size ∧
      (∀ e, (∃ i, i < h1.nbucket ∧ AH_ISEITHER h1.flags i = 0 ∧
              sentry d h1.keys h1.vals i = e) ↔
            (∃ i, i < h.nbucket ∧ AH_ISEITHER h.flags i = 0 ∧
              sentry d h.keys h.vals i = e)) ∧
      ((h.nused < h.sup ∧ h1 = h) ∨
       (h.sup ≤ h.nused ∧ h1.nbucket = (if h.nbucket ≠ 0 then h.nbucket * 2 else 2) ∧
        h1.order = (if h.nbucket ≠ 0 then h.order + 1 else 0) ∧ h1.nused = h.size ∧
        ∀ i, AH_ISDEL h1.flags i = 0)) ∧
      set_find d h1 key = some x ∧
      alignhash_set d h key ret = some (set_store h1 key x) ∧ x < h1.nbucket ∧
      (At h1 x key ∨
       ((∀ i, ¬ At h1 i key) ∧ AH_ISEITHER h1.flags x ≠ 0 ∧
        ∃ t, t < h1.nbucket ∧ path d h1.nbucket h1.order h1.mask key t = x ∧
          ∀ u, u < t → AH_ISEMPTY h1.flags (path d h1.nbucket h1.order h1.mask key u) = 0)) := by
  obtain ⟨h1, hg, w1, hfree, hgs, hgc, hgd⟩ := grow_spec d h w
  have hfree' : h1.nused < h1.nbucket := by
    have := sup_le h1.nbucket
    have := w1.sup_eq
    omega
  have hset : ∀ x, set_find d h1 key = some x →
      alignhash_set d h key ret = some (set_store h1 key x) := by
    intro x hx
    unfold alignhash_set
    rw [hg]
    simp only [ne_eq, not_true_eq_false, if_false, hx]
  by_cases hex : ∃ x, At h1 x key
  · obtain ⟨x, hx⟩ := hex
    have hf := set_find_present d h1 w1 key x hx
    exact ⟨h1, x, hg, w1, hfree, hgs, hgc, hgd, hf, hset x hf, hx.1, Or.inl hx⟩
  · have habs : ∀ i, ¬ At h1 i key := fun i hi => hex ⟨i, hi⟩
    obtain ⟨y, hf, hy, hno, hpk⟩ := set_find_absent_slot d h1 w1 key habs hfree'
    exact ⟨h1, y, hg, w1, hfree, hgs, hgc, hgd, hf, hset y hf, hy, Or.inr ⟨habs, hno, hpk⟩⟩

/-- The table stored by `set_store` for a key that is not yet stored. -/
theorem set_store_absent (h : alignhash_t K V) (key : K) (y : Nat)
    (hno : AH_ISEITHER h.flags y ≠ 0) :
    (set_store h key y).2.1 = y ∧
    (set_store h key y).1.keys = Function.update h.keys y key ∧
    (set_store h key y).1.flags = AH_CLEAR_BOTH h.flags y ∧
    (set_store h key y).1.vals = h.vals ∧
    (set_store h key y).1.nbucket = h.nbucket ∧
    (set_store h key y).1.mask = h.mask ∧
    (set_store h key y).1.order = h.order ∧
    (set_store h key y).1.sup = h.sup ∧
    (set_store h key y).1.size = h.size + 1 ∧
    (set_store h key y).1.nused = h.nused + (if AH_ISEMPTY h.flags y ≠ 0 then 1 else 0) ∧
    ((AH_ISEMPTY h.flags y ≠ 0 ∧ (set_store h key y).2.2 = AH_INS_NEW) ∨
     (AH_ISEMPTY h.flags y = 0 ∧ AH_ISDEL h.flags y ≠ 0 ∧
      (set_store h key y).2.2 = AH_INS_DEL)) := by
  by_cases he : AH_ISEMPTY h.flags y ≠ 0
  · rw [set_store_new h key y he, if_pos he]
    exact ⟨rfl, rfl, rfl, rfl, rfl, rfl, rfl, rfl, rfl, rfl, Or.inl ⟨he, rfl⟩⟩
  · have he0 : AH_ISEMPTY h.flags y = 0 := not_not.mp he
    have hd : AH_ISDEL h.flags y ≠ 0 := fun hc => hno ((iseither_zero_iff _ _).mpr ⟨he0, hc⟩)
    rw [set_store_del h key y he0 hd, if_neg he]
    exact ⟨rfl, rfl, rfl, rfl, rfl, rfl, rfl, rfl, rfl, rfl, Or.inr ⟨he0, hd, rfl⟩⟩

/-- The function `alignhash_set` returns on every well-formed table and keeps it well
formed. -/
theorem wf_set (d : Decl K) (h : alignhash_t K V) (w : WF d h) (key : K) (ret : Nat) :
    ∃ r, alignhash_set d h key ret = some r ∧ WF d r.1 := by
  obtain ⟨h1, x, _, w1, _, _, _, _, _, hs, hx, hc | ⟨habs, hno, hpk⟩⟩ :=
    set_decomp d h w key ret
  · refine ⟨_, hs, ?_⟩
    rw [set_store_present h1 key x hc.2.1]
    exact w1
  · refine ⟨_, hs, ?_⟩
    obtain ⟨_, hk, hf, _, hnb, hm, hor, hsup, hsz, hnu, _⟩ :=
      set_store_absent h1 key x hno
    exact wf_write d h1 _ w1 key x habs hx hno hpk hk hf hnb hm hor hsup hsz hnu

/-! ## The abstract content of a table -/

theorem holds_iff_sentry (d : Decl K) (h : alignhash_t K V) (k : K) (ov : Option V) :
    Holds d h k ov ↔
      ∃ i, i < h.nbucket ∧ AH_ISEITHER h.flags i = 0 ∧ sentry d h.keys h.vals i = (k, ov) := by
  unfold Holds At sentry
  constructor
  · rintro ⟨i, ⟨h1, h2, h3⟩, h4⟩
    exact ⟨i, h1, h2, by rw [h3, h4]⟩
  · rintro ⟨i, h1, h2, h3⟩
    rw [Prod.mk.injEq] at h3
    exact ⟨i, ⟨h1, h2, h3.1⟩, h3.2⟩

theorem holds_iff_of_content (d : Decl K) (h1 h : alignhash_t K V)
    (hc : ∀ e, (∃ i, i < h1.nbucket ∧ AH_ISEITHER h1.flags i = 0 ∧
              sentry d h1.keys h1.vals i = e) ↔
            (∃ i, i < h.nbucket ∧ AH_ISEITHER h.flags i = 0 ∧
              sentry d h.keys h.vals i = e)) (k : K) (ov : Option V) :
    Holds d h1 k ov ↔ Holds d h k ov := by
  rw [holds_iff_sentry, holds_iff_sentry]
  exact hc (k, ov)

theorem holds_of_at (d : Decl K) (h : alignhash_t K V) (i : Nat) (k : K) (hi : At h i k) :
    Holds d h k (ventry d h.vals i) := ⟨i, hi, rfl⟩

theorem at_iff_of_holds (d : Decl K) (h1 h : alignhash_t K V) (k : K)
    (hh : ∀ ov, Holds d h1 k ov ↔ Holds d h k ov) : (∃ i, At h1 i k) ↔ (∃ i, At h i k) := by
  constructor
  · rintro ⟨i, hi⟩
    obtain ⟨j, hj, _⟩ := (hh _).mp (holds_of_at d h1 i k hi)
    exact ⟨j, hj⟩
  · rintro ⟨i, hi⟩
    obtain ⟨j, hj, _⟩ := (hh _).mpr (holds_of_at d h i k hi)
    exact ⟨j, hj⟩

/-- The effect of `alignhash_set` on the content of a well-formed table. -/
theorem set_effect (d : Decl K) (h : alignhash_t K V) (w : WF d h) (key : K) (ret : Nat) :
    ∃ h' x r, alignhash_set d h key ret = some (h', x, r) ∧ WF d h' ∧ At h' x key ∧
      (∀ k ov, k ≠ key → (Holds d h' k ov ↔ Holds d h k ov)) ∧
      (((∃ i, At h i key) ∧ r = AH_INS_ERR ∧ h'.size = h.size ∧
          (∀ ov, Holds d h' key ov ↔ Holds d h key ov)) ∨
       ((∀ i, ¬ At h i key) ∧ (r = AH_INS_NEW ∨ r = AH_INS_DEL) ∧ h'.size = h.size + 1)) := by
  obtain ⟨h1, x, _, w1, _, hsz, hcont, _, _, hs, hx, hc | ⟨habs, hno, hpk⟩⟩ :=
    set_decomp d h w key ret
  · have hst := set_store_present h1 key x hc.2.1
    rw [hst] at hs
    refine ⟨h1, x, AH_INS_ERR, hs, w1, hc, fun k ov _ => holds_iff_of_content d h1 h hcont k ov,
      Or.inl ⟨?_, rfl, hsz, fun ov => holds_iff_of_content d h1 h hcont key ov⟩⟩
    exact (at_iff_of_holds d h1 h key (fun ov => holds_iff_of_content d h1 h hcont key ov)).mp
      ⟨x, hc⟩
  · obtain ⟨hx', hk, hf, hv, hnb, hm, hor, hsup, hsize, hnu, hr⟩ :=
      set_store_absent h1 key x hno
    have hl : x / 16 < h1.flags.length := by rw [w1.flags_len]; exact nflags_bound _ _ hx
    have w' : WF d (set_store h1 key x).1 :=
      wf_write d h1 _ w1 key x habs hx hno hpk hk hf hnb hm hor hsup hsize hnu
    have hat : At (set_store h1 key x).1 x key := by
      refine ⟨by rw [hnb]; exact hx, ?_, by rw [hk, Function.update_same]⟩
      rw [hf, occ_clear_both _ _ _ hl]
      exact Or.inl rfl
    have hres : set_store h1 key x = ((set_store h1 key x).1, x, (set_store h1 key x).2.2) :=
      Prod.ext rfl (Prod.ext hx' rfl)
    rw [hres] at hs
    refine ⟨_, x, _, hs, w', hat, ?_, Or.inr ⟨?_, ?_, by rw [hsize, hsz]⟩⟩
    · intro k ov hkk
      rw [← holds_iff_of_content d h1 h hcont k ov]
      unfold Holds At
      constructor
      · rintro ⟨i, ⟨h1', h2, h3⟩, h4⟩
        rw [hnb] at h1'
        rw [hf, occ_clear_both _ _ _ hl] at h2
        rw [hk] at h3
        rw [hv] at h4
        have hix : i ≠ x := by
          intro e
          rw [e, Function.update_same] at h3
          exact hkk h3.symm
        rw [Function.update_noteq hix] at h3
        exact ⟨i, ⟨h1', h2.resolve_left hix, h3⟩, h4⟩
      · rintro ⟨i, ⟨h1', h2, h3⟩, h4⟩
        have hix : i ≠ x := by
          intro e
          rw [e] at h2
          exact hno h2
        refine ⟨i, ⟨by rw [hnb]; exact h1', ?_, ?_⟩, by rw [hv]; exact h4⟩
        · rw [hf, occ_clear_both _ _ _ hl]; exact Or.inr h2
        · rw [hk, Function.update_noteq hix]; exact h3
    · intro i hi
      obtain ⟨j, hj⟩ := (at_iff_of_holds d h1 h key
        (fun ov => holds_iff_of_content d h1 h hcont key ov)).mpr ⟨i, hi⟩
      exact habs j hj
    · rcases hr with ⟨_, hr⟩ | ⟨_, _, hr⟩
      · exact Or.inl hr
      · exact Or.inr hr

/-! ## Reachable tables are well formed -/

theorem wf_resize (d : Decl K) (h : alignhash_t K V) (w : WF d h) (m r : Nat)
    (h' : alignhash_t K V) (hr : alignhash_resize d h (2 ^ m) r = some (0, h')) : WF d h' := by
  by_cases hsz : h.size ≥ AH_SUP (2 ^ m)
  · rw [resize_reject d h _ r hsz] at hr
    simp at hr
  · obtain ⟨h'', hr', w', _⟩ := resize_spec d h w m r (by omega)
    rw [hr] at hr'
    simp only [Option.some.injEq, Prod.mk.injEq, true_and] at hr'
    rw [hr']
    exact w'

theorem reachable_wf (d : Decl K) (h : alignhash_t K V) (hr : Reachable d h) : WF d h := by
  induction hr with
  | init keys0 vals0 => exact wf_init d keys0 vals0
  | set h key ret r _ hs ih =>
    obtain ⟨r', hs', w'⟩ := wf_set d h ih key ret
    rw [hs] at hs'
    rw [Option.some.inj hs']
    exact w'
  | del h x _ hx ih => exact wf_del d h ih x hx
  | clear h _ ih => exact wf_clear d h ih
  | assign h x v _ _ ih => exact wf_assign d h ih x v
  | resize h m r h' _ hres ih => exact wf_resize d h ih m r h' hres

/-! ## The claims -/

theorem reach_tbl1 : Reachable declNat tbl1 :=
  Reachable.set fresh 1 0 (tbl1, 1, 1) (Reachable.init _ _) (by rfl)

theorem get_ne_end_iff (d : Decl K) (h : alignhash_t K V) (w : WF d h) (key : K) :
    (∃ y, alignhash_get d h key = some y ∧ y ≠ h.nbucket) ↔ ∃ i, At h i key := by
  rcases get_total d h w key with ⟨x, hx, hg⟩ | ⟨habs, hg⟩
  · constructor
    · exact fun _ => ⟨x, hx⟩
    · exact fun _ => ⟨x, hg, by have := hx.1; omega⟩
  · constructor
    · rintro ⟨y, hy, hne⟩
      rw [hg] at hy
      exact absurd (Option.some.inj hy).symm hne
    · rintro ⟨i, hi⟩
      exact absurd hi (habs i)

/-- C3: a call of `alignhash_resize` whose target bucket count cannot hold the current
size (`size >= floor(new_nbucket * 0.77 + 0.5)`) returns -1 and leaves every field of
the table exactly as it was. -/
theorem C3_resize_too_small_unchanged (d : Decl K) (h : alignhash_t K V)
    (new_nbucket new_order : Nat) (hsz : h.size ≥ AH_SUP new_nbucket) :
    alignhash_resize d h new_nbucket new_order = some (-1, h) :=
  resize_reject d h new_nbucket new_order hsz

theorem C3_witness :
    tbl1.size ≥ AH_SUP 1 ∧ alignhash_resize declNat tbl1 1 0 = some (-1, tbl1) :=
  ⟨by decide, C3_resize_too_small_unchanged declNat tbl1 1 0 (by decide)⟩

/-- C4: on every reachable table, `alignhash_set` of any key returns an iterator `x`
below the bucket count of the resulting table, at which the bucket is Occupied and
holds the key, and `alignhash_get` of the key in the resulting table returns `x`,
whatever outcome is reported. -/
theorem C4_insert_lands_key (d : Decl K) (h : alignhash_t K V) (hr : Reachable d h)
    (key : K) (ret : Nat) :
    ∃ h' x r, alignhash_set d h key ret = some (h', x, r) ∧ x < alignhash_nbucket h' ∧
      alignhash_exist h' x = true ∧ alignhash_key h' x = key ∧
      alignhash_get d h' key = some x := by
  obtain ⟨h', x, r, hs, w', hat, _⟩ := set_effect d h (reachable_wf d h hr) key ret
  exact ⟨h', x, r, hs, hat.1, by unfold alignhash_exist; simp [hat.2.1], hat.2.2,
    get_present d h' w' key x hat⟩

theorem C4_witness :
    Reachable declNat tbl1 ∧
    ∃ h' x r, alignhash_set declNat tbl1 5 0 = some (h', x, r) ∧ x < alignhash_nbucket h' ∧
      alignhash_exist h' x = true ∧ alignhash_key h' x = 5 ∧
      alignhash_get declNat h' 5 = some x :=
  ⟨reach_tbl1, C4_insert_lands_key declNat tbl1 reach_tbl1 5 0⟩

/-- C5: on every reachable table `alignhash_set` returns, and it reports `AH_INS_ERR`
exactly when the key was found by `alignhash_get` immediately before the call;
otherwise it reports `AH_INS_NEW` or `AH_INS_DEL`. -/
theorem C5_already_exists_iff_present (d : Decl K) (h : alignhash_t K V)
    (hr : Reachable d h) (key : K) (ret : Nat) :
    ∃ h' x r, alignhash_set d h key ret = some (h', x, r) ∧
      (r = AH_INS_ERR ↔ ∃ y, alignhash_get d h key = some y ∧ y ≠ alignhash_end h) ∧
      (r ≠ AH_INS_ERR → r = AH_INS_NEW ∨ r = AH_INS_DEL) := by
  have w := reachable_wf d h hr
  obtain ⟨h', x, r, hs, _, _, _, hc⟩ := set_effect d h w key ret
  refine ⟨h', x, r, hs, ?_, ?_⟩
  · unfold alignhash_end
    rw [get_ne_end_iff d h w key]
    rcases hc with ⟨hp, hre, _⟩ | ⟨habs, hre, _⟩
    · exact ⟨fun _ => hp, fun _ => hre⟩
    · constructor
      · intro he
        rcases hre with hre | hre <;> rw [hre] at he <;> exact absurd he (by decide)
      · rintro ⟨i, hi⟩
        exact absurd hi (habs i)
  · intro hne
    rcases hc with ⟨_, hre, _⟩ | ⟨_, hre, _⟩
    · exact absurd hre hne
    · exact hre

theorem C5_witness :
    Reachable declNat tbl1 ∧
    ∃ h' x r, alignhash_set declNat tbl1 1 0 = some (h', x, r) ∧
      (r = AH_INS_ERR ↔ ∃ y, alignhash_get declNat tbl1 1 = some y ∧ y ≠ alignhash_end tbl1) ∧
      (r ≠ AH_INS_ERR → r = AH_INS_NEW ∨ r = AH_INS_DEL) :=
  ⟨reach_tbl1, C5_already_exists_iff_present declNat tbl1 reach_tbl1 1 0⟩

/-- C8: on a reachable table, `alignhash_del` of an Occupied bucket `x` makes the bucket
Deleted, decrements `size` by exactly 1, leaves `nused`, `nbucket`, `sup`, `mask`,
`order`, the keys, the values and the state of every other bucket unchanged, makes
`alignhash_get` of the key of `x` return the sentinel, and leaves `alignhash_get` of every
other key unchanged; `alignhash_del` of the sentinel or of a bucket that is not Occupied
leaves the whole table unchanged. -/
theorem C8_delete_semantics (d : Decl K) (h : alignhash_t K V) (hr : Reachable d h) (x : Nat) :
    (x < h.nbucket → alignhash_exist h x = true →
      AH_ISDEL (alignhash_del h x).flags x ≠ 0 ∧ AH_ISEMPTY (alignhash_del h x).flags x = 0 ∧
      (alignhash_del h x).size + 1 = h.size ∧
      (alignhash_del h x).nused = h.nused ∧ (alignhash_del h x).nbucket = h.nbucket ∧
      (alignhash_del h x).sup = h.sup ∧ (alignhash_del h x).mask = h.mask ∧
      (alignhash_del h x).order = h.order ∧
      (alignhash_del h x).keys = h.keys ∧ (alignhash_del h x).vals = h.vals ∧
      (∀ j, j ≠ x → AH_ISEITHER (alignhash_del h x).flags j = AH_ISEITHER h.flags j) ∧
      alignhash_get d (alignhash_del h x) (alignhash_key h x)
        = some (alignhash_end (alignhash_del h x)) ∧
      (∀ k, k ≠ alignhash_key h x →
        alignhash_get d (alignhash_del h x) k = alignhash_get d h k)) ∧
    ((x = alignhash_end h ∨ alignhash_exist h x = false) → alignhash_del h x = h) := by
  have w := reachable_wf d h hr
  constructor
  · intro hx hex
    have ho : AH_ISEITHER h.flags x = 0 := by
      unfold alignhash_exist at hex
      exact of_decide_eq_true hex
    have hl : x / 16 < h.flags.length := by rw [w.flags_len]; exact nflags_bound _ _ hx
    have w' := wf_del d h w x (Nat.le_of_lt hx)
    have hoe := (iseither_zero_iff _ _).mp ho
    have hat' : ∀ i k, At (alignhash_del h x) i k ↔ i ≠ x ∧ At h i k := by
      intro i k
      rw [del_eq h x (by omega) ho]
      unfold At
      show (i < h.nbucket ∧ AH_ISEITHER (AH_SET_DEL h.flags x) i = 0 ∧ h.keys i = k) ↔ _
      rw [occ_set_del _ _ _ hl]
      tauto
    have hsz : 0 < h.size := by
      rw [w.size_eq]
      unfold occ_count
      exact Finset.card_pos.mpr ⟨x, Finset.mem_filter.mpr ⟨Finset.mem_range.mpr hx, ho⟩⟩
    have hg1 : alignhash_get d (alignhash_del h x) (alignhash_key h x)
        = some (alignhash_end (alignhash_del h x)) := by
      apply get_absent d _ w'
      intro i hi
      have := (hat' i _).mp hi
      exact this.1 (At.unique w this.2 ⟨hx, ho, rfl⟩)
    have hg2 : ∀ k, k ≠ alignhash_key h x →
        alignhash_get d (alignhash_del h x) k = alignhash_get d h k := by
      intro k hk
      rcases get_total d h w k with ⟨i, hi, hg⟩ | ⟨habs, hg⟩
      · have hix : i ≠ x := by
          intro e
          rw [e] at hi
          exact hk hi.2.2.symm
        rw [hg, get_present d _ w' k i ((hat' i k).mpr ⟨hix, hi⟩)]
      · rw [hg, get_absent d _ w' k (fun i hi => habs i ((hat' i k).mp hi).2)]
        rw [del_eq h x (by omega) ho]
    rw [del_eq h x (by omega) ho] at hg1 hg2 ⊢
    refine ⟨?_, ?_, ?_, rfl, rfl, rfl, rfl, rfl, rfl, rfl, ?_, hg1, hg2⟩
    · show AH_ISDEL (AH_SET_DEL h.flags x) x ≠ 0
      rw [isdel_set_del _ _ _ hl, if_pos rfl]
      decide
    · show AH_ISEMPTY (AH_SET_DEL h.flags x) x = 0
      rw [isempty_set_del]
      exact hoe.1
    · show h.size - 1 + 1 = h.size
      omega
    · intro j hj
      show AH_ISEITHER (AH_SET_DEL h.flags x) j = AH_ISEITHER h.flags j
      rw [iseither_eq, iseither_eq, isempty_set_del, isdel_set_del _ _ _ hl, if_neg hj]
  · intro hc
    apply del_noop
    rcases hc with hc | hc
    · exact Or.inl hc
    · right
      unfold alignhash_exist at hc
      exact of_decide_eq_false hc

theorem C8_witness :
    Reachable declNat tbl1 ∧ (1 : Nat) < tbl1.nbucket ∧ alignhash_exist tbl1 1 = true ∧
    (alignhash_del tbl1 1).size + 1 = tbl1.size ∧
    alignhash_get declNat (alignhash_del tbl1 1) (alignhash_key tbl1 1)
      = some (alignhash_end (alignhash_del tbl1 1)) :=
  ⟨reach_tbl1, by decide, by decide,
    ((C8_delete_semantics declNat tbl1 reach_tbl1 1).1 (by decide) (by decide)).2.2.1,
    ((C8_delete_semantics declNat tbl1 reach_tbl1 1).1 (by decide)
      (by decide)).2.2.2.2.2.2.2.2.2.2.2.1⟩

/-- C9: in every table reachable from `alignhash_init` by `alignhash_set`,
`alignhash_del`, `alignhash_clear`, value assignment and successful `alignhash_resize`
to a power-of-two bucket count, no two distinct Occupied buckets hold equal keys. -/
theorem C9_no_duplicate_keys (d : Decl K) (h : alignhash_t K V) (hr : Reachable d h)
    (i j : Nat) (hi : i < alignhash_nbucket h) (hj : j < alignhash_nbucket h)
    (hoi : alignhash_exist h i = true) (hoj : alignhash_exist h j = true)
    (hk : alignhash_key h i = alignhash_key h j) : i = j := by
  unfold alignhash_exist at hoi hoj
  exact (reachable_wf d h hr).nodup i j hi hj (of_decide_eq_true hoi) (of_decide_eq_true hoj) hk

theorem C9_witness :
    Reachable declNat tbl1 ∧ alignhash_exist tbl1 1 = true ∧ (1 : Nat) = 1 :=
  ⟨reach_tbl1, by decide,
    C9_no_duplicate_keys declNat tbl1 reach_tbl1 1 1 (by decide) (by decide) (by decide)
      (by decide) rfl⟩

theorem used_eq_occ_add_del (fl : List Nat) (n : Nat)
    (hno3 : ∀ i, i < n → AH_ISEMPTY fl i ≠ 0 → AH_ISDEL fl i = 0) :
    used_count fl n = occ_count fl n + del_count fl n := by
  unfold used_count occ_count del_count
  rw [← Finset.card_union_of_disjoint]
  · congr 1
    ext i
    simp only [Finset.mem_filter, Finset.mem_range, Finset.mem_union]
    constructor
    · rintro ⟨hi, he⟩
      by_cases hd : AH_ISDEL fl i = 0
      · exact Or.inl ⟨hi, (iseither_zero_iff _ _).mpr ⟨he, hd⟩⟩
      · exact Or.inr ⟨hi, hd⟩
    · rintro (⟨hi, ho⟩ | ⟨hi, hd⟩)
      · exact ⟨hi, ((iseither_zero_iff _ _).mp ho).1⟩
      · refine ⟨hi, ?_⟩
        by_contra he
        exact hd (hno3 i hi he)
  · rw [Finset.disjoint_filter]
    intro i _ ho hd
    exact hd ((iseither_zero_iff _ _).mp ho).2

/-- C10: in every reachable table `size` is the number of Occupied buckets below
`nbucket`, `nused` is the number of Occupied plus Deleted buckets, and
`size <= nused <= nbucket`. -/
theorem C10_counter_invariant (d : Decl K) (h : alignhash_t K V) (hr : Reachable d h) :
    h.size = occ_count h.flags h.nbucket ∧
    h.nused = occ_count h.flags h.nbucket + del_count h.flags h.nbucket ∧
    h.size ≤ h.nused ∧ h.nused ≤ h.nbucket := by
  have w := reachable_wf d h hr
  have hb := size_le_nbucket d h w
  exact ⟨w.size_eq, by rw [w.nused_eq]; exact used_eq_occ_add_del _ _ w.no3, hb.1, hb.2⟩

theorem C10_witness :
    Reachable declNat tbl1 ∧
    (tbl1.size = occ_count tbl1.flags tbl1.nbucket ∧
     tbl1.nused = occ_count tbl1.flags tbl1.nbucket + del_count tbl1.flags tbl1.nbucket ∧
     tbl1.size ≤ tbl1.nused ∧ tbl1.nused ≤ tbl1.nbucket) :=
  ⟨reach_tbl1, C10_counter_invariant declNat tbl1 reach_tbl1⟩

theorem reach_tbl12 : Reachable declNat tbl12 :=
  Reachable.set tbl1 2 0 (tbl12, 0, 1) reach_tbl1 (by rfl)

theorem get_some_at (d : Decl K) (h : alignhash_t K V) (w : WF d h) (k : K) (x : Nat)
    (hg : alignhash_get d h k = some x) (hne : x ≠ h.nbucket) : At h x k := by
  rcases get_total d h w k with ⟨i, hi, hg'⟩ | ⟨_, hg'⟩
  · rw [hg] at hg'
    rw [Option.some.inj hg']
    exact hi
  · rw [hg] at hg'
    exact absurd (Option.some.inj hg') hne

theorem get_end_absent (d : Decl K) (h : alignhash_t K V) (w : WF d h) (k : K)
    (hg : alignhash_get d h k = some h.nbucket) : ∀ i, ¬ At h i k := by
  intro i hi
  have := get_present d h w k i hi
  rw [hg] at this
  have := Option.some.inj this
  have := hi.1
  omega

/-- C2: on every reachable table of the map variant, `alignhash_resize` to a power-of-two
bucket count `2^m` (larger, equal or smaller than the current one, with any order, in
particular the matching one) below whose threshold the size lies returns 0; afterwards
every key found before is found at an index below `2^m` whose bucket is Occupied, holds
the key and the value it had before; every key not found before is still not found; and
`size` is unchanged. -/
theorem C2_resize_preserves_content (d : Decl K) (h : alignhash_t K V) (hr : Reachable d h)
    (hmap : d.ismap = true) (m new_order : Nat) (hsz : h.size < AH_SUP (2 ^ m)) :
    ∃ h', alignhash_resize d h (2 ^ m) new_order = some (0, h') ∧
      alignhash_size h' = alignhash_size h ∧ alignhash_nbucket h' = 2 ^ m ∧
      ∀ k,
        (∀ x, alignhash_get d h k = some x → x ≠ alignhash_end h →
          ∃ x', alignhash_get d h' k = some x' ∧ x' < 2 ^ m ∧
            alignhash_exist h' x' = true ∧ alignhash_key h' x' = k ∧
            alignhash_value h' x' = alignhash_value h x) ∧
        (alignhash_get d h k = some (alignhash_end h) →
          alignhash_get d h' k = some (alignhash_end h')) := by
  have w := reachable_wf d h hr
  obtain ⟨h', hres, w', hnb, _, _, _, hsize, _, _, hcont⟩ := resize_spec d h w m new_order hsz
  refine ⟨h', hres, hsize, hnb, fun k => ⟨fun x hg hne => ?_, fun hg => ?_⟩⟩
  · have hat := get_some_at d h w k x hg hne
    obtain ⟨x', hx', hv⟩ := (holds_iff_of_content d h' h hcont k _).mpr (holds_of_at d h x k hat)
    refine ⟨x', get_present d h' w' k x' hx', by rw [← hnb]; exact hx'.1, ?_, hx'.2.2, ?_⟩
    · unfold alignhash_exist; simp [hx'.2.1]
    · unfold ventry at hv
      rw [if_pos hmap, if_pos hmap] at hv
      exact Option.some.inj hv
  · have habs := get_end_absent d h w k hg
    apply get_absent d h' w' k
    intro i hi
    obtain ⟨j, hj, _⟩ := (holds_iff_of_content d h' h hcont k _).mp (holds_of_at d h' i k hi)
    exact habs j hj

theorem C2_witness :
    Reachable declNat tbl12 ∧ declNat.ismap = true ∧ tbl12.size < AH_SUP (2 ^ 2) ∧
    ∃ h', alignhash_resize declNat tbl12 (2 ^ 2) 1 = some (0, h') ∧
      alignhash_size h' = alignhash_size tbl12 ∧ alignhash_nbucket h' = 2 ^ 2 ∧
      ∀ k,
        (∀ x, alignhash_get declNat tbl12 k = some x → x ≠ alignhash_end tbl12 →
          ∃ x', alignhash_get declNat h' k = some x' ∧ x' < 2 ^ 2 ∧
            alignhash_exist h' x' = true ∧ alignhash_key h' x' = k ∧
            alignhash_value h' x' = alignhash_value tbl12 x) ∧
        (alignhash_get declNat tbl12 k = some (alignhash_end tbl12) →
          alignhash_get declNat h' k = some (alignhash_end h')) :=
  ⟨reach_tbl12, rfl, by decide,
    C2_resize_preserves_content declNat tbl12 reach_tbl12 rfl 2 1 (by decide)⟩

/-- What a call of `alignhash_set` leaves in place.  Without growth (`nused < sup` on
entry) the bucket count, mask, order, threshold and values are unchanged, every stored
key stays at its bucket, and the whole table is unchanged when the key was already
stored.  With growth the bucket count doubles (2 for a fresh table). -/
theorem set_frame (d : Decl K) (h : alignhash_t K V) (w : WF d h) (key : K) (ret : Nat)
    (h' : alignhash_t K V) (x r : Nat) (hs : alignhash_set d h key ret = some (h', x, r)) :
    (h.nused < h.sup ∧ h'.nbucket = h.nbucket ∧ h'.mask = h.mask ∧ h'.order = h.order ∧
      h'.sup = h.sup ∧ h'.vals = h.vals ∧ (∀ i k, At h i k → At h' i k) ∧
      ((∃ i, At h i key) → h' = h)) ∨
    (h.sup ≤ h.nused ∧ h'.nbucket = (if h.nbucket ≠ 0 then h.nbucket * 2 else 2) ∧
      h'.order = (if h.nbucket ≠ 0 then h.order + 1 else 0)) := by
  obtain ⟨h1, y, _, w1, _, _, _, hgd, _, hs', hy, hc⟩ := set_decomp d h w key ret
  rw [hs] at hs'
  have hst : set_store h1 key y = (h', x, r) := (Option.some.inj hs').symm
  have hfields : h'.nbucket = h1.nbucket ∧ h'.mask = h1.mask ∧ h'.order = h1.order ∧
      h'.sup = h1.sup ∧ h'.vals = h1.vals ∧ (∀ i k, At h1 i k → At h' i k) ∧
      ((∃ i, At h1 i key) → h' = h1) := by
    rcases hc with hc | ⟨habs, hno, _⟩
    · rw [set_store_present h1 key y hc.2.1] at hst
      have e : h' = h1 := (congrArg Prod.fst hst).symm
      rw [e]
      exact ⟨rfl, rfl, rfl, rfl, rfl, fun i k hi => hi, fun _ => rfl⟩
    · obtain ⟨_, hk, hf, hv, hnb, hm, hor, hsup, _, _, _⟩ := set_store_absent h1 key y hno
      have e : (set_store h1 key y).1 = h' := congrArg Prod.fst hst
      rw [e] at hk hf hv hnb hm hor hsup
      have hl : y / 16 < h1.flags.length := by rw [w1.flags_len]; exact nflags_bound _ _ hy
      refine ⟨hnb, hm, hor, hsup, hv, fun i k hi => ?_, fun hex => ?_⟩
      · have hiy : i ≠ y := by
          intro e'
          rw [e'] at hi
          exact hno hi.2.1
        refine ⟨by rw [hnb]; exact hi.1, ?_, by rw [hk, Function.update_noteq hiy]; exact hi.2.2⟩
        rw [hf, occ_clear_both _ _ _ hl]
        exact Or.inr hi.2.1
      · obtain ⟨i, hi⟩ := hex
        exact absurd hi (habs i)
  rcases hgd with ⟨hlt, e1⟩ | ⟨hge, hnb1, hor1, _⟩
  · left
    rw [e1] at hfields
    exact ⟨hlt, hfields⟩
  · right
    exact ⟨hge, by rw [hfields.1, hnb1], by rw [hfields.2.2.1, hor1]⟩

/-- C7 fails as stated: on the reachable table that holds keys 1 and 2 in its 2 buckets
(`nused = sup = 2`), `alignhash_set` of the stored key 1 reports `AH_INS_ERR` but has
grown the table to 4 buckets first. -/
theorem C7_counterexample :
    Reachable declNat tbl12 ∧
    alignhash_get declNat tbl12 1 = some 1 ∧ alignhash_end tbl12 = 2 ∧
    (alignhash_set declNat tbl12 1 0).map (fun r => (r.2.2, r.1.nbucket, r.1.mask, r.1.order,
      r.1.sup, r.1.flags)) = some (AH_INS_ERR, 4, 3, 1, 3, [2863311490]) ∧
    (tbl12.nbucket, tbl12.mask, tbl12.order, tbl12.sup, tbl12.flags)
      = (2, 1, 0, 2, [2863311520]) :=
  ⟨reach_tbl12, by decide, by decide, by decide, by decide⟩

/-- C7 (amended): on every reachable table, `alignhash_set` of a key that is already
stored reports `AH_INS_ERR`, returns the bucket that holds the key, and leaves `size`
and the stored keys with their values unchanged; when `nused < sup` on entry the whole
table state is unchanged, and otherwise the table has been grown first: the bucket
count is doubled and `nused` reset to `size`. -/
theorem C7_duplicate_insert_keeps_content (d : Decl K) (h : alignhash_t K V)
    (hr : Reachable d h) (key : K) (ret : Nat) (i : Nat) (hi : At h i key) :
    ∃ h' x, alignhash_set d h key ret = some (h', x, AH_INS_ERR) ∧
      At h' x key ∧ h'.size = h.size ∧
      (∀ k ov, Holds d h' k ov ↔ Holds d h k ov) ∧
      (h.nused < h.sup → h' = h) ∧
      (h.sup ≤ h.nused → h'.nbucket = h.nbucket * 2 ∧ h'.order = h.order + 1 ∧
        h'.nused = h.size) := by
  have w := reachable_wf d h hr
  have hnb0 : h.nbucket ≠ 0 := by have := hi.1; omega
  obtain ⟨h', x, r, hs, w', hat, hoth, hc⟩ := set_effect d h w key ret
  rcases hc with ⟨_, hre, hsize, hsame⟩ | ⟨habs, _, _⟩
  · rw [hre] at hs
    refine ⟨h', x, hs, hat, hsize, fun k ov => ?_, fun hlt => ?_, fun hge => ?_⟩
    · by_cases hk : k = key
      · rw [hk]; exact hsame ov
      · exact hoth k ov hk
    · rcases set_frame d h w key ret h' x _ hs with ⟨_, _, _, _, _, _, _, hsm⟩ | ⟨hge, _⟩
      · exact hsm ⟨i, hi⟩
      · omega
    · obtain ⟨h1, y, _, w1, _, _, hcont, hgd, _, hs', _, hc'⟩ := set_decomp d h w key ret
      rw [hs] at hs'
      have hex1 : ∃ j, At h1 j key :=
        (at_iff_of_holds d h1 h key (fun ov => holds_iff_of_content d h1 h hcont key ov)).mpr
          ⟨i, hi⟩
      rcases hc' with hc' | ⟨habs', _⟩
      · rw [set_store_present h1 key y hc'.2.1] at hs'
        have e : h' = h1 := congrArg Prod.fst (Option.some.inj hs')
        rcases hgd with ⟨hlt, _⟩ | ⟨_, hnb1, hor1, hnu1, _⟩
        · omega
        · rw [if_pos hnb0] at hnb1 hor1
          rw [e]
          exact ⟨hnb1, hor1, hnu1⟩
      · obtain ⟨j, hj⟩ := hex1
        exact absurd hj (habs' j)
  · exact absurd hi (habs i)

theorem C7_witness :
    Reachable declNat tbl12 ∧ At tbl12 1 1 ∧
    ∃ h' x, alignhash_set declNat tbl12 1 0 = some (h', x, AH_INS_ERR) ∧
      At h' x 1 ∧ h'.size = tbl12.size ∧
      (∀ k ov, Holds declNat h' k ov ↔ Holds declNat tbl12 k ov) ∧
      (tbl12.nused < tbl12.sup → h' = tbl12) ∧
      (tbl12.sup ≤ tbl12.nused → h'.nbucket = tbl12.nbucket * 2 ∧
        h'.order = tbl12.order + 1 ∧ h'.nused = tbl12.size) :=
  ⟨reach_tbl12, ⟨by decide, by decide, by decide⟩,
    C7_duplicate_insert_keeps_content declNat tbl12 reach_tbl12 1 0 1
      ⟨by decide, by decide, by decide⟩⟩

theorem at_del_iff (d : Decl K) (h : alignhash_t K V) (w : WF d h) (x : Nat)
    (hx : At h x (h.keys x)) (i : Nat) (k : K) :
    At (alignhash_del h x) i k ↔ i ≠ x ∧ At h i k := by
  have hl : x / 16 < h.flags.length := by rw [w.flags_len]; exact nflags_bound _ _ hx.1
  rw [del_eq h x (by have := hx.1; omega) hx.2.1]
  unfold At
  show (i < h.nbucket ∧ AH_ISEITHER (AH_SET_DEL h.flags x) i = 0 ∧ h.keys i = k) ↔ _
  rw [occ_set_del _ _ _ hl]
  tauto

theorem del_size (h : alignhash_t K V) (x : Nat) (hx : x ≠ h.nbucket)
    (ho : AH_ISEITHER h.flags x = 0) : (alignhash_del h x).size = h.size - 1 := by
  rw [del_eq h x hx ho]

theorem apply_op_insert (d : Decl K) (h : alignhash_t K V) (k : K) :
    apply_op d h (Op.insert k) = (alignhash_set d h k 0).map (fun r => r.1) := rfl

theorem apply_op_delete (d : Decl K) (h : alignhash_t K V) (k : K) :
    apply_op d h (Op.delete k) = (alignhash_get d h k).map (fun x => alignhash_del h x) := rfl

theorem ref_step_insert (s : Finset K) (k : K) : ref_step s (Op.insert k) = insert k s := rfl

theorem ref_step_delete (s : Finset K) (k : K) : ref_step s (Op.delete k) = s.erase k := rfl

/-- One operation keeps the table in step with the reference set. -/
theorem refine_step (d : Decl K) (h : alignhash_t K V) (w : WF d h) (s : Finset K)
    (hmem : ∀ k, (∃ i, At h i k) ↔ k ∈ s) (hcard : h.size = s.card) (op : Op K) :
    ∃ h', apply_op d h op = some h' ∧ WF d h' ∧
      (∀ k, (∃ i, At h' i k) ↔ k ∈ ref_step s op) ∧ h'.size = (ref_step s op).card := by
  cases op with
  | insert k0 =>
    obtain ⟨h', x, r, hs, w', hat, hoth, hc⟩ := set_effect d h w k0 0
    refine ⟨h', by rw [apply_op_insert, hs]; rfl, w', fun k => ?_, ?_⟩
    · rw [ref_step_insert]
      rw [Finset.mem_insert, ← hmem k]
      by_cases hk : k = k0
      · rw [hk]
        exact ⟨fun _ => Or.inl rfl, fun _ => ⟨x, hat⟩⟩
      · rw [at_iff_of_holds d h' h k (fun ov => hoth k ov hk)]
        exact ⟨fun hh => Or.inr hh, fun hh => hh.resolve_left hk⟩
    · rw [ref_step_insert]
      rcases hc with ⟨hp, _, hsize, _⟩ | ⟨habs, _, hsize⟩
      · rw [Finset.insert_eq_of_mem ((hmem k0).mp hp), hsize, hcard]
      · rw [Finset.card_insert_of_not_mem (fun hin => by
          obtain ⟨i, hi⟩ := (hmem k0).mpr hin
          exact habs i hi), hsize, hcard]
  | delete k0 =>
    rcases get_total d h w k0 with ⟨x, hx, hg⟩ | ⟨habs, hg⟩
    · have hxx : At h x (h.keys x) := ⟨hx.1, hx.2.1, rfl⟩
      refine ⟨alignhash_del h x, by rw [apply_op_delete, hg]; rfl,
        wf_del d h w x (Nat.le_of_lt hx.1), fun k => ?_, ?_⟩
      · rw [ref_step_delete]
        rw [Finset.mem_erase, ← hmem k]
        constructor
        · rintro ⟨i, hi⟩
          have := (at_del_iff d h w x hxx i k).mp hi
          refine ⟨fun hk => this.1 ?_, ⟨i, this.2⟩⟩
          rw [hk] at this
          exact At.unique w this.2 hx
        · rintro ⟨hk, i, hi⟩
          refine ⟨i, (at_del_iff d h w x hxx i k).mpr ⟨fun e => hk ?_, hi⟩⟩
          rw [e] at hi
          rw [← hi.2.2, hx.2.2]
      · rw [ref_step_delete]
        rw [Finset.card_erase_of_mem ((hmem k0).mp ⟨x, hx⟩),
          del_size h x (by have := hx.1; omega) hx.2.1, hcard]
    · have hnot : k0 ∉ s := fun hin => by
        obtain ⟨i, hi⟩ := (hmem k0).mpr hin
        exact habs i hi
      refine ⟨h, by rw [apply_op_delete, hg]; show some (alignhash_del h h.nbucket) = some h
                    rw [del_noop h _ (Or.inl rfl)], w, fun k => ?_, ?_⟩
      · rw [ref_step_delete]
        rw [Finset.erase_eq_of_not_mem hnot]
        exact hmem k
      · rw [ref_step_delete]
        rw [Finset.erase_eq_of_not_mem hnot]
        exact hcard

/-- A sequence of operations keeps the table in step with the reference set. -/
theorem refine_run (d : Decl K) (ops : List (Op K)) :
    ∀ (h : alignhash_t K V) (s : Finset K), WF d h →
      (∀ k, (∃ i, At h i k) ↔ k ∈ s) → h.size = s.card →
      ∃ h', run_ops d h ops = some h' ∧ WF d h' ∧
        (∀ k, (∃ i, At h' i k) ↔ k ∈ ops.foldl ref_step s) ∧
        h'.size = (ops.foldl ref_step s).card := by
  induction ops with
  | nil => exact fun h s w hmem hcard => ⟨h, rfl, w, hmem, hcard⟩
  | cons op ops ih =>
    intro h s w hmem hcard
    obtain ⟨h1, ha, w1, hmem1, hcard1⟩ := refine_step d h w s hmem hcard op
    obtain ⟨h', hrun, w', hmem', hcard'⟩ := ih h1 (ref_step s op) w1 hmem1 hcard1
    refine ⟨h', ?_, w', hmem', hcard'⟩
    show (apply_op d h op).bind (fun h' => run_ops d h' ops) = some h'
    rw [ha]
    exact hrun

/-- C1: every finite sequence of `insert k` (`alignhash_set`) and `delete k`
(`alignhash_del` of `alignhash_get`) operations on a freshly created table, for any hash
function and either probing policy, runs to completion; afterwards `alignhash_size`
equals the cardinality of the reference set, and for every key `alignhash_get` returns
an iterator that differs from the sentinel `alignhash_end` exactly when the key is in
the reference set. -/
theorem C1_refines_reference_set (d : Decl K) (keys0 : Nat → K) (vals0 : Nat → V)
    (ops : List (Op K)) :
    ∃ h, run_ops d (alignhash_init keys0 vals0) ops = some h ∧
      alignhash_size h = (ref_set ops).card ∧
      ∀ k, ∃ x, alignhash_get d h k = some x ∧ (x ≠ alignhash_end h ↔ k ∈ ref_set ops) := by
  obtain ⟨h, hrun, w, hmem, hcard⟩ := refine_run d ops (alignhash_init keys0 vals0) ∅
    (wf_init d keys0 vals0)
    (fun k => ⟨fun ⟨i, hi⟩ => absurd hi.1 (Nat.not_lt_zero _), fun hk => by simp at hk⟩)
    (by simp [alignhash_init])
  refine ⟨h, hrun, hcard, fun k => ?_⟩
  unfold ref_set alignhash_end
  rcases get_total d h w k with ⟨x, hx, hg⟩ | ⟨habs, hg⟩
  · refine ⟨x, hg, fun _ => (hmem k).mp ⟨x, hx⟩, fun _ => by have := hx.1; omega⟩
  · refine ⟨h.nbucket, hg, fun hne => absurd rfl hne, fun hin => ?_⟩
    obtain ⟨i, hi⟩ := (hmem k).mpr hin
    exact absurd hi (habs i)

theorem at_assign (h : alignhash_t K V) (x : Nat) (v : V) (i : Nat) (k : K) :
    At (alignhash_value_assign h x v) i k ↔ At h i k := Iff.rfl

/-- The effect of `put` on a well-formed table. -/
theorem put_spec (d : Decl K) (h : alignhash_t K V) (w : WF d h)
    (k : K) (v : V) :
    ∃ h1 x, put d h k v = some (h1, x) ∧ WF d h1 ∧ At h1 x k ∧ h1.vals x = v ∧
      (∀ k' ov, k' ≠ k → (Holds d h1 k' ov ↔ Holds d h k' ov)) ∧
      h.nbucket ≤ h1.nbucket ∧
      (h1.nbucket = h.nbucket → ∀ i k', At h i k' → At h1 i k') := by
  obtain ⟨h', x, r, hs, w', hat, hoth, _⟩ := set_effect d h w k 0
  refine ⟨alignhash_value_assign h' x v, x, by unfold put; rw [hs]; rfl,
    wf_assign d h' w' x v, hat, by unfold alignhash_value_assign; simp, ?_, ?_, ?_⟩
  · intro k' ov hk
    rw [← hoth k' ov hk]
    unfold Holds
    constructor
    · rintro ⟨i, hi, hv⟩
      refine ⟨i, hi, ?_⟩
      have hix : i ≠ x := fun e => hk (by rw [← hi.2.2, e]; exact hat.2.2)
      unfold ventry alignhash_value_assign at hv
      simp only [Function.update_noteq hix] at hv
      exact hv
    · rintro ⟨i, hi, hv⟩
      refine ⟨i, hi, ?_⟩
      have hix : i ≠ x := fun e => hk (by rw [← hi.2.2, e]; exact hat.2.2)
      unfold ventry alignhash_value_assign
      simp only [Function.update_noteq hix]
      exact hv
  · rcases set_frame d h w k 0 h' x r hs with ⟨_, hnb, _⟩ | ⟨_, hnb, _⟩
    · exact Nat.le_of_eq hnb.symm
    · show h.nbucket ≤ h'.nbucket
      rw [hnb]
      split <;> omega
  · intro hnb i k' hi
    rcases set_frame d h w k 0 h' x r hs with ⟨_, _, _, _, _, _, hkeep, _⟩ | ⟨_, hnb', _⟩
    · exact hkeep i k' hi
    · have hnb'' : h'.nbucket = h.nbucket := hnb
      rw [hnb'] at hnb''
      split at hnb'' <;> omega

theorem put_all_cons (d : Decl K) (h : alignhash_t K V) (kv : K × V) (l : List (K × V)) :
    put_all d h (kv :: l) = (put d h kv.1 kv.2).bind (fun r => put_all d r.1 l) := rfl

theorem put_all_append (d : Decl K) (l1 l2 : List (K × V)) :
    ∀ h : alignhash_t K V,
      put_all d h (l1 ++ l2) = (put_all d h l1).bind (fun h1 => put_all d h1 l2) := by
  induction l1 with
  | nil => intro h; rfl
  | cons kv l1 ih =>
    intro h
    rw [List.cons_append, put_all_cons, put_all_cons]
    cases hp : put d h kv.1 kv.2 with
    | none => rfl
    | some r => exact ih r.1

/-- A sequence of `put`s returns; keys it writes hold their last written value, keys it
does not write keep their entry; the bucket count never shrinks, and as long as it has
not changed every stored key is still at its bucket. -/
theorem put_all_spec (d : Decl K) (hmap : d.ismap = true) (l : List (K × V)) :
    ∀ h : alignhash_t K V, WF d h →
      ∃ h', put_all d h l = some h' ∧ WF d h' ∧
        (∀ k v, last_written l k = some v → Holds d h' k (some v)) ∧
        (∀ k, last_written l k = none → ∀ ov, Holds d h k ov → Holds d h' k ov) ∧
        h.nbucket ≤ h'.nbucket ∧
        (h'.nbucket = h.nbucket → ∀ i k, At h i k → At h' i k) := by
  induction l with
  | nil =>
    intro h w
    exact ⟨h, rfl, w, fun k v hl => by simp [last_written] at hl, fun k _ ov hh => hh,
      le_refl _, fun _ i k hi => hi⟩
  | cons kv l ih =>
    intro h w
    obtain ⟨h1, x, hp, w1, hat, hval, hoth, hle, hkeep⟩ := put_spec d h w kv.1 kv.2
    obtain ⟨h', hrun, w', hlast, hrest, hle', hkeep'⟩ := ih h1 w1
    have hnew : Holds d h1 kv.1 (some kv.2) :=
      ⟨x, hat, by unfold ventry; rw [if_pos hmap, hval]⟩
    refine ⟨h', by rw [put_all_cons, hp]; exact hrun, w', ?_, ?_, le_trans hle hle', ?_⟩
    · intro k v hl
      rw [last_written] at hl
      cases hlk : last_written l k with
      | some v' =>
        rw [hlk] at hl
        rw [← Option.some.inj hl]
        exact hlast k v' hlk
      | none =>
        rw [hlk] at hl
        by_cases hk : kv.1 = k
        · rw [if_pos hk] at hl
          rw [← Option.some.inj hl, ← hk]
          exact hrest kv.1 (by rw [hk]; exact hlk) _ hnew
        · rw [if_neg hk] at hl
          cases hl
    · intro k hl ov hh
      rw [last_written] at hl
      cases hlk : last_written l k with
      | some v' => rw [hlk] at hl; cases hl
      | none =>
        rw [hlk] at hl
        by_cases hk : kv.1 = k
        · rw [if_pos hk] at hl; cases hl
        · exact hrest k hlk ov ((hoth k ov (fun e => hk e.symm)).mpr hh)
    · intro hnb i k hi
      have h1nb : h1.nbucket = h.nbucket := by omega
      exact hkeep' (by omega) i k (hkeep h1nb i k hi)

/-- C6 fails as stated: after `put`s of keys 1, 2, 3 on a fresh table, the insertion of
key 2 had returned iterator 0, but `alignhash_get` of key 2 now returns 2 (the growth at
the third insertion rehashed the table); the value at the new position is the one
written, 20. -/
theorem C6_counterexample :
    (put declNat fresh 1 10).bind (fun r1 =>
      (put declNat r1.1 2 20).bind (fun r2 =>
        (put declNat r2.1 3 30).bind (fun r3 =>
          (alignhash_get declNat r3.1 2).map (fun g =>
            (r2.2, g, alignhash_value r3.1 g, r2.1.nbucket, r3.1.nbucket)))))
      = some (0, 2, 20, 2, 4) := by
  decide

/-- C6 (amended): for the map variant, every sequence of inserts, each followed by
writing a value through the returned iterator, on a freshly created table returns, and
afterwards `alignhash_get` of every inserted key returns an iterator below the bucket
count whose bucket is Occupied, holds the key and holds the value last written for it.
The iterator is the one its insertion returned whenever the bucket count at the end is
still the one right after that insertion (no growth in between). -/
theorem C6_round_trip (d : Decl K) (hmap : d.ismap = true) (keys0 : Nat → K)
    (vals0 : Nat → V) (l : List (K × V)) :
    ∃ h, put_all d (alignhash_init keys0 vals0) l = some h ∧
      (∀ k v, last_written l k = some v →
        ∃ x, alignhash_get d h k = some x ∧ x < alignhash_nbucket h ∧
          alignhash_exist h x = true ∧ alignhash_key h x = k ∧ alignhash_value h x = v) ∧
      (∀ l1 k v l2 hA xi, l = l1 ++ (k, v) :: l2 →
        (put_all d (alignhash_init keys0 vals0) l1).bind (fun h1 => put d h1 k v)
          = some (hA, xi) →
        alignhash_nbucket h = alignhash_nbucket hA → alignhash_get d h k = some xi) := by
  obtain ⟨h, hrun, w, hlast, _, _, _⟩ := put_all_spec d hmap l (alignhash_init keys0 vals0)
    (wf_init d keys0 vals0)
  refine ⟨h, hrun, fun k v hl => ?_, fun l1 k v l2 hA xi hl hA' hnb => ?_⟩
  · obtain ⟨x, hx, hv⟩ := hlast k v hl
    refine ⟨x, get_present d h w k x hx, hx.1, by unfold alignhash_exist; simp [hx.2.1],
      hx.2.2, ?_⟩
    unfold ventry at hv
    rw [if_pos hmap] at hv
    exact Option.some.inj hv
  · obtain ⟨h1, hrun1, w1, _⟩ := put_all_spec d hmap l1 (alignhash_init keys0 vals0)
      (wf_init d keys0 vals0)
    rw [hrun1] at hA'
    have hA'' : put d h1 k v = some (hA, xi) := hA'
    obtain ⟨hA2, x2, hp, wA, hat, _⟩ := put_spec d h1 w1 k v
    rw [hA''] at hp
    have e1 : hA = hA2 := congrArg Prod.fst (Option.some.inj hp)
    have e2 : xi = x2 := congrArg Prod.snd (Option.some.inj hp)
    rw [← e1] at wA hat
    rw [← e2] at hat
    obtain ⟨h2, hrun2, _, _, _, _, hkeep⟩ := put_all_spec d hmap l2 hA wA
    have htot : put_all d (alignhash_init keys0 vals0) l = some h2 := by
      rw [hl, put_all_append, hrun1]
      show put_all d h1 ((k, v) :: l2) = some h2
      rw [put_all_cons, hA'']
      exact hrun2
    rw [hrun] at htot
    have e3 : h = h2 := Option.some.inj htot
    rw [← e3] at hkeep
    exact get_present d h w k xi (hkeep hnb xi k hat)

theorem C6_witness :
    declNat.ismap = true ∧
    ∃ h, put_all declNat (alignhash_init (fun _ => 0) (fun _ => 0)) [(1, 10), (2, 20), (3, 30)]
        = some h ∧
      (∀ k v, last_written [(1, 10), (2, 20), (3, 30)] k = some v →
        ∃ x, alignhash_get declNat h k = some x ∧ x < alignhash_nbucket h ∧
          alignhash_exist h x = true ∧ alignhash_key h x = k ∧ alignhash_value h x = v) ∧
      (∀ l1 k v l2 hA xi, [(1, 10), (2, 20), (3, 30)] = l1 ++ (k, v) :: l2 →
        (put_all declNat (alignhash_init (fun _ => 0) (fun _ => 0)) l1).bind
            (fun h1 => put declNat h1 k v) = some (hA, xi) →
        alignhash_nbucket h = alignhash_nbucket hA → alignhash_get declNat h k = some xi) :=
  ⟨rfl, C6_round_trip declNat rfl (fun _ => 0) (fun _ => 0) [(1, 10), (2, 20), (3, 30)]⟩

/-! ## Concrete scenario, growth at the threshold -/

/-- Tables produced by a sequence of operations are reachable. -/
theorem reachable_run_ops (d : Decl K) (ops : List (Op K)) :
    ∀ (h h' : alignhash_t K V), Reachable d h → run_ops d h ops = some h' → Reachable d h' := by
  induction ops with
  | nil =>
    intro h h' hr hrun
    have : h = h' := Option.some.inj hrun
    rw [← this]; exact hr
  | cons op ops ih =>
    intro h h' hr hrun
    have hrun' : (apply_op d h op).bind (fun h1 => run_ops d h1 ops) = some h' := hrun
    cases hop : apply_op d h op with
    | none => rw [hop] at hrun'; cases hrun'
    | some h1 =>
      rw [hop] at hrun'
      refine ih h1 h' ?_ hrun'
      cases op with
      | insert k =>
        rw [apply_op_insert] at hop
        cases hs : alignhash_set d h k 0 with
        | none => rw [hs] at hop; cases hop
        | some r =>
          rw [hs] at hop
          have e : r.1 = h1 := Option.some.inj hop
          rw [← e]
          exact Reachable.set h k 0 r hr hs
      | delete k =>
        rw [apply_op_delete] at hop
        have w := reachable_wf d h hr
        rcases get_total d h w k with ⟨x, hx, hg⟩ | ⟨_, hg⟩
        · rw [hg] at hop
          have e : alignhash_del h x = h1 := Option.some.inj hop
          rw [← e]
          exact Reachable.del h x hr (Nat.le_of_lt hx.1)
        · rw [hg] at hop
          have e : alignhash_del h h.nbucket = h1 := Option.some.inj hop
          rw [← e]
          exact Reachable.del h h.nbucket hr (le_refl _)

/-- C11 fails as stated: in the scenario (linear probing, identity hash; insert 1, 2, 3,
delete key 2) the table has 4 buckets with `nused = sup = 3` and bucket 2 Deleted, so the
following `alignhash_set` of key 2 grows the table to 8 buckets first and reports
`AH_INS_NEW`, not `AH_INS_DEL`: the tombstone is dropped by the rehash, not reused. -/
theorem C11_counterexample :
    scen123del.bind (fun h =>
      (alignhash_set declNat h 2 0).map (fun r =>
        [h.nbucket, AH_ISDEL h.flags 2, h.nused, h.sup, r.2.2, r.2.1, r.1.nbucket]))
      = some [4, 1, 3, 3, AH_INS_NEW, 2, 8] ∧ AH_INS_NEW ≠ AH_INS_DEL := by
  decide

/-- C11 (amended): with linear probing and the identity hash, starting from a fresh
table: after inserting key 1 the table has 2 buckets and after inserting 1, 2, 3 it has
4 (growth took place); `alignhash_get` of 2 then returns the valid index 2; after
`alignhash_del` of that iterator `alignhash_get` of 2 returns the sentinel 4, `size` is
2 and `nused` is still 3; the following `alignhash_set` of 2 succeeds with outcome
`AH_INS_NEW` at index 2 of the table grown to 8 buckets (bucket 2 Occupied and holding
2), and leaves `nused` at 3, its value before the delete. -/
theorem C11_scenario :
    (run_ops declNat fresh [Op.insert 1]).map (fun h => h.nbucket) = some 2 ∧
    scen123.map (fun h => [h.nbucket, h.size, h.nused]) = some [4, 3, 3] ∧
    scen123.bind (fun h => alignhash_get declNat h 2) = some 2 ∧
    scen123del.bind (fun h => alignhash_get declNat h 2) = some 4 ∧
    scen123del.map (fun h => [alignhash_end h, alignhash_size h, h.nused, AH_ISDEL h.flags 2])
      = some [4, 2, 3, 1] ∧
    scen123del.bind (fun h =>
        (alignhash_set declNat h 2 0).map (fun r =>
          [r.2.2, r.2.1, r.1.nbucket, r.1.nused, r.1.size, AH_ISEITHER r.1.flags 2,
            alignhash_key r.1 2]))
      = some [AH_INS_NEW, 2, 8, 3, 3, 0, 2] := by
  decide

/-- C12 fails as stated: the reachable table holding key 1 has 2 buckets, `sup = 2` and
`nused = 1 = sup - 1`; `alignhash_set` of the absent key 2 leaves the bucket count at
2. -/
theorem C12_counterexample :
    Reachable declNat tbl1 ∧ tbl1.nbucket = 2 ∧ tbl1.nused = tbl1.sup - 1 ∧
    alignhash_get declNat tbl1 2 = some (alignhash_end tbl1) ∧
    (alignhash_set declNat tbl1 2 0).map (fun r => (r.1.nbucket, r.2.2))
      = some (2, AH_INS_NEW) :=
  ⟨reach_tbl1, by decide, by decide, by decide, by decide⟩

/-- C12 (amended): on every reachable table with `nbucket > 0`, `alignhash_set` of a key
that is not stored doubles `nbucket` during the call when `nused >= sup` on entry (the
table is filled to its threshold) and leaves `nbucket` unchanged when `nused < sup` (in
particular at `nused = sup - 1`); in both cases every key found before the call is
still found afterwards. -/
theorem C12_growth_at_threshold (d : Decl K) (h : alignhash_t K V) (hr : Reachable d h)
    (hpos : 0 < alignhash_nbucket h) (key : K) (ret : Nat)
    (habs : alignhash_get d h key = some (alignhash_end h)) :
    ∃ h' x r, alignhash_set d h key ret = some (h', x, r) ∧
      (h.sup ≤ h.nused → alignhash_nbucket h' = 2 * alignhash_nbucket h) ∧
      (h.nused < h.sup → alignhash_nbucket h' = alignhash_nbucket h) ∧
      ∀ k y, alignhash_get d h k = some y → y ≠ alignhash_end h →
        ∃ y', alignhash_get d h' k = some y' ∧ y' ≠ alignhash_end h' := by
  have w := reachable_wf d h hr
  have hpos' : 0 < h.nbucket := hpos
  obtain ⟨h', x, r, hs, w', _, hoth, _⟩ := set_effect d h w key ret
  refine ⟨h', x, r, hs, fun hge => ?_, fun hlt => ?_, fun k y hg hne => ?_⟩
  · rcases set_frame d h w key ret h' x r hs with ⟨hlt, _⟩ | ⟨_, hnb, _⟩
    · omega
    · rw [if_pos (by omega)] at hnb
      show h'.nbucket = 2 * h.nbucket
      omega
  · rcases set_frame d h w key ret h' x r hs with ⟨_, hnb, _⟩ | ⟨hge, _⟩
    · exact hnb
    · omega
  · have hat := get_some_at d h w k y hg hne
    have hk : k ≠ key := by
      intro e
      rw [e] at hat
      exact get_end_absent d h w key habs y hat
    obtain ⟨y', hy', _⟩ := (hoth k _ hk).mpr (holds_of_at d h y k hat)
    exact ⟨y', get_present d h' w' k y' hy', by
      have := hy'.1
      unfold alignhash_end
      omega⟩

theorem C12_witness :
    Reachable declNat tbl12 ∧ 0 < alignhash_nbucket tbl12 ∧
    alignhash_get declNat tbl12 3 = some (alignhash_end tbl12) ∧
    ∃ h' x r, alignhash_set declNat tbl12 3 0 = some (h', x, r) ∧
      (tbl12.sup ≤ tbl12.nused → alignhash_nbucket h' = 2 * alignhash_nbucket tbl12) ∧
      (tbl12.nused < tbl12.sup → alignhash_nbucket h' = alignhash_nbucket tbl12) ∧
      ∀ k y, alignhash_get declNat tbl12 k = some y → y ≠ alignhash_end tbl12 →
        ∃ y', alignhash_get declNat h' k = some y' ∧ y' ≠ alignhash_end h' :=
  ⟨reach_tbl12, by decide, by decide,
    C12_growth_at_threshold declNat tbl12 reach_tbl12 (by decide) 3 0 (by decide)⟩

/-! ## Tombstone reuse -/

theorem reach_tblTomb : Reachable declNat tblTomb := by
  obtain ⟨h', hrun, _⟩ := refine_run declNat
    [Op.insert 8, Op.insert 16, Op.insert 24, Op.insert 32, Op.delete 8, Op.delete 16]
    fresh ∅ (wf_init declNat _ _)
    (fun k => ⟨fun ⟨i, hi⟩ => absurd hi.1 (Nat.not_lt_zero _), fun hk => by simp at hk⟩)
    (by simp [fresh, alignhash_init])
  have e : tblTomb = h' := by
    unfold tblTomb scenTomb
    rw [hrun]
    rfl
  rw [e]
  exact reachable_run_ops declNat _ fresh h' (Reachable.init _ _) hrun

/-- C13 fails as stated: in the reachable 8-bucket table `tblTomb` (`nused = 4 < sup = 6`)
the probe sequence of the absent key 40 visits buckets 0, 1 (both Deleted), 2, 3 (both
Occupied) and 4 (Empty); `alignhash_set` of 40 reports `AH_INS_DEL` at bucket 1, the
last Deleted bucket visited, not at bucket 0, the earliest. -/
theorem C13_counterexample :
    scenTomb.map (fun h =>
        [h.nbucket, h.nused, h.sup, AH_ISDEL h.flags 0, AH_ISDEL h.flags 1,
          AH_ISEITHER h.flags 2, AH_ISEITHER h.flags 3, AH_ISEMPTY h.flags 4,
          path declNat h.nbucket h.order h.mask 40 0, path declNat h.nbucket h.order h.mask 40 1])
      = some [8, 4, 6, 1, 1, 0, 0, 2, 0, 1] ∧
    scenTomb.bind (fun h => alignhash_get declNat h 40) = some 8 ∧
    scenTomb.bind (fun h =>
        (alignhash_set declNat h 40 0).map (fun r => [r.2.1, r.2.2, r.1.nbucket]))
      = some [1, AH_INS_DEL, 8] := by
  decide

/-- The first Empty bucket of a probe path is unique. -/
theorem first_empty_unique (fl : List Nat) (p : Nat → Nat) (t1 t2 : Nat)
    (h1 : AH_ISEMPTY fl (p t1) ≠ 0) (m1 : ∀ u, u < t1 → AH_ISEMPTY fl (p u) = 0)
    (h2 : AH_ISEMPTY fl (p t2) ≠ 0) (m2 : ∀ u, u < t2 → AH_ISEMPTY fl (p u) = 0) :
    t1 = t2 := by
  rcases Nat.lt_trichotomy t1 t2 with h | h | h
  · exact absurd (m2 t1 h) h1
  · exact h
  · exact absurd (m1 t2 h) h2

/-- C13 (amended): on every reachable table, for a key that is not stored and an insert
without growth (`nused < sup`), if the probe sequence of the key meets Deleted buckets
before its first Empty bucket (position `te`), `alignhash_set` places the key in the
last Deleted bucket visited before `te` (position `u`: Deleted, and no Deleted bucket
between `u` and `te`) and reports `AH_INS_DEL`. -/
theorem C13_last_tombstone_reused (d : Decl K) (h : alignhash_t K V) (hr : Reachable d h)
    (key : K) (ret : Nat) (habs : alignhash_get d h key = some (alignhash_end h))
    (hng : h.nused < h.sup) (te u : Nat)
    (hemp : AH_ISEMPTY h.flags (path d h.nbucket h.order h.mask key te) ≠ 0)
    (hmin : ∀ t, t < te → AH_ISEMPTY h.flags (path d h.nbucket h.order h.mask key t) = 0)
    (hu : u < te) (hdel : AH_ISDEL h.flags (path d h.nbucket h.order h.mask key u) ≠ 0)
    (hlast : ∀ v, u < v → v < te →
      AH_ISDEL h.flags (path d h.nbucket h.order h.mask key v) = 0) :
    ∃ h', alignhash_set d h key ret
        = some (h', path d h.nbucket h.order h.mask key u, AH_INS_DEL) ∧
      alignhash_nbucket h' = alignhash_nbucket h ∧
      alignhash_exist h' (path d h.nbucket h.order h.mask key u) = true ∧
      alignhash_key h' (path d h.nbucket h.order h.mask key u) = key := by
  have w := reachable_wf d h hr
  have habs' := get_end_absent d h w key habs
  obtain ⟨h1, x, _, _, _, _, _, hgd, hf, hs, hx, _⟩ := set_decomp d h w key ret
  have e1 : h1 = h := by
    rcases hgd with ⟨_, e⟩ | ⟨hge, _⟩
    · exact e
    · omega
  rw [e1] at hf hs hx
  have hfree : h.nused < h.nbucket := by
    have := sup_le h.nbucket
    have := w.sup_eq
    omega
  obtain ⟨y, te', hf', _, hemp', hmin', hy⟩ := set_find_absent d h w key habs' hfree
  have ete : te' = te := first_empty_unique h.flags _ te' te hemp' hmin' hemp hmin
  rw [ete] at hy
  rw [hf] at hf'
  have exy : x = y := Option.some.inj hf'
  have hyu : y = path d h.nbucket h.order h.mask key u := by
    rcases hy with ⟨_, hnd⟩ | ⟨u', hu', hud', hy', hlast'⟩
    · exact absurd (hnd u hu) hdel
    · rcases Nat.lt_trichotomy u' u with hlt | heq | hgt
      · exact absurd (hlast' u hlt hu) hdel
      · rw [hy', heq]
      · exact absurd (hlast u' hgt hu') hud'
  rw [exy, hyu] at hs hx
  have hst := set_store_del h key _ (hmin u hu) hdel
  rw [hst] at hs
  have hl : path d h.nbucket h.order h.mask key u / 16 < h.flags.length := by
    rw [w.flags_len]; exact nflags_bound _ _ hx
  refine ⟨_, hs, rfl, ?_, ?_⟩
  · unfold alignhash_exist
    show decide (AH_ISEITHER (AH_CLEAR_BOTH h.flags _) _ = 0) = true
    rw [decide_eq_true_iff, occ_clear_both _ _ _ hl]
    exact Or.inl rfl
  · show Function.update h.keys _ key _ = key
    rw [Function.update_same]

theorem C13_witness :
    Reachable declNat tblTomb ∧ tblTomb.nused < tblTomb.sup ∧
    alignhash_get declNat tblTomb 40 = some (alignhash_end tblTomb) ∧
    ∃ h', alignhash_set declNat tblTomb 40 0
        = some (h', path declNat tblTomb.nbucket tblTomb.order tblTomb.mask 40 1, AH_INS_DEL) ∧
      alignhash_nbucket h' = alignhash_nbucket tblTomb ∧
      alignhash_exist h' (path declNat tblTomb.nbucket tblTomb.order tblTomb.mask 40 1) = true ∧
      alignhash_key h' (path declNat tblTomb.nbucket tblTomb.order tblTomb.mask 40 1) = 40 :=
  ⟨reach_tblTomb, by decide, by decide,
    C13_last_tombstone_reused declNat tblTomb reach_tblTomb 40 0 (by decide) (by decide) 4 1
      (by decide) (by decide) (by decide) (by decide)
      (fun v h1 h2 => by interval_cases v <;> decide)⟩

/-- C14: on every reachable table, if `alignhash_set` reports `AH_INS_DEL` with iterator
`x`, then bucket `x` was Deleted immediately before the call, `nbucket` is unchanged,
`size` has increased by exactly 1 and `nused` is what it was before the call. -/
theorem C14_tombstone_reuse_accounting (d : Decl K) (h : alignhash_t K V)
    (hr : Reachable d h) (key : K) (ret : Nat) (h' : alignhash_t K V) (x : Nat)
    (hs : alignhash_set d h key ret = some (h', x, AH_INS_DEL)) :
    x < alignhash_nbucket h ∧ AH_ISDEL h.flags x ≠ 0 ∧ AH_ISEMPTY h.flags x = 0 ∧
    alignhash_nbucket h' = alignhash_nbucket h ∧
    alignhash_size h' = alignhash_size h + 1 ∧ h'.nused = h.nused := by
  have w := reachable_wf d h hr
  obtain ⟨h1, y, _, _, _, _, _, hgd, _, hs', hy, hc⟩ := set_decomp d h w key ret
  rw [hs] at hs'
  have hst : set_store h1 key y = (h', x, AH_INS_DEL) := (Option.some.inj hs').symm
  rcases hc with hc | ⟨_, hno, _⟩
  · rw [set_store_present h1 key y hc.2.1] at hst
    have : AH_INS_ERR = AH_INS_DEL := congrArg (fun p => p.2.2) hst
    exact absurd this (by decide)
  · obtain ⟨hx', _, _, _, hnb, _, _, _, hsz, hnu, hr'⟩ := set_store_absent h1 key y hno
    rw [hst] at hx' hnb hsz hnu hr'
    have hx'' : x = y := hx'
    rcases hr' with ⟨_, hre⟩ | ⟨he0, hd, _⟩
    · have : AH_INS_DEL = AH_INS_NEW := hre
      exact absurd this (by decide)
    · have e1 : h1 = h := by
        rcases hgd with ⟨_, e⟩ | ⟨_, _, _, _, hnd⟩
        · exact e
        · exact absurd (hnd y) hd
      rw [e1] at hy he0 hd hnb hsz hnu
      rw [if_neg (by rw [he0]; simp), Nat.add_zero] at hnu
      rw [hx'']
      exact ⟨hy, hd, he0, hnb, hsz, hnu⟩

theorem C14_witness :
    Reachable declNat tblTomb ∧
    alignhash_set declNat tblTomb 40 0
      = some ((set_store tblTomb 40 1).1, 1, AH_INS_DEL) ∧
    (1 < alignhash_nbucket tblTomb ∧ AH_ISDEL tblTomb.flags 1 ≠ 0 ∧
      AH_ISEMPTY tblTomb.flags 1 = 0 ∧
      alignhash_nbucket (set_store tblTomb 40 1).1 = alignhash_nbucket tblTomb ∧
      alignhash_size (set_store tblTomb 40 1).1 = alignhash_size tblTomb + 1 ∧
      (set_store tblTomb 40 1).1.nused = tblTomb.nused) :=
  ⟨reach_tblTomb, by rfl,
    C14_tombstone_reuse_accounting declNat tblTomb reach_tblTomb 40 0 _ 1 (by rfl)⟩

/-! ## Coverage of the probe sequence, the cycle guard of lookup -/

/-- C15: for every order `r`, with `n = 2^(r+1)` buckets and `mask = n - 1`, and every
hash value `k`, the probe step (tiered: `((k >> r) | 1) & mask`; linear: 1) is odd and
satisfies `1 <= s < n`; the probe sequence from `i0 = k & mask` with conditional
subtraction stays below `n`, takes pairwise distinct values at `t = 0 .. n-1`, visits
every bucket, and is back at `i0` at `t = n`. -/
theorem C15_probe_covers_table (tier : Bool) (r k : Nat) :
    AH_PROBE_STEP tier k r (2 ^ (r + 1) - 1) % 2 = 1 ∧
    1 ≤ AH_PROBE_STEP tier k r (2 ^ (r + 1) - 1) ∧
    AH_PROBE_STEP tier k r (2 ^ (r + 1) - 1) < 2 ^ (r + 1) ∧
    (∀ t, probe_at (2 ^ (r + 1)) (AH_PROBE_STEP tier k r (2 ^ (r + 1) - 1))
        (k &&& (2 ^ (r + 1) - 1)) t < 2 ^ (r + 1)) ∧
    (∀ t u, t < 2 ^ (r + 1) → u < 2 ^ (r + 1) →
      probe_at (2 ^ (r + 1)) (AH_PROBE_STEP tier k r (2 ^ (r + 1) - 1))
          (k &&& (2 ^ (r + 1) - 1)) t
        = probe_at (2 ^ (r + 1)) (AH_PROBE_STEP tier k r (2 ^ (r + 1) - 1))
          (k &&& (2 ^ (r + 1) - 1)) u → t = u) ∧
    (∀ x, x < 2 ^ (r + 1) → ∃ t, t < 2 ^ (r + 1) ∧
      probe_at (2 ^ (r + 1)) (AH_PROBE_STEP tier k r (2 ^ (r + 1) - 1))
        (k &&& (2 ^ (r + 1) - 1)) t = x) ∧
    probe_at (2 ^ (r + 1)) (AH_PROBE_STEP tier k r (2 ^ (r + 1) - 1))
      (k &&& (2 ^ (r + 1) - 1)) (2 ^ (r + 1)) = k &&& (2 ^ (r + 1) - 1) := by
  have hodd : AH_PROBE_STEP tier k r (2 ^ (r + 1) - 1) % 2 = 1 := by
    unfold AH_PROBE_STEP
    split
    · rw [Nat.and_pow_two_sub_one_eq_mod,
        Nat.mod_mod_of_dvd _ (dvd_pow_self 2 (Nat.succ_ne_zero r))]
      exact or_one_odd _
    · rfl
  have hlt : AH_PROBE_STEP tier k r (2 ^ (r + 1) - 1) < 2 ^ (r + 1) := by
    unfold AH_PROBE_STEP
    split
    · exact and_mask_lt _ _
    · have : 2 ^ 1 ≤ 2 ^ (r + 1) := Nat.pow_le_pow_right (by omega) (by omega)
      omega
  have hi := and_mask_lt k (r + 1)
  have hle := step_le tier k r (r + 1)
  have hco := step_coprime tier k r (r + 1)
  exact ⟨hodd, by omega, hlt, probe_at_lt _ _ _ hi hle,
    fun t u ht hu e => probe_at_inj _ _ _ hi hle hco t u ht hu e,
    fun x hx => probe_at_surj _ _ _ hi hle hco x hx,
    probe_at_period _ _ _ hi hle⟩

theorem get_loop_guard_stop (h : alignhash_t K V) (key : K) (step last : Nat) (p : Nat → Nat)
    (hp : ∀ t, p (t + 1) = probe_next h.nbucket step (p t)) :
    ∀ (n s fuel : Nat), n < fuel →
      (∀ u, s ≤ u → u < s + n →
        AH_ISEMPTY h.flags (p u) = 0 ∧
        (AH_ISDEL h.flags (p u) ≠ 0 ∨
          h.keys (p u) ≠ key)) →
      ¬ (AH_ISEMPTY h.flags (p (s + n)) = 0 ∧
        (AH_ISDEL h.flags (p (s + n)) ≠ 0 ∨
          h.keys (p (s + n)) ≠ key)) →
      (∀ u, s < u → u ≤ s + n → p u ≠ last) →
      get_loop_guard h key step last fuel (p s) = some false := by
  intro n
  induction n with
  | zero =>
    intro s fuel hf _ hstop _
    obtain ⟨f, rfl⟩ : ∃ f, fuel = f + 1 := ⟨fuel - 1, by omega⟩
    rw [Nat.add_zero] at hstop
    rw [get_loop_guard, if_neg hstop]
  | succ n ih =>
    intro s fuel hf hcont hstop hlast
    obtain ⟨f, rfl⟩ : ∃ f, fuel = f + 1 := ⟨fuel - 1, by omega⟩
    rw [get_loop_guard, if_pos (hcont s (le_refl _) (by omega)), ← hp s,
      if_neg (hlast (s + 1) (by omega) (by omega))]
    have e : s + (n + 1) = (s + 1) + n := by omega
    rw [e] at hstop
    exact ih (s + 1) f (by omega) (fun u h1 h2 => hcont u (by omega) (by omega)) hstop
      (fun u h1 h2 => hlast u (by omega) (by omega))

theorem get_guard_unfold (d : Decl K) (h : alignhash_t K V) (key : K) (hp : 0 < h.nbucket) :
    get_guard d h key
      = get_loop_guard h key (AH_PROBE_STEP d.tier (hkey d key) h.order h.mask)
          (hkey d key &&& h.mask) h.nbucket (path d h.nbucket h.order h.mask key 0) := by
  unfold get_guard
  rw [if_pos (by omega)]
  rfl

/-- Lookup of a stored key does not end at the cycle guard. -/
theorem get_guard_present (d : Decl K) (h : alignhash_t K V) (w : WF d h) (key : K) (x : Nat)
    (hx : At h x key) : get_guard d h key = some false := by
  have hp : 0 < h.nbucket := by have := hx.1; omega
  have g := w.geo hp
  obtain ⟨t, ht, hpt, hne⟩ := w.path_ok x hx.1 hx.2.1
  rw [hx.2.2] at hpt hne
  rw [get_guard_unfold d h key hp]
  exact get_loop_guard_stop h key (AH_PROBE_STEP d.tier (hkey d key) h.order h.mask)
    (hkey d key &&& h.mask) (path d h.nbucket h.order h.mask key)
    (path_succ d _ _ _ key) t 0 h.nbucket ht
    (fun u _ hu => cont_before d h w key x t hx ht hpt hne u (by omega))
    (by rw [Nat.zero_add, hpt]; exact stop_at h key x hx)
    (fun u h1 h2 => path_ne_start d g _ key u h1 (by omega))

/-- Lookup of a key that is not stored does not end at the cycle guard when the table has
an Empty bucket. -/
theorem get_guard_absent (d : Decl K) (h : alignhash_t K V) (w : WF d h) (key : K)
    (habs : ∀ i, ¬ At h i key) (hex : ∃ i, i < h.nbucket ∧ AH_ISEMPTY h.flags i ≠ 0) :
    get_guard d h key = some false := by
  obtain ⟨i, hi, hie⟩ := hex
  have hp : 0 < h.nbucket := by omega
  have g := w.geo hp
  obtain ⟨t0, ht0, hpt0⟩ := path_surj d g h.order key i hi
  obtain ⟨t, ht, hte, hmin⟩ := first_empty h.flags (path d h.nbucket h.order h.mask key)
    h.nbucket ⟨t0, ht0, by rw [hpt0]; exact hie⟩
  rw [get_guard_unfold d h key hp]
  exact get_loop_guard_stop h key (AH_PROBE_STEP d.tier (hkey d key) h.order h.mask)
    (hkey d key &&& h.mask) (path d h.nbucket h.order h.mask key)
    (path_succ d _ _ _ key) t 0 h.nbucket ht
    (fun u _ hu => cont_absent h key _ (path_lt d g _ _ _) habs (hmin u (by omega)))
    (by rw [Nat.zero_add]; exact fun hc => hte hc.1)
    (fun u h1 h2 => path_ne_start d g _ key u h1 (by omega))

/-- In every reachable table `nused` does not exceed the threshold `sup`. -/
theorem reachable_nused_le_sup (d : Decl K) (h : alignhash_t K V) (hr : Reachable d h) :
    h.nused ≤ h.sup := by
  induction hr with
  | init keys0 vals0 => exact le_refl _
  | set h key ret r hr hs _ =>
    have w := reachable_wf d h hr
    obtain ⟨h1, y, _, _, hlt, _, _, _, _, hs', _, hc⟩ := set_decomp d h w key ret
    rw [hs] at hs'
    have e : r = set_store h1 key y := Option.some.inj hs'
    rw [e]
    rcases hc with hc | ⟨_, hno, _⟩
    · rw [set_store_present h1 key y hc.2.1]
      exact Nat.le_of_lt hlt
    · obtain ⟨_, _, _, _, _, _, _, hsup, _, hnu, _⟩ := set_store_absent h1 key y hno
      rw [hsup, hnu]
      split <;> omega
  | del h x _ _ ih =>
    unfold alignhash_del
    split
    · exact ih
    · exact ih
  | clear h _ ih =>
    unfold alignhash_clear
    split
    · exact Nat.zero_le _
    · exact ih
  | assign h x v _ _ ih => exact ih
  | resize h m r h' hr hres _ =>
    have w := reachable_wf d h hr
    by_cases hsz : h.size ≥ AH_SUP (2 ^ m)
    · rw [resize_reject d h _ r hsz] at hres
      simp at hres
    · obtain ⟨h'', hr', _, _, _, _, hsup, _, hnu, _⟩ := resize_spec d h w m r (by omega)
      rw [hres] at hr'
      simp only [Option.some.injEq, Prod.mk.injEq, true_and] at hr'
      rw [hr', hnu, hsup]
      omega

/-- C16 fails as stated: the reachable table holding keys 1 and 2 has 2 buckets, both
Occupied (the threshold of a 2-bucket table is 2), so no bucket is Empty, and
`alignhash_get` of the absent key 3 returns the sentinel through the full-cycle guard. -/
theorem C16_counterexample :
    Reachable declNat tbl12 ∧ tbl12.nbucket = 2 ∧
    (∀ i, i < tbl12.nbucket → AH_ISEMPTY tbl12.flags i = 0) ∧
    alignhash_get declNat tbl12 3 = some 2 ∧ get_guard declNat tbl12 3 = some true :=
  ⟨reach_tbl12, by decide, by decide, by decide, by decide⟩

/-- C16 (amended): in every reachable table with more than 2 buckets at least one bucket
is Empty, and for every key the probe loop of `alignhash_get` stops at a matching
Occupied bucket or at an Empty bucket and does not return through the full-cycle guard;
in every reachable table, whatever its bucket count, `alignhash_get` of a stored key
does not return through the guard. -/
theorem C16_cycle_guard_beyond_two_buckets (d : Decl K) (h : alignhash_t K V)
    (hr : Reachable d h) :
    (2 < alignhash_nbucket h →
      (∃ i, i < alignhash_nbucket h ∧ AH_ISEMPTY h.flags i ≠ 0) ∧
      ∀ key, get_guard d h key = some false) ∧
    (∀ key x, alignhash_get d h key = some x → x ≠ alignhash_end h →
      get_guard d h key = some false) := by
  have w := reachable_wf d h hr
  constructor
  · intro hnb
    have hnb' : 2 < h.nbucket := hnb
    have hle := reachable_nused_le_sup d h hr
    have hsup : h.sup < h.nbucket := by
      rw [w.sup_eq]; unfold AH_SUP; omega
    have hex : ∃ i, i < h.nbucket ∧ AH_ISEMPTY h.flags i ≠ 0 :=
      exists_of_card_filter_lt h.nbucket (fun i => AH_ISEMPTY h.flags i = 0) (by
        have := w.nused_eq; unfold used_count at this; omega)
    refine ⟨hex, fun key => ?_⟩
    rcases get_total d h w key with ⟨x, hx, _⟩ | ⟨habs, _⟩
    · exact get_guard_present d h w key x hx
    · exact get_guard_absent d h w key habs hex
  · intro key x hg hne
    exact get_guard_present d h w key x (get_some_at d h w key x hg hne)

theorem C16_witness :
    Reachable declNat tblTomb ∧ 2 < alignhash_nbucket tblTomb ∧
    ((∃ i, i < alignhash_nbucket tblTomb ∧ AH_ISEMPTY tblTomb.flags i ≠ 0) ∧
      ∀ key, get_guard declNat tblTomb key = some false) :=
  ⟨reach_tblTomb, by decide,
    (C16_cycle_guard_beyond_two_buckets declNat tblTomb reach_tblTomb).1 (by decide)⟩

/-! ## The shape of the table -/

theorem ReachableNoResize.reachable {d : Decl K} {h : alignhash_t K V}
    (hr : ReachableNoResize d h) : Reachable d h := by
  induction hr with
  | init keys0 vals0 => exact Reachable.init keys0 vals0
  | set h key ret r _ hs ih => exact Reachable.set h key ret r ih hs
  | del h x _ hx ih => exact Reachable.del h x ih hx
  | clear h _ ih => exact Reachable.clear h ih
  | assign h x v _ hx ih => exact Reachable.assign h x v ih hx

/-- Without direct calls of `alignhash_resize`, the bucket count is 0 or `2^(order+1)`. -/
theorem shape_order (d : Decl K) (h : alignhash_t K V) (hr : ReachableNoResize d h) :
    h.nbucket = 0 ∨ h.nbucket = 2 ^ (h.order + 1) := by
  induction hr with
  | init keys0 vals0 => exact Or.inl rfl
  | set h key ret r hr hs ih =>
    have w := reachable_wf d h hr.reachable
    obtain ⟨h', x, r'⟩ := r
    rcases set_frame d h w key ret h' x r' hs with ⟨_, hnb, _, hor, _⟩ | ⟨_, hnb, hor⟩
    · show h'.nbucket = 0 ∨ h'.nbucket = 2 ^ (h'.order + 1)
      rw [hnb, hor]; exact ih
    · show h'.nbucket = 0 ∨ h'.nbucket = 2 ^ (h'.order + 1)
      right
      by_cases h0 : h.nbucket ≠ 0
      · rw [if_pos h0] at hnb hor
        rw [hnb, hor, pow_succ 2 (h.order + 1), ← ih.resolve_left h0]
      · rw [if_neg h0] at hnb hor
        rw [hnb, hor]
        rfl
  | del h x _ _ ih =>
    unfold alignhash_del
    split
    · exact ih
    · exact ih
  | clear h _ ih =>
    unfold alignhash_clear
    split
    · exact ih
    · exact ih
  | assign h x v _ _ ih => exact ih

/-- C17: in every table reachable from `alignhash_init` by `alignhash_set`,
`alignhash_del`, `alignhash_clear` (and value assignment), `nbucket` is 0 or a power of
two that is at least 2; when `nbucket > 0`, `mask = nbucket - 1`,
`nbucket = 2^(order+1)` and `sup = floor(nbucket * 77/100 + 1/2)`; an `alignhash_set` on a
table with `nbucket = 0` sets `nbucket` to 2 (and `order` to 0), and on a table with
`nbucket > 0` it leaves `nbucket` and `order` unchanged or exactly doubles `nbucket` and
increments `order` by 1. -/
theorem C17_shape_invariant (d : Decl K) (h : alignhash_t K V) (hr : ReachableNoResize d h) :
    (alignhash_nbucket h = 0 ∨ ∃ m, 1 ≤ m ∧ alignhash_nbucket h = 2 ^ m) ∧
    (0 < alignhash_nbucket h →
      h.mask = alignhash_nbucket h - 1 ∧ alignhash_nbucket h = 2 ^ (h.order + 1) ∧
      h.sup = (alignhash_nbucket h * 77 + 50) / 100) ∧
    (∀ key ret, ∃ h' x r, alignhash_set d h key ret = some (h', x, r) ∧
      (alignhash_nbucket h = 0 → alignhash_nbucket h' = 2 ∧ h'.order = 0) ∧
      (0 < alignhash_nbucket h →
        (alignhash_nbucket h' = alignhash_nbucket h ∧ h'.order = h.order) ∨
        (alignhash_nbucket h' = 2 * alignhash_nbucket h ∧ h'.order = h.order + 1))) := by
  have w := reachable_wf d h hr.reachable
  have hs := shape_order d h hr
  refine ⟨?_, fun hpos => ?_, fun key ret => ?_⟩
  · rcases hs with h0 | h1
    · exact Or.inl h0
    · exact Or.inr ⟨h.order + 1, by omega, h1⟩
  · have hpos' : 0 < h.nbucket := hpos
    refine ⟨w.mask_eq, hs.resolve_left (by omega), ?_⟩
    rw [w.sup_eq]
    unfold AH_SUP alignhash_nbucket
    rw [Nat.mul_comm]
  · obtain ⟨r, hset, _⟩ := wf_set d h w key ret
    obtain ⟨h', x, r'⟩ := r
    refine ⟨h', x, r', hset, fun h0 => ?_, fun hpos => ?_⟩
    · have h0' : h.nbucket = 0 := h0
      rcases set_frame d h w key ret h' x r' hset with ⟨hlt, _⟩ | ⟨_, hnb, hor⟩
      · have := w.sup_eq
        rw [h0'] at this
        have : h.sup = 0 := by rw [this]; rfl
        omega
      · rw [if_neg (by omega)] at hnb hor
        exact ⟨hnb, hor⟩
    · have hpos' : 0 < h.nbucket := hpos
      rcases set_frame d h w key ret h' x r' hset with ⟨_, hnb, _, hor, _⟩ | ⟨_, hnb, hor⟩
      · exact Or.inl ⟨hnb, hor⟩
      · rw [if_pos (by omega)] at hnb hor
        exact Or.inr ⟨by show h'.nbucket = 2 * h.nbucket; omega, hor⟩

theorem reachNR_tbl1 : ReachableNoResize declNat tbl1 :=
  ReachableNoResize.set fresh 1 0 (tbl1, 1, 1) (ReachableNoResize.init _ _) (by rfl)

theorem reachNR_tbl12 : ReachableNoResize declNat tbl12 :=
  ReachableNoResize.set tbl1 2 0 (tbl12, 0, 1) reachNR_tbl1 (by rfl)

theorem C17_witness :
    ReachableNoResize declNat tbl12 ∧
    (alignhash_nbucket tbl12 = 0 ∨ ∃ m, 1 ≤ m ∧ alignhash_nbucket tbl12 = 2 ^ m) ∧
    (0 < alignhash_nbucket tbl12 →
      tbl12.mask = alignhash_nbucket tbl12 - 1 ∧
      alignhash_nbucket tbl12 = 2 ^ (tbl12.order + 1) ∧
      tbl12.sup = (alignhash_nbucket tbl12 * 77 + 50) / 100) ∧
    (∀ key ret, ∃ h' x r, alignhash_set declNat tbl12 key ret = some (h', x, r) ∧
      (alignhash_nbucket tbl12 = 0 → alignhash_nbucket h' = 2 ∧ h'.order = 0) ∧
      (0 < alignhash_nbucket tbl12 →
        (alignhash_nbucket h' = alignhash_nbucket tbl12 ∧ h'.order = tbl12.order) ∨
        (alignhash_nbucket h' = 2 * alignhash_nbucket tbl12 ∧
          h'.order = tbl12.order + 1))) :=
  ⟨reachNR_tbl12, C17_shape_invariant declNat tbl12 reachNR_tbl12⟩

/-! ## Termination of the rehash, clear -/

/-- C18: for every reachable table and every power-of-two target `2^m` (with any order,
the matching one included) below whose threshold the size lies, `alignhash_resize`
returns 0: the walk, every displacement chain and every inner probe end within the
model's bounds (`new_nbucket` advances for a probe, `nbucket + 1` rounds for a chain).
At every state of the rehash with an entry in hand (a state satisfying the rehash
invariant `RInv`), the inner probe over the new flag array reaches an Empty bucket
below `2^m`; a swap, which marks an Occupied bucket of the old flag array Deleted,
lowers the number of Occupied buckets of the old flag array by exactly 1; and the
chain returns within any number of rounds that exceeds that number. -/
theorem C18_resize_terminates (d : Decl K) (h : alignhash_t K V) (hr : Reachable d h)
    (m r : Nat) (hsz : h.size < AH_SUP (2 ^ m)) :
    (∃ h', alignhash_resize d h (2 ^ m) r = some (0, h')) ∧
    ∀ (hh : alignhash_t K V) (nf : List Nat) (key : K) (val : V),
      RInv d (2 ^ m) r (2 ^ m - 1) h hh nf (some (hentry d key val)) →
      (∃ i, resize_probe nf (2 ^ m) (AH_PROBE_STEP d.tier (hkey d key) r (2 ^ m - 1)) (2 ^ m)
            (hkey d key &&& (2 ^ m - 1)) = some i ∧
          i < 2 ^ m ∧ AH_ISEMPTY nf i ≠ 0) ∧
      (∀ i, i < hh.nbucket → AH_ISEITHER hh.flags i = 0 →
        occ_count (AH_SET_DEL hh.flags i) hh.nbucket + 1 = occ_count hh.flags hh.nbucket) ∧
      (∀ fuel, occ_count hh.flags hh.nbucket < fuel →
        ∃ out, resize_chain d (2 ^ m) r (2 ^ m - 1) fuel hh nf key val = some out) := by
  have w := reachable_wf d h hr
  have hle : h.size ≤ 2 ^ m := by have := sup_le (2 ^ m); omega
  constructor
  · obtain ⟨h', hres, _⟩ := resize_spec d h w m r hsz
    exact ⟨h', hres⟩
  · intro hh nf key val R
    refine ⟨?_, fun i hi ho => ?_, fun fuel hf => ?_⟩
    · have hlt : used_count nf (2 ^ m) < 2 ^ m := by
        have := R.count
        simp only [Option.isSome_some, if_true] at this
        omega
      obtain ⟨t, _, hte, _, hprobe⟩ := resize_probe_spec d (2 ^ m) r (2 ^ m - 1) (geo_pow m) nf
        key hlt
      exact ⟨_, hprobe, path_lt d (geo_pow m) r key t, hte⟩
    · have hl : i / 16 < hh.flags.length := by
        rw [R.fl_len, ← R.nb_eq]; exact nflags_bound _ _ hi
      exact (occ_count_set_del hh.flags hh.nbucket i hi hl ho).symm
    · obtain ⟨h', nf', he, _⟩ := chain_spec d (2 ^ m) r (2 ^ m - 1) (geo_pow m) h hle fuel hh nf
        key val R (by rw [← R.nb_eq]; exact hf)
      exact ⟨_, he⟩

theorem C18_witness :
    Reachable declNat tbl12 ∧ tbl12.size < AH_SUP (2 ^ 2) ∧
    RInv declNat (2 ^ 2) 1 (2 ^ 2 - 1) tbl12 { tbl12 with flags := AH_SET_DEL tbl12.flags 0 }
      (memset_aa [] (AH_NFLAGS (2 ^ 2))) (some (hentry declNat (tbl12.keys 0) (tbl12.vals 0))) ∧
    (∃ h', alignhash_resize declNat tbl12 (2 ^ 2) 1 = some (0, h')) ∧
    (∃ i, resize_probe (memset_aa [] (AH_NFLAGS (2 ^ 2))) (2 ^ 2)
          (AH_PROBE_STEP declNat.tier (hkey declNat (tbl12.keys 0)) 1 (2 ^ 2 - 1)) (2 ^ 2)
          (hkey declNat (tbl12.keys 0) &&& (2 ^ 2 - 1)) = some i ∧
        i < 2 ^ 2 ∧ AH_ISEMPTY (memset_aa [] (AH_NFLAGS (2 ^ 2))) i ≠ 0) :=
  ⟨reach_tbl12, by decide,
    rinv_pick declNat _ _ _ tbl12 tbl12 _ (rinv_init declNat _ _ _ tbl12
      (reachable_wf declNat tbl12 reach_tbl12)) 0 (by decide) (by decide),
    (C18_resize_terminates declNat tbl12 reach_tbl12 2 1 (by decide)).1,
    ((C18_resize_terminates declNat tbl12 reach_tbl12 2 1 (by decide)).2 _ _ _ _
      (rinv_pick declNat _ _ _ tbl12 tbl12 _ (rinv_init declNat _ _ _ tbl12
        (reachable_wf declNat tbl12 reach_tbl12)) 0 (by decide) (by decide))).1⟩

theorem sup_pos (nb : Nat) (h : 0 < nb) : 0 < AH_SUP nb := by
  unfold AH_SUP; omega

/-- C20: on every reachable table with `nbucket > 0`, after `alignhash_clear` every
bucket below `nbucket` is Empty (its 2-bit state is 2: bit 1 set, bit 0 clear), `size`
and `nused` are 0, and `nbucket`, `mask`, `order`, `sup` are unchanged; `alignhash_get`
then returns the sentinel for every key, and a following `alignhash_set` reports
`AH_INS_NEW` with `nbucket` unchanged.  On a freshly created table and on every
reachable table with `nbucket = 0`, `alignhash_clear` changes nothing. -/
theorem C20_clear (d : Decl K) (h : alignhash_t K V) (hr : Reachable d h) :
    (0 < alignhash_nbucket h →
      (∀ i, i < alignhash_nbucket h →
        AH_ISEITHER (alignhash_clear h).flags i = 2 ∧
        AH_ISEMPTY (alignhash_clear h).flags i = 2 ∧ AH_ISDEL (alignhash_clear h).flags i = 0) ∧
      alignhash_size (alignhash_clear h) = 0 ∧ (alignhash_clear h).nused = 0 ∧
      alignhash_nbucket (alignhash_clear h) = alignhash_nbucket h ∧
      (alignhash_clear h).mask = h.mask ∧ (alignhash_clear h).order = h.order ∧
      (alignhash_clear h).sup = h.sup ∧
      (∀ key, alignhash_get d (alignhash_clear h) key
        = some (alignhash_end (alignhash_clear h))) ∧
      (∀ key ret, ∃ h' x, alignhash_set d (alignhash_clear h) key ret
          = some (h', x, AH_INS_NEW) ∧ alignhash_nbucket h' = alignhash_nbucket h)) ∧
    (alignhash_nbucket h = 0 → alignhash_clear h = h) ∧
    (∀ (keys0 : Nat → K) (vals0 : Nat → V),
      alignhash_clear (alignhash_init keys0 vals0) = alignhash_init keys0 vals0) := by
  have w := reachable_wf d h hr
  refine ⟨fun hpos => ?_, fun h0 => clear_fresh d h w h0, fun keys0 vals0 => rfl⟩
  have hpos' : 0 < h.nbucket := hpos
  have wc := wf_clear d h w
  have hce := clear_eq d h w hpos'
  have hemp : ∀ i, i < h.nbucket → AH_ISEMPTY (alignhash_clear h).flags i = 2 := by
    intro i hi
    rw [hce]
    exact isempty_replicate _ _ (nflags_bound _ _ hi)
  have hdel : ∀ i, i < h.nbucket → AH_ISDEL (alignhash_clear h).flags i = 0 := by
    intro i hi
    rw [hce]
    exact isdel_replicate _ _ (nflags_bound _ _ hi)
  have hnb : (alignhash_clear h).nbucket = h.nbucket := by rw [hce]
  have hnu : (alignhash_clear h).nused = 0 := by rw [hce]
  have hsup : (alignhash_clear h).sup = h.sup := by rw [hce]
  have habs : ∀ key i, ¬ At (alignhash_clear h) i key := by
    intro key i hi
    have h1 := ((iseither_zero_iff _ _).mp hi.2.1).1
    rw [hemp i (by rw [← hnb]; exact hi.1)] at h1
    omega
  refine ⟨fun i hi => ⟨?_, hemp i hi, hdel i hi⟩, by rw [hce]; rfl, hnu, hnb, by rw [hce],
    by rw [hce], hsup, fun key => get_absent d _ wc key (habs key), fun key ret => ?_⟩
  · rw [iseither_eq, hemp i hi, hdel i hi]
  · obtain ⟨h1, x, _, _, _, _, _, hgd, _, hs, hx, hc⟩ := set_decomp d (alignhash_clear h) wc key ret
    have e1 : h1 = alignhash_clear h := by
      rcases hgd with ⟨_, e⟩ | ⟨hge, _⟩
      · exact e
      · have := sup_pos h.nbucket hpos'
        have := w.sup_eq
        omega
    rw [e1] at hs hx hc
    rcases hc with hc | _
    · exact absurd hc (habs key x)
    · have hne : AH_ISEMPTY (alignhash_clear h).flags x ≠ 0 := by
        rw [hemp x (by rw [← hnb]; exact hx)]; omega
      rw [set_store_new _ key x hne] at hs
      exact ⟨_, x, hs, hnb⟩

theorem C20_witness :
    Reachable declNat tbl12 ∧ 0 < alignhash_nbucket tbl12 ∧
    (∀ i, i < alignhash_nbucket tbl12 →
        AH_ISEITHER (alignhash_clear tbl12).flags i = 2 ∧
        AH_ISEMPTY (alignhash_clear tbl12).flags i = 2 ∧
        AH_ISDEL (alignhash_clear tbl12).flags i = 0) ∧
    alignhash_size (alignhash_clear tbl12) = 0 ∧
    alignhash_clear (alignhash_init (fun _ => (0 : Nat)) (fun _ => (0 : Nat)))
      = alignhash_init (fun _ => 0) (fun _ => 0) :=
  ⟨reach_tbl12, by decide,
    ((C20_clear declNat tbl12 reach_tbl12).1 (by decide)).1,
    ((C20_clear declNat tbl12 reach_tbl12).1 (by decide)).2.1,
    (C20_clear declNat tbl12 reach_tbl12).2.2 _ _⟩

/-! ## Resize reclaims tombstones, for any target bucket count -/

theorem probe_next_lt (nb step i : Nat) (hi : i < nb) (hs : step ≤ nb) :
    probe_next nb step i < nb := by
  rw [probe_next_eq nb step i hi hs]
  exact Nat.mod_lt _ (by omega)

/-- When the inner probe of the rehash returns, it returns an Empty bucket in range. -/
theorem resize_probe_some (nf : List Nat) (nn step : Nat) (hs : step ≤ nn) :
    ∀ (fuel i j : Nat), i < nn → resize_probe nf nn step fuel i = some j →
      j < nn ∧ AH_ISEMPTY nf j ≠ 0 := by
  intro fuel
  induction fuel with
  | zero => intro i j _ hp; rw [resize_probe] at hp; cases hp
  | succ f ih =>
    intro i j hi hp
    rw [resize_probe] at hp
    by_cases he : AH_ISEMPTY nf i = 0
    · rw [if_pos he] at hp
      exact ih _ j (probe_next_lt nn step i hi hs) hp
    · rw [if_neg he] at hp
      have e : i = j := Option.some.inj hp
      rw [← e]
      exact ⟨hi, he⟩

theorem step_le_any (tier : Bool) (k r nn : Nat) (hn : 0 < nn) :
    AH_PROBE_STEP tier k r (nn - 1) ≤ nn := by
  unfold AH_PROBE_STEP
  split
  · have := @Nat.and_le_right (k >>> r ||| 1) (nn - 1)
    omega
  · exact hn

theorem idx_lt_any (k nn : Nat) (hn : 0 < nn) : k &&& (nn - 1) < nn := by
  have := @Nat.and_le_right k (nn - 1)
  omega

/-- Whenever a displacement chain returns, the counting invariant holds again with
nothing in hand, and no bucket of the old flag array has become Occupied. -/
theorem chain_lite (d : Decl K) (nn r : Nat) (hn : 0 < nn) (h0 : alignhash_t K V) :
    ∀ (fuel : Nat) (h : alignhash_t K V) (nf : List Nat) (key : K) (val : V)
      (out : alignhash_t K V × List Nat),
      resize_chain d nn r (nn - 1) fuel h nf key val = some out →
      RLite nn h0 h nf true →
      RLite nn h0 out.1 out.2 false ∧
      (∀ i, AH_ISEITHER out.1.flags i = 0 → AH_ISEITHER h.flags i = 0) := by
  intro fuel
  induction fuel with
  | zero => intro h nf key val out hc; rw [resize_chain] at hc; cases hc
  | succ f ih =>
    intro h nf key val out hc R
    rw [resize_chain_succ] at hc
    cases hp : resize_probe nf nn (AH_PROBE_STEP d.tier (hkey d key) r (nn - 1)) nn
        (hkey d key &&& (nn - 1)) with
    | none => rw [hp] at hc; cases hc
    | some i =>
      rw [hp] at hc
      obtain ⟨hi, hie⟩ := resize_probe_some nf nn _ (step_le_any d.tier _ r nn hn) nn _ i
        (idx_lt_any _ nn hn) hp
      have hl : i / 16 < nf.length := by rw [R.nf_len]; exact nflags_bound _ _ hi
      have h1 := used_count_clear_empty nf nn i hi hl hie
      have hcnt := R.count
      simp only [if_true] at hcnt
      by_cases hsw : i < h.nbucket ∧ AH_ISEITHER h.flags i = 0
      · simp only [if_pos hsw] at hc
        have hi0 : i < h0.nbucket := by rw [← R.nb_eq]; exact hsw.1
        have hl2 : i / 16 < h.flags.length := by rw [R.fl_len]; exact nflags_bound _ _ hi0
        have h2 := occ_count_set_del h.flags h0.nbucket i hi0 hl2 hsw.2
        have R' : RLite nn h0
            { h with
              keys := Function.update h.keys i key,
              vals := if d.ismap then Function.update h.vals i val else h.vals,
              flags := AH_SET_DEL h.flags i }
            (AH_CLEAR_EMPTY nf i) true :=
          { nb_eq := R.nb_eq
            size_eq := R.size_eq
            fl_len := by rw [← R.fl_len]; exact length_set_del _ _
            nf_len := by rw [← R.nf_len]; exact length_clear_empty _ _
            nf_nodel := fun j => by rw [isdel_clear_empty]; exact R.nf_nodel j
            count := by
              show used_count (AH_CLEAR_EMPTY nf i) nn
                + occ_count (AH_SET_DEL h.flags i) h0.nbucket + (if true then 1 else 0) = h0.size
              simp only [if_true]
              omega }
        obtain ⟨Rout, hmono⟩ := ih _ _ _ _ out hc R'
        exact ⟨Rout, fun j hj => ((occ_set_del _ _ _ hl2).mp (hmono j hj)).2⟩
      · simp only [if_neg hsw] at hc
        have e := Option.some.inj hc
        rw [← e]
        exact ⟨{ nb_eq := R.nb_eq
                 size_eq := R.size_eq
                 fl_len := R.fl_len
                 nf_len := by rw [← R.nf_len]; exact length_clear_empty _ _
                 nf_nodel := fun j => by rw [isdel_clear_empty]; exact R.nf_nodel j
                 count := by
                   show used_count (AH_CLEAR_EMPTY nf i) nn + occ_count h.flags h0.nbucket
                     + (if false then 1 else 0) = h0.size
                   simp only [Bool.false_eq_true, if_false]
                   omega },
          fun j hj => hj⟩

/-- Whenever the walk returns, the counting invariant holds and every original entry has
been processed. -/
theorem walk_lite (d : Decl K) (nn r : Nat) (hn : 0 < nn) (h0 : alignhash_t K V) :
    ∀ (n j : Nat) (h : alignhash_t K V) (nf : List Nat) (out : alignhash_t K V × List Nat),
      resize_walk d nn r (nn - 1) n j h nf = some out →
      j + n = h0.nbucket → RLite nn h0 h nf false →
      (∀ i, i < j → AH_ISEITHER h.flags i ≠ 0) →
      RLite nn h0 out.1 out.2 false ∧ (∀ i, i < h0.nbucket → AH_ISEITHER out.1.flags i ≠ 0) := by
  intro n
  induction n with
  | zero =>
    intro j h nf out hw hj R hdone
    have e : (h, nf) = out := Option.some.inj hw
    rw [← e]
    exact ⟨R, fun i hi => hdone i (by omega)⟩
  | succ n ih =>
    intro j h nf out hw hj R hdone
    rw [resize_walk_succ] at hw
    by_cases ho : AH_ISEITHER h.flags j = 0
    · rw [if_pos ho] at hw
      have hj0 : j < h0.nbucket := by omega
      have hl2 : j / 16 < h.flags.length := by rw [R.fl_len]; exact nflags_bound _ _ hj0
      have h2 := occ_count_set_del h.flags h0.nbucket j hj0 hl2 ho
      have hcnt := R.count
      simp only [Bool.false_eq_true, if_false] at hcnt
      have R1 : RLite nn h0 { h with flags := AH_SET_DEL h.flags j } nf true :=
        { nb_eq := R.nb_eq
          size_eq := R.size_eq
          fl_len := by rw [← R.fl_len]; exact length_set_del _ _
          nf_len := R.nf_len
          nf_nodel := R.nf_nodel
          count := by
            show used_count nf nn + occ_count (AH_SET_DEL h.flags j) h0.nbucket
              + (if true then 1 else 0) = h0.size
            simp only [if_true]
            omega }
      cases hc : resize_chain d nn r (nn - 1) (h.nbucket + 1)
          { h with flags := AH_SET_DEL h.flags j } nf (h.keys j) (h.vals j) with
      | none => rw [hc] at hw; cases hw
      | some mid =>
        rw [hc] at hw
        obtain ⟨Rm, hmono⟩ := chain_lite d nn r hn h0 _ _ _ _ _ mid hc R1
        refine ih (j + 1) mid.1 mid.2 out hw (by omega) Rm (fun i hi hoi => ?_)
        have h1 := (occ_set_del _ _ _ hl2).mp (hmono i hoi)
        rcases Nat.lt_succ_iff_lt_or_eq.mp hi with h3 | h3
        · exact hdone i h3 h1.2
        · exact h1.1 h3
    · rw [if_neg ho] at hw
      refine ih (j + 1) h nf out hw (by omega) R (fun i hi => ?_)
      rcases Nat.lt_succ_iff_lt_or_eq.mp hi with h3 | h3
      · exact hdone i h3
      · rw [h3]; exact ho

/-- C19: after every call of `alignhash_resize` on a reachable table that returns 0, for
any target bucket count (larger, smaller or equal, power of two or not), no bucket
below `new_nbucket` is Deleted, every bucket is Occupied or Empty (state 0 or 2),
exactly `size` buckets are Occupied, `size` is unchanged, `nused = size`,
`nbucket = new_nbucket`, `mask = new_nbucket - 1`, `order = new_order` and
`sup = floor(new_nbucket * 0.77 + 0.5)`. -/
theorem C19_resize_reclaims_tombstones (d : Decl K) (h : alignhash_t K V)
    (hr : Reachable d h) (new_nbucket new_order : Nat) (h' : alignhash_t K V)
    (hres : alignhash_resize d h new_nbucket new_order = some (0, h')) :
    (∀ i, i < new_nbucket → AH_ISDEL h'.flags i = 0) ∧
    (∀ i, i < new_nbucket → AH_ISEITHER h'.flags i = 0 ∨ AH_ISEITHER h'.flags i = 2) ∧
    occ_count h'.flags new_nbucket = alignhash_size h' ∧
    alignhash_size h' = alignhash_size h ∧ h'.nused = alignhash_size h' ∧
    alignhash_nbucket h' = new_nbucket ∧ h'.mask = new_nbucket - 1 ∧
    h'.order = new_order ∧ h'.sup = (77 * new_nbucket + 50) / 100 := by
  have w := reachable_wf d h hr
  by_cases hsz : h.size ≥ AH_SUP new_nbucket
  · rw [resize_reject d h _ _ hsz] at hres
    simp at hres
  · have hn : 0 < new_nbucket := by
      by_contra hc
      have : new_nbucket = 0 := by omega
      rw [this] at hsz
      exact hsz (Nat.zero_le _)
    unfold alignhash_resize at hres
    rw [if_neg hsz] at hres
    cases hw : resize_walk d new_nbucket new_order (new_nbucket - 1) h.nbucket 0 h
        (memset_aa [] (AH_NFLAGS new_nbucket)) with
    | none => rw [hw] at hres; cases hres
    | some out =>
      rw [hw] at hres
      have he : ∀ i, i < new_nbucket →
          AH_ISEMPTY (memset_aa [] (AH_NFLAGS new_nbucket)) i ≠ 0 := by
        intro i hi
        rw [memset_nil, isempty_replicate _ _ (nflags_bound _ _ hi)]
        omega
      have R0 : RLite new_nbucket h h (memset_aa [] (AH_NFLAGS new_nbucket)) false :=
        { nb_eq := rfl
          size_eq := rfl
          fl_len := w.flags_len
          nf_len := by rw [memset_nil]; simp
          nf_nodel := fun i => by rw [memset_nil]; exact isdel_replicate_all _ i
          count := by
            have h1 : used_count (memset_aa [] (AH_NFLAGS new_nbucket)) new_nbucket = 0 :=
              card_filter_zero _ _ (fun i hi => he i hi)
            rw [h1, ← w.size_eq]
            simp }
      obtain ⟨R, hdone⟩ := walk_lite d new_nbucket new_order hn h h.nbucket 0 h _ out hw
        (by omega) R0 (fun i hi => by omega)
      have hocc0 : occ_count out.1.flags h.nbucket = 0 :=
        card_filter_zero _ _ (fun i hi => hdone i hi)
      have hcnt : used_count out.2 new_nbucket = h.size := by
        have := R.count
        rw [hocc0] at this
        simpa using this
      obtain ⟨o1, o2⟩ := out
      have e := (Prod.mk.inj (Option.some.inj hres)).2
      rw [← e]
      refine ⟨fun i _ => R.nf_nodel i, fun i _ => ?_, ?_, R.size_eq, rfl, rfl, rfl, rfl, rfl⟩
      · show AH_ISEITHER o2 i = 0 ∨ AH_ISEITHER o2 i = 2
        rw [iseither_eq, R.nf_nodel i]
        rcases isempty_le o2 i with h1 | h1 <;> rw [h1] <;> simp
      · show occ_count o2 new_nbucket = o1.size
        rw [R.size_eq, ← hcnt]
        unfold occ_count used_count
        refine card_filter_same _ _ _ (fun j _ => ?_)
        rw [iseither_zero_iff]
        exact ⟨fun hh => hh.1, fun hh => ⟨hh, R.nf_nodel j⟩⟩

theorem C19_witness :
    Reachable declNat tblTomb ∧
    ∃ h', alignhash_resize declNat tblTomb 8 2 = some (0, h') ∧
      ((∀ i, i < 8 → AH_ISDEL h'.flags i = 0) ∧
       (∀ i, i < 8 → AH_ISEITHER h'.flags i = 0 ∨ AH_ISEITHER h'.flags i = 2) ∧
       occ_count h'.flags 8 = alignhash_size h' ∧
       alignhash_size h' = alignhash_size tblTomb ∧ h'.nused = alignhash_size h' ∧
       alignhash_nbucket h' = 8 ∧ h'.mask = 8 - 1 ∧
       h'.order = 2 ∧ h'.sup = (77 * 8 + 50) / 100) :=
  ⟨reach_tblTomb,
    (resize_spec declNat tblTomb (reachable_wf declNat tblTomb reach_tblTomb) 3 2
      (by decide)).elim
      (fun h' hh => ⟨h', hh.1,
        C19_resize_reclaims_tombstones declNat tblTomb reach_tblTomb 8 2 h' hh.1⟩)⟩

end AlignHash
